import Mathlib

/-!
Verification development for the msg-extractor repository: a shallow
embedding of the compound-file container engine, the property resolution
engine, the structured-value decoders, and the calendar accessor glue,
together with theorems settling the frozen claims about them.

The two calendar source files are embedded directly from the code.  The
container and property engines are not part of the provided sources (only
their callers are), so their definitions are modelled from the natural
language specification; each such definition carries a doc comment that
says so.

Conventions: machine bytes are natural numbers below 256, byte blobs are
lists of naturals, UTF-16 names are lists of 16-bit code units, and all
fallible operations return Except values.
-/

/-! ## Generic byte and list utilities -/

/-- Little-endian encoding of a natural number into a fixed number of bytes. -/
def leBytes : Nat → Nat → List Nat
  | 0, _ => []
  | w + 1, n => n % 256 :: leBytes w (n / 256)

/-- Little-endian decoding of a byte list into a natural number. -/
def leVal : List Nat → Nat
  | [] => 0
  | b :: rest => b % 256 + 256 * leVal rest

/-- Encoding of a 16-bit little-endian field. -/
def le16 (n : Nat) : List Nat := leBytes 2 n

/-- Encoding of a 32-bit little-endian field. -/
def le32 (n : Nat) : List Nat := leBytes 4 n

/-- Encoding of a 64-bit little-endian field. -/
def le64 (n : Nat) : List Nat := leBytes 8 n

/-- Reading of a little-endian field of width w at a byte offset of a blob. -/
def readLE (blob : List Nat) (off w : Nat) : Nat :=
  leVal ((blob.drop off).take w)

/-- Fuelled worker splitting a list into consecutive groups of size w, with
the final group padded on the right by a padding element.  The fuel only
needs to be at least the list length; it makes the recursion structural so
that concrete instances evaluate inside the kernel. -/
def chunkPadGo (w : Nat) (pad : α) : Nat → List α → List (List α)
  | 0, _ => []
  | _ + 1, [] => []
  | fuel + 1, a :: rest =>
    if w = 0 then []
    else ((a :: rest).take w ++ List.replicate (w - (a :: rest).length) pad) ::
      chunkPadGo w pad fuel ((a :: rest).drop w)

/-- Splitting of a list into consecutive groups of size w, with the final
group padded on the right by a padding element. -/
def chunkPad (w : Nat) (pad : α) (l : List α) : List (List α) :=
  chunkPadGo w pad l.length l

/-- Fuelled worker splitting a list into consecutive groups of size w,
keeping a ragged final group. -/
def chunkExactGo (w : Nat) : Nat → List α → List (List α)
  | 0, _ => []
  | _ + 1, [] => []
  | fuel + 1, a :: rest =>
    if w = 0 then []
    else (a :: rest).take w :: chunkExactGo w fuel ((a :: rest).drop w)

/-- Splitting of a list into consecutive groups of size w, keeping a ragged
final group. -/
def chunkExact (w : Nat) (l : List α) : List (List α) :=
  chunkExactGo w l.length l

/-- Right padding of a list to a target length. -/
def padTo (w : Nat) (pad : α) (l : List α) : List α :=
  l ++ List.replicate (w - l.length) pad

/-- Number of groups of size w needed to hold n elements. -/
def ceilDiv (n w : Nat) : Nat := (n + w - 1) / w

/-! ## SectorAllocationTable: the FAT chain walk -/

/-- Modelled from the spec: the FAT entry variants of the sector allocation
table, mapping a sector index to the next sector of its chain, a FREE mark,
an END_OF_CHAIN mark, or a mark that the sector holds FAT/DIFAT bookkeeping
itself (section 3 of the spec). -/
inductive FatEntry where
  | next (n : Nat)
  | free
  | endOfChain
  | fatSect
deriving DecidableEq, Repr

/-- Modelled from the spec: the error taxonomy of the container engine
(section 7 of the spec). -/
inductive CFErr where
  | notACompoundFile
  | unsupportedVersion
  | corruptChain
  | streamNotFound
  | typeMismatch
  | writerCapacityExceeded
deriving DecidableEq, Repr

/-- Modelled from the spec: the fuelled chain walk of SectorAllocationTable.
Each step looks the current sector up in the FAT; a FREE entry, a
FAT-bookkeeping entry or an out-of-range index mid-chain is CorruptChain,
END_OF_CHAIN ends the chain, and exhausting the fuel (one unit per visited
sector, so a chain longer than the total sector count) is the cycle guard,
also CorruptChain (section 4.1 of the spec). -/
def chainAux (fat : List FatEntry) : Nat → Nat → Except CFErr (List Nat)
  | 0, _ => .error .corruptChain
  | fuel + 1, cur =>
    match fat[cur]? with
    | none => .error .corruptChain
    | some .free => .error .corruptChain
    | some .fatSect => .error .corruptChain
    | some .endOfChain => .ok [cur]
    | some (.next n) => (chainAux fat fuel n).map (cur :: ·)

/-- Modelled from the spec: chain(startSector) of SectorAllocationTable,
the sequence of sector indices of one chain, failing with CorruptChain on
FREE or unallocated entries mid-chain and on chains longer than the total
sector count (section 4.1 of the spec). -/
def chain (fat : List FatEntry) (start : Nat) : Except CFErr (List Nat) :=
  chainAux fat fat.length start

/-- Modelled from the spec: decoding of a raw 32-bit FAT value into a FAT
entry; the top four values are reserved marks, everything else is a next
pointer. -/
def fatEntryOfVal (v : Nat) : FatEntry :=
  if v = 4294967295 then .free
  else if v = 4294967294 then .endOfChain
  else if 4294967292 ≤ v then .fatSect
  else .next v

/-- Modelled from the spec: encoding of a FAT entry as a raw 32-bit value. -/
def fatEntryVal : FatEntry → Nat
  | .next n => n
  | .free => 4294967295
  | .endOfChain => 4294967294
  | .fatSect => 4294967293

/-! ## Calendar accessor glue: named property lookup defaults -/

/-- Runtime value of the Python property layer: either the absent None or a
boolean, integer or string value, as the calendar accessors see them. -/
inductive PyValue where
  | none
  | bool (b : Bool)
  | int (n : Int)
  | str (s : String)
deriving DecidableEq, Repr

/-- Truthiness of a Python runtime value under bool(). -/
def pyTruthy : PyValue → Bool
  | .none => false
  | .bool b => b
  | .int n => n != 0
  | .str s => !(s.isEmpty)

/-- The bool constructor of Python used as an override class: bool(value). -/
def pyBool (v : PyValue) : PyValue := .bool (pyTruthy v)

/-- Modelled from the spec: the PSETID_APPOINTMENT property-set GUID string
of the constants module, which is not among the provided sources.  Only its
identity matters to the lookups; the surrounding braces of the literal are
omitted. -/
def PSETID_APPOINTMENT : String := "00062002-0000-0000-C000-000000000046"

/-- Modelled from the spec: the PSETID_MEETING property-set GUID string of
the constants module, which is not among the provided sources. -/
def PSETID_MEETING : String := "6ED8DA90-450B-101B-98DA-00AA003F1305"

/-- Modelled from the spec: the PS_PUBLIC_STRINGS property-set GUID string
of the constants module, which is not among the provided sources. -/
def PS_PUBLIC_STRINGS : String := "00020329-0000-0000-C000-000000000046"

/-- Modelled from the spec: _getNamedAs of MSGFile (msg_classes/msg.py),
which is not among the provided sources.  Per the upward interface of
section 6 the engine exposes getNamedProperty(guid, nameOrId) as an
optional value, and per the design note of section 9 the accessor wrapper
follows preserveNone semantics: the looked-up value (None when absent) has
the override class applied when it was found, and also applied to the
absent None when preserveNone is False; with preserveNone True an absent
value stays None.  The in-source callers confirm this reading: the
responseStatus accessor of calendar_base.py passes a lambda guarding its
argument with (x or 0), which only matters when the override class can
receive None. -/
def getNamedAs (props : List ((String × String) × PyValue)) (name guid : String)
    (overrideClass : Option (PyValue → PyValue)) (preserveNone : Bool) : PyValue :=
  let value := ((props.find? (fun e => e.1 == (name, guid))).map (fun e => e.2)).getD .none
  match overrideClass with
  | Option.none => value
  | Option.some oc => if value ≠ PyValue.none ∨ preserveNone = false then oc value else value

/-- Accessor appointmentNotAllowPropose of CalendarBase: named property 8259
of PSETID_APPOINTMENT as bool with preserveNone False. -/
def appointmentNotAllowPropose (props : List ((String × String) × PyValue)) : PyValue :=
  getNamedAs props "8259" PSETID_APPOINTMENT (some pyBool) false

/-- Accessor appointmentSubType of CalendarBase: named property 8215 of
PSETID_APPOINTMENT as bool with preserveNone False. -/
def appointmentSubType (props : List ((String × String) × PyValue)) : PyValue :=
  getNamedAs props "8215" PSETID_APPOINTMENT (some pyBool) false

/-- Accessor isException of CalendarBase: named property 000A of
PSETID_MEETING as bool with preserveNone False. -/
def isException (props : List ((String × String) × PyValue)) : PyValue :=
  getNamedAs props "000A" PSETID_MEETING (some pyBool) false

/-- Accessor isRecurring of CalendarBase: named property 0005 of
PSETID_MEETING as bool with preserveNone False. -/
def isRecurring (props : List ((String × String) × PyValue)) : PyValue :=
  getNamedAs props "0005" PSETID_MEETING (some pyBool) false

/-- Accessor meetingDoNotForward of CalendarBase: named property
DoNotForward of PS_PUBLIC_STRINGS as bool with preserveNone False. -/
def meetingDoNotForward (props : List ((String × String) × PyValue)) : PyValue :=
  getNamedAs props "DoNotForward" PS_PUBLIC_STRINGS (some pyBool) false

/-- Accessor fExceptionalBody of MeetingException: named property 8206 of
PSETID_APPOINTMENT as bool with preserveNone False. -/
def fExceptionalBody (props : List ((String × String) × PyValue)) : PyValue :=
  getNamedAs props "8206" PSETID_APPOINTMENT (some pyBool) false

/-- Accessor fInvited of MeetingException: named property 8229 of
PSETID_APPOINTMENT as bool with preserveNone False. -/
def fInvited (props : List ((String × String) × PyValue)) : PyValue :=
  getNamedAs props "8229" PSETID_APPOINTMENT (some pyBool) false

/-- Accessor recurring of CalendarBase: named property 8223 of
PSETID_APPOINTMENT as bool with preserveNone True. -/
def recurring (props : List ((String × String) × PyValue)) : PyValue :=
  getNamedAs props "8223" PSETID_APPOINTMENT (some pyBool) true

/-! ## CalendarBase recipient field generation -/

/-- Fuelled worker of the str.replace method of Python: every
non-overlapping occurrence of the nonempty pattern (p followed by ps),
scanning left to right, is replaced by rep.  The fuel only needs to be at
least the list length. -/
def replaceGo (p : Char) (ps rep : List Char) : Nat → List Char → List Char
  | 0, l => l
  | _ + 1, [] => []
  | fuel + 1, c :: rest =>
    if c == p && List.isPrefixOf ps rest then
      rep ++ replaceGo p ps rep fuel (rest.drop ps.length)
    else c :: replaceGo p ps rep fuel rest

/-- Replacement of every non-overlapping occurrence of the nonempty pattern
(p followed by ps) by rep, scanning left to right, as the str.replace
method of Python does on a nonempty pattern. -/
def replaceStr (p : Char) (ps rep : List Char) (l : List Char) : List Char :=
  replaceGo p ps rep l.length l

/-- Detection of two consecutive space characters, as the find of two
spaces in the loop guard of _genRecipient. -/
def hasDoubleSpace : List Char → Bool
  | [] => false
  | [_] => false
  | a :: b :: rest => (a == ' ' && b == ' ') || hasDoubleSpace (b :: rest)

/-- Fuelled worker of the whitespace-collapsing while loop of
_genRecipient: while the value contains two consecutive spaces, replace
every pair of spaces by one space. -/
def collapseGo : Nat → List Char → List Char
  | 0, l => l
  | fuel + 1, l =>
    if hasDoubleSpace l then collapseGo fuel (replaceStr ' ' [' '] [' '] l) else l

/-- The whitespace-collapsing while loop of _genRecipient; the list length
bounds the number of iterations, so it serves as fuel. -/
def collapseSpaces (l : List Char) : List Char :=
  collapseGo l.length l

/-- The single-line cleanup of _genRecipient (lines 63 to 66 of
calendar_base.py): three replacements of tab-bearing line-break sequences,
the replacement of the remaining line breaks, then the space-collapsing
loop. -/
def genRecipientClean (value : List Char) : List Char :=
  let v1 := replaceStr ' ' ['\r', '\n', '\t'] [' '] value
  let v2 := replaceStr '\r' ['\n', '\t', ' '] [' '] v1
  let v3 := replaceStr '\r' ['\n', '\t'] [' '] v2
  let v4 := replaceStr '\r' ['\n'] [' '] v3
  let v5 := replaceStr '\r' [] [' '] v4
  let v6 := replaceStr '\n' [] [' '] v5
  collapseSpaces v6

/-- Joining of a list of strings with a separator, as str.join of Python. -/
def joinSep (sep : List Char) (l : List (List Char)) : List Char :=
  (l.intersperse sep).flatten

/-- Final step of _genRecipient: a truthy value is cleaned to a single
line, a falsy one is returned as it stands. -/
def genRecipientFinal (v : Option (List Char)) : Option (List Char) :=
  match v with
  | Option.some v =>
    if v.isEmpty then Option.some v else Option.some (genRecipientClean v)
  | Option.none => Option.none

/-- The _genRecipient method of CalendarBase (lines 31 to 68 of
calendar_base.py) over its inputs: whether the header is initialised, the
looked-up header field (None when the field is missing), the recipient
separator, the recipient list as (type, formatted) pairs, and the wanted
recipient type.  The header value, when truthy, has commas replaced by the
separator; otherwise the formatted recipients of the wanted type are
joined by the separator plus a space; a truthy result is cleaned to a
single line. -/
def genRecipient (headerInit : Bool) (headerValue : Option (List Char))
    (recipientSeparator : List Char) (recipients : List (Nat × List Char))
    (recipientInt : Nat) : Option (List Char) :=
  let v0 : Option (List Char) := if headerInit then headerValue else Option.none
  let v1 : Option (List Char) :=
    match v0 with
    | Option.some v =>
      if v.isEmpty then Option.some v
      else Option.some (replaceStr ',' [] recipientSeparator v)
    | Option.none => Option.none
  let falsy : Bool :=
    match v1 with
    | Option.none => true
    | Option.some v => v.isEmpty
  let v2 : Option (List Char) :=
    if falsy then
      let found := (recipients.filter (fun r => r.1 == recipientInt)).map (fun r => r.2)
      if found.length > 0 then Option.some (joinSep (recipientSeparator ++ [' ']) found)
      else v1
    else v1
  genRecipientFinal v2

/-! ## MeetingException.save -/

/-- The SaveType enumeration of the enums module as far as the save method
of MeetingException needs it; the module is not among the provided sources,
so only the NONE variant used by the source is modelled, next to a second
variant standing for every other saving outcome. -/
inductive SaveType where
  | NONE
  | OTHER
deriving DecidableEq, Repr

/-- The save method of MeetingException (lines 21 to 30 of
meeting_exception.py): whatever the keyword arguments, it returns the pair
(SaveType.NONE, None) and touches nothing, so the embedding passes the
object state through unchanged next to the returned pair. -/
def meetingExceptionSave (state : σ) (_kwargs : List (String × String)) :
    (SaveType × Option String) × σ :=
  ((SaveType.NONE, Option.none), state)

/-! ## NamedPropertyResolver -/

/-- Modelled from the spec: a named-property discriminator, either a direct
32-bit numeric LID or a name string of UTF-16 code units read from the
string table (section 4.5 of the spec). -/
inductive NamedDisc where
  | lid (n : Nat)
  | strName (units : List Nat)
deriving DecidableEq, Repr

/-- Modelled from the spec: one fixed-size record of the entry table of the
nameid storage: the raw discriminator field (LID or string-table offset),
the string/numeric kind flag and the GUID-table index packed next to it,
and the synthetic property ID (section 4.5 of the spec). -/
structure NamedEntry where
  disc : Nat
  isStr : Bool
  guidIndex : Nat
  propId : Nat
deriving DecidableEq, Repr

/-- Modelled from the spec: the three streams of the nameid storage: the
GUID stream, the entry stream and the string stream (sections 4.5 and 6 of
the spec). -/
structure NameidStorage where
  guidStream : List Nat
  entryStream : List Nat
  stringStream : List Nat
deriving DecidableEq, Repr

/-- Modelled from the spec: the error of a failed named-property lookup
(section 4.5 of the spec). -/
inductive NPErr where
  | namedPropertyNotFound
deriving DecidableEq, Repr

/-- Modelled from the spec: the 16 bytes of the PS_MAPI well-known
property-set GUID, synthesized for reserved index 1, never read from the
GUID stream. -/
def PS_MAPI_GUID : List Nat :=
  [1, 0, 0, 0, 0, 0, 0, 0, 192, 0, 0, 0, 0, 0, 0, 70]

/-- Modelled from the spec: the 16 bytes of the PS_PUBLIC_STRINGS
well-known property-set GUID, synthesized for reserved index 2, never read
from the GUID stream. -/
def PS_PUBLIC_STRINGS_GUID : List Nat :=
  [41, 3, 2, 0, 0, 0, 0, 0, 192, 0, 0, 0, 0, 0, 0, 70]

/-- The 16 bytes of the PSETID_Appointment property-set GUID
(00062002-0000-0000-C000-000000000046) in their packed little-endian
layout, used by the concrete resolver instance of the claims. -/
def PSETID_APPOINTMENT_GUID : List Nat :=
  [2, 32, 6, 0, 0, 0, 0, 0, 192, 0, 0, 0, 0, 0, 0, 70]

/-- Modelled from the spec: parsing of the GUID stream as packed 16-byte
GUIDs (section 4.5 of the spec); only complete 16-byte groups count. -/
def guidsOfStream (bytes : List Nat) : List (List Nat) :=
  (chunkExact 16 bytes).filter (fun c => c.length == 16)

/-- Modelled from the spec: lookup of a GUID by packed index: indices 1 and
2 are the two well-known property sets synthesized by the resolver, and
index 3 onward selects a physical GUID-stream entry, offset past the two
reserved indices (section 4.5 of the spec). -/
def guidAt (guids : List (List Nat)) (idx : Nat) : Option (List Nat) :=
  if idx = 1 then some PS_MAPI_GUID
  else if idx = 2 then some PS_PUBLIC_STRINGS_GUID
  else if 3 ≤ idx then guids[idx - 3]?
  else Option.none

/-- Modelled from the spec: parsing of the entry stream as fixed-size
8-byte records: a 4-byte discriminator, a 2-byte packed field whose low bit
is the string kind and whose remaining bits are the GUID index, and the
2-byte synthetic property ID (section 4.5 of the spec). -/
def parseEntries (bytes : List Nat) : List NamedEntry :=
  ((chunkExact 8 bytes).filter (fun c => c.length == 8)).map fun r =>
    { disc := leVal (r.take 4)
      isStr := (readLE r 4 2) % 2 == 1
      guidIndex := (readLE r 4 2) / 2
      propId := readLE r 6 2 }

/-- Modelled from the spec: reading of one string-table entry at a byte
offset: a 4-byte length prefix followed by that many bytes of UTF-16LE
payload, decoded into code units; the read fails when the prefix points
past the end of the table (section 4.5 of the spec). -/
def stringAt (bytes : List Nat) (off : Nat) : Option (List Nat) :=
  let len := readLE bytes off 4
  if off + 4 + len ≤ bytes.length then
    some ((chunkExact 2 ((bytes.drop (off + 4)).take len)).map leVal)
  else Option.none

/-- Modelled from the spec: the discriminator denoted by an entry record:
the direct numeric LID, or the string read at the offset into the string
table (section 4.5 of the spec). -/
def discOf (stringStream : List Nat) (e : NamedEntry) : Option NamedDisc :=
  if e.isStr then (stringAt stringStream e.disc).map NamedDisc.strName
  else some (NamedDisc.lid e.disc)

/-- Modelled from the spec: whether an entry record associates the given
GUID and discriminator. -/
def entryMatches (guids : List (List Nat)) (stringStream : List Nat)
    (g : List Nat) (d : NamedDisc) (e : NamedEntry) : Bool :=
  decide (guidAt guids e.guidIndex = some g) &&
    decide (discOf stringStream e = some d)

/-- Modelled from the spec: the forward key of an entry record, the
resolved (GUID, discriminator) pair, used to state the bijection
invariant. -/
def namedKey (ns : NameidStorage) (e : NamedEntry) :
    Option (List Nat) × Option NamedDisc :=
  (guidAt (guidsOfStream ns.guidStream) e.guidIndex, discOf ns.stringStream e)

/-- Modelled from the spec: resolve(guid, nameOrId) of
NamedPropertyResolver: the synthetic property ID of the entry-table record
carrying the given GUID and discriminator, or NamedPropertyNotFound
(section 4.5 of the spec). -/
def resolve (ns : NameidStorage) (g : List Nat) (d : NamedDisc) :
    Except NPErr Nat :=
  match (parseEntries ns.entryStream).find?
      (entryMatches (guidsOfStream ns.guidStream) ns.stringStream g d) with
  | some e => .ok e.propId
  | Option.none => .error .namedPropertyNotFound

/-- Modelled from the spec: reverse(propertyID) of NamedPropertyResolver:
the (GUID, discriminator) pair of the entry-table record carrying the given
synthetic property ID, for diagnostic and round-trip use (section 4.5 of
the spec). -/
def reverse (ns : NameidStorage) (pid : Nat) :
    Except NPErr (List Nat × NamedDisc) :=
  match (parseEntries ns.entryStream).find? (fun e => e.propId == pid) with
  | some e =>
    match guidAt (guidsOfStream ns.guidStream) e.guidIndex,
        discOf ns.stringStream e with
    | some g, some d => .ok (g, d)
    | _, _ => .error .namedPropertyNotFound
  | Option.none => .error .namedPropertyNotFound

/-- The concrete nameid storage of the claims: a GUID stream holding the
PSETID_Appointment GUID as its first physical entry (packed index 3), an
entry stream with one record mapping numeric LID 0x8208 to synthetic ID
0x8010 under GUID index 3, and an empty string stream. -/
def nameidExample : NameidStorage :=
  { guidStream := PSETID_APPOINTMENT_GUID
    entryStream := [8, 130, 0, 0, 6, 0, 16, 128]
    stringStream := [] }

/-! ## PropertyStreamDecoder -/

/-- Modelled from the spec: local property-level decode issues of one
record (section 4.4 of the spec): a slot off the fixed 16-byte stride, or a
variable-typed record whose sibling value stream does not exist. -/
inductive PropErr where
  | malformedPropertyRecord
  | missingValueStream
deriving DecidableEq, Repr

/-- Modelled from the spec: the decoded value of one property record.
Floating-point slots keep their raw IEEE bit patterns, and 8-bit strings
keep their raw bytes because the code page is a collaborator concern
(section 4.4 of the spec). -/
inductive PropValue where
  | int16 (n : Int)
  | int32 (n : Int)
  | int64 (n : Int)
  | boolean (b : Bool)
  | float32bits (n : Nat)
  | float64bits (n : Nat)
  | time (seconds : Int)
  | unicode (units : List Nat)
  | str8 (bytes : List Nat)
  | bytes (b : List Nat)
  | mvInt32 (ns : List Int)
  | raw (b : List Nat)
deriving DecidableEq, Repr

/-- Modelled from the spec: the per-property outcome: a decoded value, or a
present-but-unreadable report that never aborts the surrounding decode
(sections 4.4 and 7 of the spec). -/
inductive PropOutcome where
  | value (v : PropValue)
  | unreadable (e : PropErr)
deriving DecidableEq, Repr

/-- Two-complement reading of a w-bit little-endian value. -/
def toSigned (w n : Nat) : Int :=
  if n < 2 ^ (w - 1) then (n : Int) else (n : Int) - 2 ^ w

/-- Modelled from the spec: conversion of a 64-bit Windows timestamp to a
Unix-epoch timestamp by subtracting the epoch offset and scaling the 100ns
ticks to seconds (section 4.4 of the spec). -/
def winTimeSeconds (ticks : Nat) : Int :=
  ((ticks : Int) - 116444736000000000) / 10000000

/-- Hexadecimal digit character of a value below 16, upper case. -/
def hexDigit (n : Nat) : Char :=
  if n < 10 then Char.ofNat (48 + n) else Char.ofNat (55 + n)

/-- Four upper-case hexadecimal digits of a 16-bit value. -/
def hex4 (n : Nat) : List Char :=
  [hexDigit (n / 4096 % 16), hexDigit (n / 256 % 16),
    hexDigit (n / 16 % 16), hexDigit (n % 16)]

/-- Modelled from the spec: the name of the sibling value stream of a
variable-typed property, the reserved prefix followed by the 8-hex-digit
tag (sections 4.4 and 6 of the spec). -/
def substgName (propId typeCode : Nat) : List Char :=
  '_' :: '_' :: 's' :: 'u' :: 'b' :: 's' :: 't' :: 'g' :: '1' :: '.' :: '0' :: '_' ::
    (hex4 propId ++ hex4 typeCode)

/-- Modelled from the spec: whether a type code stores its value in a
sibling stream: 8-bit string, UTF-16 string, binary, and every
multi-valued code (flag bit 0x1000) (section 4.4 of the spec). -/
def isVariableType (t : Nat) : Bool :=
  t == 30 || t == 31 || t == 258 || decide (4096 ≤ t)

/-- Modelled from the spec: decoding of the sibling stream bytes of a
variable-typed record per its type code: UTF-16LE code units for Unicode
strings, raw bytes for 8-bit strings (code page is the caller concern) and
binary, a flat array of fixed-size elements for multi-valued 32-bit
integers, and raw pass-through for the remaining codes (section 4.4 of the
spec). -/
def decodeVarValue (typeCode : Nat) (b : List Nat) : PropValue :=
  if typeCode = 31 then .unicode ((chunkExact 2 b).map leVal)
  else if typeCode = 30 then .str8 b
  else if typeCode = 258 then .bytes b
  else if typeCode = 4099 then .mvInt32 ((chunkExact 4 b).map (fun c => toSigned 32 (leVal c)))
  else .bytes b

/-- Modelled from the spec: decoding of one 16-byte property record of the
properties stream (section 4.4 of the spec).  The 32-bit tag splits into
the 16-bit property ID (high word) and 16-bit type code (low word).  A slot
off the 16-byte stride is MalformedPropertyRecord; a variable-typed record
reads its sibling stream, reporting MissingValueStream when it does not
exist; fixed-size codes decode the 8-byte inline slot (signed integers,
boolean as 1/0 in the low byte, raw IEEE bits, Windows timestamp); unknown
type codes pass through as the raw slot rather than failing. -/
def decodeRecord (siblings : List (List Char × List Nat)) (rec : List Nat) :
    (Nat × Nat) × PropOutcome :=
  let raw := readLE rec 0 4
  let typeCode := raw % 65536
  let propId := raw / 65536
  let key := (propId, typeCode)
  if rec.length ≠ 16 then (key, .unreadable .malformedPropertyRecord)
  else if isVariableType typeCode then
    match siblings.find? (fun s => s.1 == substgName propId typeCode) with
    | some s => (key, .value (decodeVarValue typeCode s.2))
    | Option.none => (key, .unreadable .missingValueStream)
  else if typeCode = 2 then (key, .value (.int16 (toSigned 16 (readLE rec 8 2))))
  else if typeCode = 3 then (key, .value (.int32 (toSigned 32 (readLE rec 8 4))))
  else if typeCode = 20 then (key, .value (.int64 (toSigned 64 (readLE rec 8 8))))
  else if typeCode = 11 then (key, .value (.boolean (readLE rec 8 1 != 0)))
  else if typeCode = 4 then (key, .value (.float32bits (readLE rec 8 4)))
  else if typeCode = 5 then (key, .value (.float64bits (readLE rec 8 8)))
  else if typeCode = 64 then (key, .value (.time (winTimeSeconds (readLE rec 8 8))))
  else (key, .value (.raw ((rec.drop 8).take 8)))

/-- Modelled from the spec: decode(storage) of PropertyStreamDecoder: the
properties stream split on the fixed 16-byte record stride, each record
decoded independently against the sibling value streams, so one record
outcome never aborts the others (sections 4.4 and 7 of the spec). -/
def decodeProps (propsBytes : List Nat) (siblings : List (List Char × List Nat)) :
    List ((Nat × Nat) × PropOutcome) :=
  (chunkExact 16 propsBytes).map (decodeRecord siblings)

/-! ## StructuredValueDecoders -/

/-- Modelled from the spec: the structured-value decode errors (sections
4.6 and 7 of the spec). -/
inductive SVErr where
  | truncatedStructure
  | inconsistentStructureLength
deriving DecidableEq, Repr

/-- Modelled from the spec: the typed EntryID record: 4 flag bytes, the
16-byte provider GUID, and the provider payload (section 4.6 of the
spec). -/
structure EntryID where
  flags : Nat
  providerUid : List Nat
  payload : List Nat
deriving DecidableEq, Repr

/-- Modelled from the spec: the EntryID decoder: TruncatedStructure exactly
below the 20-byte fixed header, otherwise the fully-typed record consuming
the whole buffer (section 4.6 of the spec). -/
def parseEntryID (b : List Nat) : Except SVErr EntryID :=
  if b.length < 20 then .error .truncatedStructure
  else
    .ok
      { flags := readLE b 0 4
        providerUid := (b.drop 4).take 16
        payload := b.drop 20 }

/-- Modelled from the spec: the typed GlobalObjectID record: the 16-byte
array ID, date fields, creation time, and the variable data whose embedded
size field must match the remaining buffer (section 4.6 of the spec). -/
structure GlobalObjectID where
  byteArrayId : List Nat
  year : Nat
  month : Nat
  day : Nat
  creationTime : Nat
  data : List Nat
deriving DecidableEq, Repr

/-- Modelled from the spec: the GlobalObjectID decoder: TruncatedStructure
exactly below the 40-byte fixed header, InconsistentStructureLength when
the embedded data size disagrees with the remaining buffer, else the
fully-typed record (section 4.6 of the spec). -/
def parseGlobalObjectID (b : List Nat) : Except SVErr GlobalObjectID :=
  if b.length < 40 then .error .truncatedStructure
  else
    let size := readLE b 36 4
    if b.length ≠ 40 + size then .error .inconsistentStructureLength
    else
      .ok
        { byteArrayId := b.take 16
          year := readLE b 16 2
          month := readLE b 18 1
          day := readLE b 19 1
          creationTime := readLE b 20 8
          data := (b.drop 40).take size }

/-- Modelled from the spec: the typed RecurrencePattern record: the
version, frequency, pattern and calendar fields of the fixed 16-byte
header and the variable trailing exception list whose embedded count must
match the remaining buffer (sections 4.6 and 8 of the spec). -/
structure RecurrencePattern where
  readerVersion : Nat
  writerVersion : Nat
  recurFrequency : Nat
  patternType : Nat
  calendarType : Nat
  exceptions : List Nat
deriving DecidableEq, Repr

/-- Modelled from the spec: the RecurrencePattern decoder:
TruncatedStructure exactly below the fixed 16-byte header (section 8 of
the spec), InconsistentStructureLength when the embedded exception count
disagrees with the remaining buffer of 4-byte exception entries, else the
fully-typed record (section 4.6 of the spec). -/
def parseRecurrencePattern (b : List Nat) : Except SVErr RecurrencePattern :=
  if b.length < 16 then .error .truncatedStructure
  else
    let count := readLE b 12 4
    if b.length ≠ 16 + 4 * count then .error .inconsistentStructureLength
    else
      .ok
        { readerVersion := readLE b 0 2
          writerVersion := readLE b 2 2
          recurFrequency := readLE b 4 2
          patternType := readLE b 6 2
          calendarType := readLE b 8 2
          exceptions := (chunkExact 4 (b.drop 16)).map leVal }

/-- Modelled from the spec: the typed TimeZoneStruct record: the three
signed bias fields and the standard and daylight year and date fields of
the fixed 48-byte layout (section 4.6 of the spec). -/
structure TimeZoneStruct where
  bias : Int
  standardBias : Int
  daylightBias : Int
  standardYear : Nat
  standardDate : List Nat
  daylightYear : Nat
  daylightDate : List Nat
deriving DecidableEq, Repr

/-- Modelled from the spec: the TimeZoneStruct decoder: TruncatedStructure
exactly below the fixed 48-byte layout, InconsistentStructureLength on
trailing slack (the decoders reject partially-valid input rather than
silently truncating), else the fully-typed record (section 4.6 of the
spec). -/
def parseTimeZoneStruct (b : List Nat) : Except SVErr TimeZoneStruct :=
  if b.length < 48 then .error .truncatedStructure
  else if b.length ≠ 48 then .error .inconsistentStructureLength
  else
    .ok
      { bias := toSigned 32 (readLE b 0 4)
        standardBias := toSigned 32 (readLE b 4 4)
        daylightBias := toSigned 32 (readLE b 8 4)
        standardYear := readLE b 12 2
        standardDate := (b.drop 14).take 16
        daylightYear := readLE b 30 2
        daylightDate := (b.drop 32).take 16 }

/-- Modelled from the spec: the typed TimeZoneDefinition record: the
version pair of the 4-byte fixed header and the header content whose
embedded byte count must match the remaining buffer (section 4.6 of the
spec). -/
structure TimeZoneDefinition where
  versionMajor : Nat
  versionMinor : Nat
  content : List Nat
deriving DecidableEq, Repr

/-- Modelled from the spec: the TimeZoneDefinition decoder:
TruncatedStructure exactly below the 4-byte fixed header,
InconsistentStructureLength when the embedded header byte count disagrees
with the remaining buffer, else the fully-typed record (section 4.6 of the
spec). -/
def parseTimeZoneDefinition (b : List Nat) : Except SVErr TimeZoneDefinition :=
  if b.length < 4 then .error .truncatedStructure
  else
    let cb := readLE b 2 2
    if b.length ≠ 4 + cb then .error .inconsistentStructureLength
    else
      .ok
        { versionMajor := readLE b 0 1
          versionMinor := readLE b 1 1
          content := b.drop 4 }

/-! ## CompoundFileWriter and CompoundFileReader

Modelled from the spec: the container engine is not among the provided
sources, so the writer and reader are modelled from sections 2, 3, 4.2,
4.3, 6 and 7 of the spec: 512-byte sectors behind a 512-byte header (76
bytes of core fields followed by the 109-entry inline DIFAT), a FAT of
32-bit entries, a flat directory of 128-byte entries linked by array
indices, small streams packed into the 64-byte-sector mini stream
addressed by the MiniFAT, and case-insensitive name matching.  Model
restrictions, stated here once: the writer always uses 512-byte sectors
(the reader validates the declared shift per the spec and accepts only
512), additional DIFAT sectors past the 109 inline entries are not
modelled (the writer fails with WriterCapacityExceeded instead), and
sibling order follows first appearance of the input rather than the
length-then-codepoint order (the reader matches names case-insensitively
over the whole sibling list, so lookup does not depend on the order). -/

/-- Modelled from the spec: case folding of one UTF-16 code unit for the
case-insensitive name matching of the directory (sections 3 and 4.2 of the
spec); ASCII letters fold to upper case. -/
def foldUnit (c : Nat) : Nat := if 97 ≤ c ∧ c ≤ 122 then c - 32 else c

/-- Case folding of a name given as UTF-16 code units. -/
def foldName (n : List Nat) : List Nat := n.map foldUnit

/-- Case folding of every name of a path. -/
def foldPath (p : List (List Nat)) : List (List Nat) := p.map foldName

/-- Whether q is a case-insensitive prefix of p. -/
def isFoldPref (q p : List (List Nat)) : Bool :=
  q.length ≤ p.length && foldPath (p.take q.length) == foldPath q

/-- Whether q is a strict case-insensitive prefix of p. -/
def isStrictFoldPref (q p : List (List Nat)) : Bool :=
  q.length < p.length && foldPath (p.take q.length) == foldPath q

/-- The nonempty prefixes of a path, shortest first. -/
def prefixesOf (p : List (List Nat)) : List (List (List Nat)) :=
  (List.range p.length).map (fun i => p.take (i + 1))

/-- All nonempty prefixes of all paths of the input tree, in order of
appearance; directories are implied by path prefixes (section 4.3 of the
spec). -/
def allPrefixes (entries : List (List (List Nat) × List Nat)) :
    List (List (List Nat)) :=
  entries.flatMap (fun e => prefixesOf e.1)

/-- Fuelled generic deduplication by a key, keeping the first occurrence of
each key. -/
def dedupByGo {β : Type} [DecidableEq β] (k : α → β) : Nat → List α → List α
  | 0, _ => []
  | _ + 1, [] => []
  | fuel + 1, x :: rest =>
    x :: dedupByGo k fuel (rest.filter (fun y => k y != k x))

/-- Deduplication by a key, keeping the first occurrence of each key. -/
def dedupBy {β : Type} [DecidableEq β] (k : α → β) (l : List α) : List α :=
  dedupByGo k l.length l

/-- The directory nodes of the written file: every distinct (case-folded)
nonempty path prefix, represented by its first-appearing spelling, in
order of appearance.  The directory is the arena of these nodes behind the
root (section 9 of the spec). -/
def allNodes (entries : List (List (List Nat) × List Nat)) :
    List (List (List Nat)) :=
  dedupBy foldPath (allPrefixes entries)

/-- Whether a node path carries a stream of the input tree (otherwise it is
an implied storage). -/
def isStreamNode (entries : List (List (List Nat) × List Nat))
    (q : List (List Nat)) : Bool :=
  entries.any (fun e => foldPath e.1 == foldPath q)

/-- The stream bytes of a node path, empty for storages. -/
def bytesOfNode (entries : List (List (List Nat) × List Nat))
    (q : List (List Nat)) : List Nat :=
  ((entries.find? (fun e => foldPath e.1 == foldPath q)).map (fun e => e.2)).getD []

/-- The children of a node path among the directory nodes: the nodes one
level deeper whose folded prefix matches. -/
def childrenOf (entries : List (List (List Nat) × List Nat))
    (q : List (List Nat)) : List (List (List Nat)) :=
  (allNodes entries).filter
    (fun r => r.length == q.length + 1 && foldPath (r.take q.length) == foldPath q)

/-- The arena index of a node path: position 0 is the root, the nodes
follow in allNodes order. -/
def nodeIdx (entries : List (List (List Nat) × List Nat))
    (q : List (List Nat)) : Nat :=
  1 + (allNodes entries).findIdx (fun r => foldPath r == foldPath q)

/-- The reserved non-index value NOSTREAM of the directory links. -/
def NOSTREAM : Nat := 4294967295

/-- The reserved END_OF_CHAIN value as a raw 32-bit start-sector field. -/
def ENDOFCHAINV : Nat := 4294967294

/-- The arena index of the next sibling of a node, per the sibling list of
its parent, or NOSTREAM after the last sibling. -/
def nextSibVal (entries : List (List (List Nat) × List Nat))
    (r : List (List Nat)) : Nat :=
  let sibs := childrenOf entries r.dropLast
  match sibs[sibs.findIdx (fun s => foldPath s == foldPath r) + 1]? with
  | some s => nodeIdx entries s
  | Option.none => NOSTREAM

/-- The child link of a storage node: the arena index of its first child,
or NOSTREAM for a childless storage. -/
def firstChildVal (entries : List (List (List Nat) × List Nat))
    (q : List (List Nat)) : Nat :=
  match (childrenOf entries q).head? with
  | some s => nodeIdx entries s
  | Option.none => NOSTREAM

/-- The stream nodes whose length reaches the 4096-byte mini cutoff; their
data lives in regular FAT-addressed sectors (section 4.3 of the spec). -/
def bigNodes (entries : List (List (List Nat) × List Nat)) :
    List (List (List Nat)) :=
  (allNodes entries).filter
    (fun q => isStreamNode entries q && decide (4096 ≤ (bytesOfNode entries q).length))

/-- The stream nodes below the 4096-byte mini cutoff; their data is packed
into the mini stream and addressed through the MiniFAT (section 4.3 of the
spec). -/
def miniNodes (entries : List (List (List Nat) × List Nat)) :
    List (List (List Nat)) :=
  (allNodes entries).filter
    (fun q => isStreamNode entries q && decide ((bytesOfNode entries q).length < 4096))

/-- Number of 512-byte sectors of a big stream node. -/
def secCount (entries : List (List (List Nat) × List Nat))
    (q : List (List Nat)) : Nat :=
  ceilDiv (bytesOfNode entries q).length 512

/-- Number of 64-byte minisectors of a mini stream node. -/
def miniCount (entries : List (List (List Nat) × List Nat))
    (q : List (List Nat)) : Nat :=
  ceilDiv (bytesOfNode entries q).length 64

/-- First data sector of a big stream node: allocation is first-fit in
node order, so it is the sector total of the earlier big nodes (section
4.3 of the spec). -/
def bigStartOf (entries : List (List (List Nat) × List Nat))
    (q : List (List Nat)) : Nat :=
  (((bigNodes entries).take
      ((bigNodes entries).findIdx (fun r => foldPath r == foldPath q))).map
    (secCount entries)).sum

/-- First minisector of a mini stream node, by the same first-fit rule
inside the mini stream. -/
def miniStartOf (entries : List (List (List Nat) × List Nat))
    (q : List (List Nat)) : Nat :=
  (((miniNodes entries).take
      ((miniNodes entries).findIdx (fun r => foldPath r == foldPath q))).map
    (miniCount entries)).sum

/-- Total count of big data sectors. -/
def nBig (entries : List (List (List Nat) × List Nat)) : Nat :=
  ((bigNodes entries).map (secCount entries)).sum

/-- The mini stream 64-byte minisectors: the small streams packed back to
back, each padded to whole 64-byte minisectors (section 4.3 of the
spec). -/
def miniChunks (entries : List (List (List Nat) × List Nat)) : List (List Nat) :=
  ((miniNodes entries).map (fun q => chunkPad 64 0 (bytesOfNode entries q))).flatten

/-- The mini stream bytes as one list. -/
def miniBytes (entries : List (List (List Nat) × List Nat)) : List Nat :=
  (miniChunks entries).flatten

/-- Sector count of the mini stream itself inside the FAT-addressed area. -/
def nMiniSec (entries : List (List (List Nat) × List Nat)) : Nat :=
  ceilDiv (miniBytes entries).length 512

/-- Total count of 64-byte minisectors of the mini stream. -/
def totalMini (entries : List (List (List Nat) × List Nat)) : Nat :=
  ((miniNodes entries).map (miniCount entries)).sum

/-- Sector count of the MiniFAT (128 32-bit entries per sector). -/
def nMiniFat (entries : List (List (List Nat) × List Nat)) : Nat :=
  ceilDiv (totalMini entries) 128

/-- Modelled from the spec: one directory entry of the flat directory
array: name, type (0 unused, 1 storage, 2 stream, 5 root), sibling and
child links as array indices, start sector and byte size (section 3 of the
spec). -/
structure DirEntry where
  name : List Nat
  typ : Nat
  left : Nat
  right : Nat
  child : Nat
  start : Nat
  size : Nat
deriving DecidableEq, Repr

/-- The name of the root entry. -/
def rootName : List Nat := [82, 111, 111, 116, 32, 69, 110, 116, 114, 121]

/-- The directory entry of a node path of the written file. -/
def mkEntry (entries : List (List (List Nat) × List Nat))
    (q : List (List Nat)) : DirEntry :=
  let bs := bytesOfNode entries q
  if isStreamNode entries q then
    { name := q.getLast?.getD []
      typ := 2
      left := NOSTREAM
      right := nextSibVal entries q
      child := NOSTREAM
      start :=
        if bs.length = 0 then ENDOFCHAINV
        else if 4096 ≤ bs.length then bigStartOf entries q
        else miniStartOf entries q
      size := bs.length }
  else
    { name := q.getLast?.getD []
      typ := 1
      left := NOSTREAM
      right := nextSibVal entries q
      child := firstChildVal entries q
      start := ENDOFCHAINV
      size := 0 }

/-- The root directory entry; its start and size address the mini stream
(section 4.3 of the spec). -/
def rootEntry (entries : List (List (List Nat) × List Nat)) : DirEntry :=
  { name := rootName
    typ := 5
    left := NOSTREAM
    right := NOSTREAM
    child := firstChildVal entries []
    start := if (miniBytes entries).length = 0 then ENDOFCHAINV else nBig entries
    size := (miniBytes entries).length }

/-- The directory array of the written file: the root at index 0, the
nodes after it in allNodes order. -/
def dirEntriesOf (entries : List (List (List Nat) × List Nat)) : List DirEntry :=
  rootEntry entries :: (allNodes entries).map (mkEntry entries)

/-- Serialization of a directory entry name into the 64-byte name field. -/
def serName (n : List Nat) : List Nat :=
  padTo 64 0 ((n.map le16).flatten)

/-- Serialization of one 128-byte directory entry: the 64-byte name field,
the name length in bytes including the terminator, type and color bytes,
the three index links, 36 reserved bytes, start sector and 64-bit size. -/
def serDirEntry (e : DirEntry) : List Nat :=
  serName e.name ++ (le16 (2 * (e.name.length + 1)) ++ ([e.typ % 256] ++ ([0] ++
    (le32 e.left ++ (le32 e.right ++ (le32 e.child ++ (List.replicate 36 0 ++
    (le32 e.start ++ le64 e.size))))))))

/-- The directory stream bytes of the written file. -/
def dirBytes (entries : List (List (List Nat) × List Nat)) : List Nat :=
  ((dirEntriesOf entries).map serDirEntry).flatten

/-- Sector count of the directory stream. -/
def nDir (entries : List (List (List Nat) × List Nat)) : Nat :=
  ceilDiv (dirBytes entries).length 512

/-- Count of non-FAT sectors of the written file. -/
def nonFatSecs (entries : List (List (List Nat) × List Nat)) : Nat :=
  nBig entries + nMiniSec entries + nMiniFat entries + nDir entries

/-- Count of FAT sectors: each FAT sector holds 128 entries and must also
cover the FAT and DIFAT sectors themselves; one FAT sector per 126
payload sectors always leaves room for both, the slack is FREE-filled
(section 4.1 of the spec). -/
def numFat (entries : List (List (List Nat) × List Nat)) : Nat :=
  ceilDiv (nonFatSecs entries) 126

/-- Count of DIFAT sectors: once the FAT sector count exceeds the 109
inline header entries, the remaining FAT sector indices are emitted into
DIFAT sectors of 127 entries plus one chain link each (section 4.1 of
the spec). -/
def numDifat (entries : List (List (List Nat) × List Nat)) : Nat :=
  if numFat entries ≤ 109 then 0 else ceilDiv (numFat entries - 109) 127

/-- Total sector count of the written file: the payload sectors, the FAT
sectors and the DIFAT sectors. -/
def totalSecs (entries : List (List (List Nat) × List Nat)) : Nat :=
  nonFatSecs entries + numFat entries + numDifat entries

/-- First sector of the DIFAT region, behind the FAT sectors. -/
def difatBase (entries : List (List (List Nat) × List Nat)) : Nat :=
  nonFatSecs entries + numFat entries

/-- First sector of the mini stream region. -/
def miniStreamBase (entries : List (List (List Nat) × List Nat)) : Nat :=
  nBig entries

/-- First sector of the MiniFAT region. -/
def miniFatBase (entries : List (List (List Nat) × List Nat)) : Nat :=
  nBig entries + nMiniSec entries

/-- First sector of the directory region. -/
def dirBase (entries : List (List (List Nat) × List Nat)) : Nat :=
  miniFatBase entries + nMiniFat entries

/-- The FAT entries of one contiguous chain of k sectors starting at a
base sector: each sector points at the following one and the last is
END_OF_CHAIN. -/
def chainEntries (base k : Nat) : List FatEntry :=
  (List.range k).map (fun j => if j + 1 = k then .endOfChain else .next (base + j + 1))

/-- The FAT of the written file: the chains of the big streams, the mini
stream, the MiniFAT and the directory, then the FAT and DIFAT sectors
marked as such (the spec's single FAT-entry variant covers both, section
3 of the spec), padded to whole FAT sectors with FREE. -/
def fatVals (entries : List (List (List Nat) × List Nat)) : List FatEntry :=
  padTo (numFat entries * 128) .free
    ((((bigNodes entries).map
        (fun q => chainEntries (bigStartOf entries q) (secCount entries q))).flatten ++
      chainEntries (miniStreamBase entries) (nMiniSec entries) ++
      chainEntries (miniFatBase entries) (nMiniFat entries) ++
      chainEntries (dirBase entries) (nDir entries)) ++
      List.replicate (numFat entries + numDifat entries) .fatSect)

/-- The MiniFAT of the written file: the minisector chains of the small
streams, padded to whole sectors with FREE. -/
def miniFatVals (entries : List (List (List Nat) × List Nat)) : List FatEntry :=
  padTo (nMiniFat entries * 128) .free
    (((miniNodes entries).map
      (fun q => chainEntries (miniStartOf entries q) (miniCount entries q))).flatten)

/-- Serialization of a FAT entry list as raw 32-bit values. -/
def serFat (l : List FatEntry) : List Nat :=
  (l.map (fun e => le32 (fatEntryVal e))).flatten

/-- The FAT sector indices past the 109 inline header DIFAT entries,
carried by the DIFAT sectors (section 4.1 of the spec). -/
def difatTail (entries : List (List (List Nat) × List Nat)) : List Nat :=
  (List.range (numFat entries - 109)).map
    (fun j => nonFatSecs entries + 109 + j)

/-- One 512-byte DIFAT sector: 127 FAT sector indices, FREE-padded in the
final sector, then the chain link to the next DIFAT sector, END_OF_CHAIN
in the last one (section 4.1 of the spec). -/
def difatSecAt (entries : List (List (List Nat) × List Nat)) (j : Nat) :
    List Nat :=
  ((padTo 127 4294967295 (((difatTail entries).drop (127 * j)).take 127)).map
      le32).flatten ++
    le32 (if j + 1 < numDifat entries then difatBase entries + j + 1
      else ENDOFCHAINV)

/-- The DIFAT sectors of the written file. -/
def difatSecs (entries : List (List (List Nat) × List Nat)) :
    List (List Nat) :=
  (List.range (numDifat entries)).map (difatSecAt entries)

/-- The sector list of the written file: big stream data, the mini stream,
the MiniFAT, the directory stream, then the FAT itself and its DIFAT
sectors, every sector 512 bytes (section 4.3 of the spec: data first,
bookkeeping laid out last). -/
def sectorsOf (entries : List (List (List Nat) × List Nat)) : List (List Nat) :=
  ((bigNodes entries).map (fun q => chunkPad 512 0 (bytesOfNode entries q))).flatten ++
    chunkPad 512 0 (miniBytes entries) ++
    chunkExact 512 (serFat (miniFatVals entries)) ++
    chunkPad 512 0 (dirBytes entries) ++
    chunkExact 512 (serFat (fatVals entries)) ++
    difatSecs entries

/-- The 8-byte magic signature of a compound file. -/
def cfMagic : List Nat := [208, 207, 17, 224, 161, 177, 26, 225]

/-- The raw MiniFAT start-sector header field: the MiniFAT region, or
END_OF_CHAIN when there is no MiniFAT. -/
def miniFatStartVal (entries : List (List (List Nat) × List Nat)) : Nat :=
  if nMiniFat entries = 0 then ENDOFCHAINV else miniFatBase entries

/-- The 109-entry inline DIFAT: the first 109 FAT sector indices (the FAT
sits behind the payload sectors), the unused entries FREE; indices past
the 109th go to the DIFAT sectors (section 4.1 of the spec). -/
def difatList (entries : List (List (List Nat) × List Nat)) : List Nat :=
  padTo 109 4294967295
    ((List.range (min (numFat entries) 109)).map
      (fun i => nonFatSecs entries + i))

/-- The raw first-DIFAT-sector header field: the DIFAT region, or
END_OF_CHAIN when the inline DIFAT suffices. -/
def difatStartVal (entries : List (List (List Nat) × List Nat)) : Nat :=
  if numDifat entries = 0 then ENDOFCHAINV else difatBase entries

/-- The 512-byte header of the written file: the magic signature, byte
order mark, sector shift 9, the 4096 mini cutoff, the FAT sector count,
directory start, MiniFAT start and count, first DIFAT sector and DIFAT
sector count, reserved zeros up to the 76-byte core, then the inline
DIFAT (section 6 of the spec). -/
def headerBytesOf (entries : List (List (List Nat) × List Nat)) : List Nat :=
  cfMagic ++ (le16 65534 ++ (le16 9 ++ (le32 4096 ++ (le32 (numFat entries) ++
    (le32 (dirBase entries) ++ (le32 (miniFatStartVal entries) ++
    (le32 (nMiniFat entries) ++ (le32 (difatStartVal entries) ++
    (le32 (numDifat entries) ++ (List.replicate 36 0 ++
    ((difatList entries).map le32).flatten))))))))))

/-- The byte blob of the written file: the header in front of the sector
area. -/
def blobOf (entries : List (List (List Nat) × List Nat)) : List Nat :=
  headerBytesOf entries ++ (sectorsOf entries).flatten

/-- Modelled from the spec: the writer's capacity guard, a theoretical
32-bit-exhaustion check and never a practical limit (sections 4.3 and 7
of the spec): every sector index, every minisector index and every
directory stream identifier must fit the 32-bit index space below its
reserved values (FREE, END_OF_CHAIN, the FAT/DIFAT marks, NOSTREAM). -/
def capOK (entries : List (List (List Nat) × List Nat)) : Prop :=
  totalSecs entries ≤ 4294967292 ∧
  (allNodes entries).length + 1 ≤ 4294967294 ∧
  totalMini entries ≤ 4294967292

instance (entries : List (List (List Nat) × List Nat)) :
    Decidable (capOK entries) := by
  unfold capOK
  infer_instance

/-- Modelled from the spec: CompoundFileWriter over a tree of (path,
bytes) stream contents, directories implied by path prefixes: it produces
the byte blob, appending FAT sectors transparently and emitting DIFAT
sectors once the FAT sector count exceeds the 109 inline header entries,
and fails with WriterCapacityExceeded only when a 32-bit sector-index
space would be exhausted (sections 4.1, 4.3 and 7 of the spec). -/
def writeCF (entries : List (List (List Nat) × List Nat)) :
    Except CFErr (List Nat) :=
  if capOK entries then .ok (blobOf entries)
  else .error .writerCapacityExceeded

/-! ## CompoundFileReader -/

/-- The parsed header fields the reader needs. -/
structure HeaderInfo where
  hNumFat : Nat
  hDirStart : Nat
  hMiniFatStart : Nat
  hNumMiniFat : Nat
  hDifatStart : Nat
  hNumDifat : Nat
  hDifat : List Nat
deriving DecidableEq, Repr

/-- Modelled from the spec: header validation of open(bytes): the 8-byte
magic signature (NotACompoundFile otherwise), the byte order marker, the
sector-size bounds (a power-of-two shift between 7 and 20,
UnsupportedVersion otherwise; this model additionally accepts only
512-byte sectors, shift 9), and the 4096 mini cutoff (section 4.2 of the
spec). -/
def parseHeader (blob : List Nat) : Except CFErr HeaderInfo :=
  if blob.take 8 ≠ cfMagic then .error .notACompoundFile
  else if readLE blob 8 2 ≠ 65534 then .error .notACompoundFile
  else if readLE blob 10 2 < 7 ∨ 20 < readLE blob 10 2 then .error .unsupportedVersion
  else if readLE blob 10 2 ≠ 9 then .error .unsupportedVersion
  else if readLE blob 12 4 ≠ 4096 then .error .unsupportedVersion
  else
    .ok
      { hNumFat := readLE blob 16 4
        hDirStart := readLE blob 20 4
        hMiniFatStart := readLE blob 24 4
        hNumMiniFat := readLE blob 28 4
        hDifatStart := readLE blob 32 4
        hNumDifat := readLE blob 36 4
        hDifat := (List.range 109).map (fun i => readLE blob (76 + 4 * i) 4) }

/-- The 512-byte sector at an index of the blob, behind the 512-byte
header. -/
def sectorAt (blob : List Nat) (i : Nat) : List Nat :=
  (blob.drop (512 * (i + 1))).take 512

/-- Modelled from the spec: the walk over the declared number of DIFAT
sectors, collecting the 127 FAT sector indices of each and following the
chain link in its last 4 bytes (section 4.1 of the spec). -/
def difatWalk (blob : List Nat) : Nat → Nat → List Nat
  | 0, _ => []
  | fuel + 1, s =>
    ((List.range 127).map (fun i => readLE (sectorAt blob s) (4 * i) 4)) ++
      difatWalk blob fuel (readLE (sectorAt blob s) 508 4)

/-- Modelled from the spec: reassembly of the FAT from the FAT sectors
listed by the inline header DIFAT followed by the DIFAT sectors, each FAT
sector a run of 32-bit entries (section 4.1 of the spec). -/
def readFat (blob : List Nat) (h : HeaderInfo) : List FatEntry :=
  (chunkExact 4
    ((((h.hDifat ++ difatWalk blob h.hNumDifat h.hDifatStart).take
        h.hNumFat).map (sectorAt blob)).flatten)).map
    (fun c => fatEntryOfVal (leVal c))

/-- Modelled from the spec: reading of a FAT-chained stream of a known
byte size: the chain walk, the chained sectors back to back, cut to the
declared size; the empty stream reads no chain (section 4.2 of the
spec). -/
def readChainData (blob : List Nat) (fat : List FatEntry) (start size : Nat) :
    Except CFErr (List Nat) :=
  if size = 0 then .ok []
  else (chain fat start).map (fun secs => ((secs.map (sectorAt blob)).flatten).take size)

/-- Parsing of one 128-byte directory entry; the name field is cut by the
stored byte length (section 3 of the spec). -/
def parseDirEntry (b : List Nat) : DirEntry :=
  { name := (List.range ((readLE b 64 2 - 2) / 2)).map (fun i => readLE b (2 * i) 2)
    typ := readLE b 66 1
    left := readLE b 68 4
    right := readLE b 72 4
    child := readLE b 76 4
    start := readLE b 116 4
    size := readLE b 120 8 }

/-- Modelled from the spec: the directory read as a flat array from the
FAT-chained directory stream (section 4.2 of the spec). -/
def readDir (blob : List Nat) (fat : List FatEntry) (dirStart : Nat) :
    Except CFErr (List DirEntry) :=
  (chain fat dirStart).map
    (fun secs => (chunkExact 128 ((secs.map (sectorAt blob)).flatten)).map parseDirEntry)

/-- Modelled from the spec: the MiniFAT read from its own FAT chain; a
file without small streams has none (section 4.1 of the spec). -/
def readMiniFat (blob : List Nat) (fat : List FatEntry) (h : HeaderInfo) :
    Except CFErr (List FatEntry) :=
  if h.hNumMiniFat = 0 then .ok []
  else
    (chain fat h.hMiniFatStart).map
      (fun secs =>
        (chunkExact 4 ((secs.map (sectorAt blob)).flatten)).map
          (fun c => fatEntryOfVal (leVal c)))

/-- Modelled from the spec: reading of a mini stream chain: the MiniFAT
chain walk over 64-byte minisectors of the mini stream bytes, cut to the
declared size (section 4.3 of the spec). -/
def readMiniData (miniFat : List FatEntry) (mini : List Nat) (start size : Nat) :
    Except CFErr (List Nat) :=
  if size = 0 then .ok []
  else
    (chain miniFat start).map
      (fun ms => ((ms.map (fun i => (mini.drop (64 * i)).take 64)).flatten).take size)

/-- Modelled from the spec: the fuelled sibling walk collecting the child
list of a storage: it follows right-sibling links from the child link,
validating indices and guarding against cyclic link chains with fuel
(sections 4.2 and 9 of the spec). -/
def childWalkGo (dir : List DirEntry) : Nat → Nat → Except CFErr (List Nat)
  | 0, _ => .error .corruptChain
  | fuel + 1, idx =>
    if idx = NOSTREAM then .ok []
    else
      match dir[idx]? with
      | some e => (childWalkGo dir fuel e.right).map (idx :: ·)
      | Option.none => .error .corruptChain

/-- The sibling walk with enough fuel for any duplicate-free chain. -/
def childWalk (dir : List DirEntry) (idx : Nat) : Except CFErr (List Nat) :=
  childWalkGo dir (dir.length + 1) idx

/-- Modelled from the spec: the descent of readStream: at each level the
children of the current storage are matched case-insensitively against the
segment; an absent segment is StreamNotFound, descending through a stream
is TypeMismatch (section 4.2 of the spec). -/
def resolveNode (dir : List DirEntry) : List (List Nat) → Nat → Except CFErr Nat
  | [], idx => .ok idx
  | seg :: rest, idx =>
    match dir[idx]? with
    | Option.none => .error .corruptChain
    | some e =>
      if e.typ = 2 then .error .typeMismatch
      else if e.typ = 1 ∨ e.typ = 5 then
        (childWalk dir e.child).bind fun kids =>
          match kids.find?
              (fun k =>
                match dir[k]? with
                | some ke => foldName ke.name == foldName seg
                | Option.none => false) with
          | some k => resolveNode dir rest k
          | Option.none => .error .streamNotFound
      else .error .corruptChain

/-- Modelled from the spec: readStream(path) of CompoundFileReader: header
validation, FAT, directory and MiniFAT assembly, the case-insensitive
descent, then the data read of the resolved stream from the regular
sectors or, below the 4096 cutoff, from the mini stream addressed by the
root entry (sections 4.2 and 4.3 of the spec). -/
def readStream (blob : List Nat) (path : List (List Nat)) :
    Except CFErr (List Nat) :=
  (parseHeader blob).bind fun h =>
  let fat := readFat blob h
  (readDir blob fat h.hDirStart).bind fun dir =>
  (readMiniFat blob fat h).bind fun miniFat =>
  if path = [] then .error .streamNotFound
  else
    (resolveNode dir path 0).bind fun idx =>
    match dir[idx]? with
    | Option.none => .error .corruptChain
    | some e =>
      if e.typ ≠ 2 then .error .typeMismatch
      else if e.size < 4096 then
        match dir[0]? with
        | Option.none => .error .corruptChain
        | some root =>
          (readChainData blob fat root.start root.size).bind fun mini =>
          readMiniData miniFat mini e.start e.size
      else readChainData blob fat e.start e.size

/-- Modelled from the spec: the entry-type lookup of a path on the same
descent as readStream, for listChildren-style callers (section 4.2 of the
spec); the empty path names the root. -/
def readEntryType (blob : List Nat) (path : List (List Nat)) :
    Except CFErr Nat :=
  (parseHeader blob).bind fun h =>
  let fat := readFat blob h
  (readDir blob fat h.hDirStart).bind fun dir =>
  (resolveNode dir path 0).bind fun idx =>
  match dir[idx]? with
  | Option.none => .error .corruptChain
  | some e => .ok e.typ

/-- The specification-level lookup over the flat input tree that the
written file must realise: a case-insensitive full-path match returns the
stream bytes; a path naming an implied storage, or extending past a
stream, is TypeMismatch; anything else is StreamNotFound, as is the empty
path. -/
def flatLookup (entries : List (List (List Nat) × List Nat))
    (p : List (List Nat)) : Except CFErr (List Nat) :=
  if p = [] then .error .streamNotFound
  else
    match entries.find? (fun e => foldPath e.1 == foldPath p) with
    | some e => .ok e.2
    | Option.none =>
      if entries.any (fun e => isStrictFoldPref p e.1) then .error .typeMismatch
      else if entries.any (fun e => isStrictFoldPref e.1 p) then .error .typeMismatch
      else .error .streamNotFound

/-- The specification-level entry type of a path over the flat input tree:
5 for the root (empty path), 2 for a stream path, 1 for an implied
storage, the same errors as the lookup otherwise. -/
def flatType (entries : List (List (List Nat) × List Nat))
    (p : List (List Nat)) : Except CFErr Nat :=
  if p = [] then .ok 5
  else
    match entries.find? (fun e => foldPath e.1 == foldPath p) with
    | some _ => .ok 2
    | Option.none =>
      if entries.any (fun e => isStrictFoldPref p e.1) then .ok 1
      else if entries.any (fun e => isStrictFoldPref e.1 p) then .error .typeMismatch
      else .error .streamNotFound

/-- Well-formedness of a writer input tree: nonempty paths of nonempty
names of at most 31 UTF-16 code units, byte-valued stream contents, no two
paths equal case-insensitively, and no path a strict case-insensitive
prefix of another (sections 3 and 7 of the spec). -/
def wfEntries (entries : List (List (List Nat) × List Nat)) : Prop :=
  (∀ e ∈ entries,
    e.1 ≠ [] ∧
    (∀ nm ∈ e.1, 1 ≤ nm.length ∧ nm.length ≤ 31 ∧ ∀ u ∈ nm, u < 65536) ∧
    (∀ b ∈ e.2, b < 256)) ∧
  entries.Pairwise (fun a b => foldPath a.1 ≠ foldPath b.1) ∧
  (∀ a ∈ entries, ∀ b ∈ entries, isStrictFoldPref a.1 b.1 = false)

instance (entries : List (List (List Nat) × List Nat)) :
    Decidable (wfEntries entries) := by
  unfold wfEntries
  infer_instance

/-- The specification-level descent of the reader over the input tree: from
a current node (the root is the empty path), each segment selects the child
node whose folded last name matches; descending from a stream node is
TypeMismatch and a missing child is StreamNotFound (section 4.2 of the
spec). -/
def navGo (E : List (List (List Nat) × List Nat)) :
    List (List Nat) → List (List Nat) → Except CFErr (List (List Nat))
  | [], q => .ok q
  | seg :: rest, q =>
    if isStreamNode E q then .error .typeMismatch
    else
      match (childrenOf E q).find?
          (fun s => foldName (s.getLast?.getD []) == foldName seg) with
      | some s => navGo E rest s
      | Option.none => .error .streamNotFound


/-! ## Theorems and supporting lemmas -/

theorem chainAux_step {fat : List FatEntry} {f s : Nat} :
    chainAux fat (f + 1) s =
      match fat[s]? with
      | none => .error .corruptChain
      | some .free => .error .corruptChain
      | some .fatSect => .error .corruptChain
      | some .endOfChain => .ok [s]
      | some (.next n) => (chainAux fat f n).map (s :: ·) := rfl

theorem chainAux_cons {fat : List FatEntry} {f s : Nat} {l : List Nat}
    (h : chainAux fat f s = .ok l) : ∃ t, l = s :: t := by
  cases f with
  | zero => simp [chainAux] at h
  | succ f =>
    rw [chainAux_step] at h
    cases hg : fat[s]? with
    | none => simp only [hg] at h; cases h
    | some e =>
      cases e with
      | free => simp only [hg] at h; cases h
      | fatSect => simp only [hg] at h; cases h
      | endOfChain =>
        simp only [hg] at h
        cases h
        exact ⟨[], rfl⟩
      | next n =>
        simp only [hg] at h
        cases hc : chainAux fat f n with
        | error e => rw [hc] at h; cases h
        | ok t =>
          rw [hc] at h
          cases h
          exact ⟨t, rfl⟩

theorem chainAux_succ_mono {fat : List FatEntry} :
    ∀ {f s l}, chainAux fat f s = .ok l → chainAux fat (f + 1) s = .ok l := by
  intro f
  induction f with
  | zero => intro s l h; simp [chainAux] at h
  | succ f ih =>
    intro s l h
    rw [chainAux_step] at h ⊢
    cases hg : fat[s]? with
    | none => simp only [hg] at h; cases h
    | some e =>
      cases e with
      | free => simp only [hg] at h; cases h
      | fatSect => simp only [hg] at h; cases h
      | endOfChain => simp only [hg] at h ⊢; exact h
      | next n =>
        simp only [hg] at h ⊢
        cases hc : chainAux fat f n with
        | error e => rw [hc] at h; cases h
        | ok t =>
          rw [hc] at h
          rw [ih hc]
          exact h

theorem chainAux_le_mono {fat : List FatEntry} {f g s : Nat} {l : List Nat}
    (hfg : f ≤ g) (h : chainAux fat f s = .ok l) : chainAux fat g s = .ok l := by
  induction hfg with
  | refl => exact h
  | step _ ih => exact chainAux_succ_mono ih

theorem chainAux_suffix {fat : List FatEntry} :
    ∀ {f s l}, chainAux fat f s = .ok l →
    ∀ i (hi : i < l.length),
      ∃ f', f' ≤ f ∧ chainAux fat f' (l.get ⟨i, hi⟩) = .ok (l.drop i) := by
  intro f
  induction f with
  | zero => intro s l h; simp [chainAux] at h
  | succ f ih =>
    intro s l h i hi
    rw [chainAux_step] at h
    cases hg : fat[s]? with
    | none => simp only [hg] at h; cases h
    | some e =>
      cases e with
      | free => simp only [hg] at h; cases h
      | fatSect => simp only [hg] at h; cases h
      | endOfChain =>
        simp only [hg] at h
        cases h
        have hi0 : i = 0 := by simp at hi; omega
        subst hi0
        refine ⟨f + 1, Nat.le_refl _, ?_⟩
        simp [chainAux_step, hg]
      | next n =>
        simp only [hg] at h
        cases hc : chainAux fat f n with
        | error e => rw [hc] at h; cases h
        | ok t =>
          rw [hc] at h
          cases h
          cases i with
          | zero =>
            refine ⟨f + 1, Nat.le_refl _, ?_⟩
            simp [chainAux_step, hg, hc, Except.map]
          | succ i =>
            have hi' : i < t.length := by simpa using hi
            obtain ⟨f', hf', hch⟩ := ih hc i hi'
            exact ⟨f', Nat.le_succ_of_le hf', by simpa using hch⟩

theorem chain_ok_nodup {fat : List FatEntry} {start : Nat} {l : List Nat}
    (h : chain fat start = .ok l) : l.Nodup := by
  rw [List.nodup_iff_injective_get]
  intro i j hij
  obtain ⟨fi, hfi, hci⟩ := chainAux_suffix h i.1 i.2
  obtain ⟨fj, hfj, hcj⟩ := chainAux_suffix h j.1 j.2
  rw [hij] at hci
  have h1 := chainAux_le_mono hfi hci
  have h2 := chainAux_le_mono hfj hcj
  rw [h1] at h2
  have hdrop : l.drop i.1 = l.drop j.1 := by
    simpa using h2
  have hlen := congrArg List.length hdrop
  simp only [List.length_drop] at hlen
  have hi := i.2
  have hj := j.2
  exact Fin.ext (by omega)

theorem chainAux_last {fat : List FatEntry} :
    ∀ {f s l}, chainAux fat f s = .ok l →
    ∃ pre x, l = pre ++ [x] ∧ fat[x]? = some .endOfChain := by
  intro f
  induction f with
  | zero => intro s l h; simp [chainAux] at h
  | succ f ih =>
    intro s l h
    rw [chainAux_step] at h
    cases hg : fat[s]? with
    | none => simp only [hg] at h; cases h
    | some e =>
      cases e with
      | free => simp only [hg] at h; cases h
      | fatSect => simp only [hg] at h; cases h
      | endOfChain =>
        simp only [hg] at h
        cases h
        exact ⟨[], s, rfl, hg⟩
      | next n =>
        simp only [hg] at h
        cases hc : chainAux fat f n with
        | error e => rw [hc] at h; cases h
        | ok t =>
          rw [hc] at h
          cases h
          obtain ⟨pre, x, ht, hx⟩ := ih hc
          exact ⟨s :: pre, x, by simp [ht], hx⟩

theorem chainAux_range' {fat : List FatEntry} :
    ∀ k, 1 ≤ k → ∀ s fuel, k ≤ fuel →
    (∀ j, j + 1 < k → fat[s + j]? = some (.next (s + j + 1))) →
    fat[s + (k - 1)]? = some .endOfChain →
    chainAux fat fuel s = .ok (List.range' s k) := by
  intro k
  induction k with
  | zero => intro h; omega
  | succ k ih =>
    intro _ s fuel hfuel hnext hlast
    cases fuel with
    | zero => omega
    | succ fuel =>
      cases Nat.eq_zero_or_pos k with
      | inl hk0 =>
        subst hk0
        have hl : fat[s]? = some .endOfChain := by simpa using hlast
        rw [chainAux_step]
        simp only [hl]
        simp [List.range']
      | inr hk1 =>
        have h0 : fat[s]? = some (.next (s + 1)) := by
          simpa using hnext 0 (by omega)
        have hrec := ih hk1 (s + 1) fuel (by omega)
          (fun j hj => by
            have hx := hnext (j + 1) (by omega)
            have e1 : s + (j + 1) = s + 1 + j := by omega
            rw [e1] at hx
            exact hx)
          (by
            have e : s + 1 + (k - 1) = s + (k + 1 - 1) := by omega
            rw [e]
            exact hlast)
        rw [chainAux_step]
        simp only [h0]
        rw [hrec]
        simp [Except.map, List.range'_succ]

theorem chainAux_length_le {fat : List FatEntry} :
    ∀ {f s l}, chainAux fat f s = .ok l → l.length ≤ f := by
  intro f
  induction f with
  | zero => intro s l h; simp [chainAux] at h
  | succ f ih =>
    intro s l h
    rw [chainAux_step] at h
    cases hg : fat[s]? with
    | none => simp only [hg] at h; cases h
    | some e =>
      cases e with
      | free => simp only [hg] at h; cases h
      | fatSect => simp only [hg] at h; cases h
      | endOfChain =>
        simp only [hg] at h
        cases h
        simp
      | next n =>
        simp only [hg] at h
        cases hc : chainAux fat f n with
        | error e => rw [hc] at h; cases h
        | ok t =>
          rw [hc] at h
          cases h
          have := ih hc
          simp
          omega

theorem chainAux_error {fat : List FatEntry} :
    ∀ {f s e}, chainAux fat f s = .error e → e = .corruptChain := by
  intro f
  induction f with
  | zero =>
    intro s e h
    simp only [chainAux] at h
    cases h
    rfl
  | succ f ih =>
    intro s e h
    rw [chainAux_step] at h
    cases hg : fat[s]? with
    | none => simp only [hg] at h; cases h; rfl
    | some fe =>
      cases fe with
      | free => simp only [hg] at h; cases h; rfl
      | fatSect => simp only [hg] at h; cases h; rfl
      | endOfChain => simp only [hg] at h; cases h
      | next n =>
        simp only [hg] at h
        cases hc : chainAux fat f n with
        | error e' =>
          rw [hc] at h
          cases h
          exact ih hc
        | ok t => rw [hc] at h; cases h

/-- Claim C2: for every FAT, including adversarial cyclic or FREE-containing
ones, and every start sector, the chain walk of SectorAllocationTable
terminates (it is a total function of fat and start): on success it visits
each sector index at most once, never visits more sectors than the
container holds, and ends at an END_OF_CHAIN entry; every failure is
CorruptChain; and concretely a two-sector cyclic FAT, a FREE entry met
mid-chain, and an unallocated (out-of-range) entry met mid-chain each fail
with CorruptChain instead of looping forever. -/
theorem chain_visits_once_and_fails_corrupt :
    (∀ (fat : List FatEntry) (start : Nat) (l : List Nat),
        chain fat start = .ok l →
        l.Nodup ∧ l.length ≤ fat.length ∧
          ∃ pre x, l = pre ++ [x] ∧ fat[x]? = some .endOfChain) ∧
    (∀ (fat : List FatEntry) (start : Nat) (e : CFErr),
        chain fat start = .error e → e = .corruptChain) ∧
    chain [.next 1, .next 0] 0 = .error .corruptChain ∧
    chain [.next 1, .free] 0 = .error .corruptChain ∧
    chain [.next 5, .endOfChain] 0 = .error .corruptChain := by
  refine ⟨?_, ?_, rfl, rfl, rfl⟩
  · intro fat start l h
    exact ⟨chain_ok_nodup h, chainAux_length_le h, chainAux_last h⟩
  · intro fat start e h
    exact chainAux_error h

/-- Witness for claim C2: the chain of the concrete two-sector FAT with a
next pointer and an END_OF_CHAIN entry succeeds with the duplicate-free
chain visiting sectors 0 and 1 and ending at the END_OF_CHAIN entry. -/
theorem chain_visits_once_and_fails_corrupt_witness :
    ([0, 1] : List Nat).Nodup ∧
      ([0, 1] : List Nat).length ≤ [FatEntry.next 1, FatEntry.endOfChain].length ∧
      ∃ pre x, ([0, 1] : List Nat) = pre ++ [x] ∧
        [FatEntry.next 1, FatEntry.endOfChain][x]? = some .endOfChain :=
  chain_visits_once_and_fails_corrupt.1 [.next 1, .endOfChain] 0 [0, 1] rfl

theorem mem_replaceGo {p : Char} {ps rep : List Char} :
    ∀ {fuel l x}, x ∈ replaceGo p ps rep fuel l → x ∈ l ∨ x ∈ rep := by
  intro fuel
  induction fuel with
  | zero => intro l x h; exact Or.inl h
  | succ fuel ih =>
    intro l x h
    cases l with
    | nil => simp [replaceGo] at h
    | cons c rest =>
      rw [replaceGo] at h
      by_cases hc : (c == p && List.isPrefixOf ps rest) = true
      · rw [if_pos hc] at h
        rcases List.mem_append.mp h with h1 | h2
        · exact Or.inr h1
        · rcases ih h2 with h3 | h4
          · exact Or.inl (List.mem_cons_of_mem _ (List.drop_subset _ _ h3))
          · exact Or.inr h4
      · rw [if_neg hc] at h
        rcases List.mem_cons.mp h with h1 | h2
        · exact Or.inl (h1 ▸ List.mem_cons_self c rest)
        · rcases ih h2 with h3 | h4
          · exact Or.inl (List.mem_cons_of_mem _ h3)
          · exact Or.inr h4

theorem not_mem_replaceGo_single {p : Char} {rep : List Char} (hp : p ∉ rep) :
    ∀ {fuel} {l : List Char}, l.length ≤ fuel → p ∉ replaceGo p [] rep fuel l := by
  intro fuel
  induction fuel with
  | zero =>
    intro l hl
    have hnil : l = [] := List.eq_nil_of_length_eq_zero (Nat.le_zero.mp hl)
    subst hnil
    simp [replaceGo]
  | succ fuel ih =>
    intro l hl
    cases l with
    | nil => simp [replaceGo]
    | cons c rest =>
      rw [replaceGo]
      by_cases hc : (c == p && List.isPrefixOf [] rest) = true
      · rw [if_pos hc]
        intro hmem
        rcases List.mem_append.mp hmem with h1 | h2
        · exact hp h1
        · have hd : rest.drop ([] : List Char).length = rest := by simp
          rw [hd] at h2
          exact ih (by simpa using Nat.le_of_succ_le_succ hl) h2
      · rw [if_neg hc]
        intro hmem
        rcases List.mem_cons.mp hmem with h1 | h2
        · have hcp : ¬(c == p) = true := by
            intro hb
            exact hc (by simp [hb, List.isPrefixOf])
          exact hcp (by simp [h1.symm])
        · exact ih (by simpa using Nat.le_of_succ_le_succ hl) h2

theorem replaceGo_spaces_length_le :
    ∀ {fuel} {l : List Char}, (replaceGo ' ' [' '] [' '] fuel l).length ≤ l.length := by
  intro fuel
  induction fuel with
  | zero => intro l; exact Nat.le_refl _
  | succ fuel ih =>
    intro l
    cases l with
    | nil => simp [replaceGo]
    | cons c rest =>
      rw [replaceGo]
      by_cases hc : (c == ' ' && List.isPrefixOf [' '] rest) = true
      · rw [if_pos hc]
        have h1 : (replaceGo ' ' [' '] [' '] fuel (rest.drop 1)).length ≤ (rest.drop 1).length := ih
        simp only [List.length_append, List.length_cons, List.length_nil,
          List.length_drop, Nat.zero_add, List.drop_one, List.length_tail] at h1 ⊢
        omega
      · rw [if_neg hc]
        have h1 : (replaceGo ' ' [' '] [' '] fuel rest).length ≤ rest.length := ih
        simp only [List.length_cons]
        omega

theorem replaceGo_spaces_length_lt :
    ∀ {fuel} {l : List Char}, l.length ≤ fuel → hasDoubleSpace l = true →
      (replaceGo ' ' [' '] [' '] fuel l).length < l.length := by
  intro fuel
  induction fuel with
  | zero =>
    intro l hl hd
    have hnil : l = [] := List.eq_nil_of_length_eq_zero (Nat.le_zero.mp hl)
    subst hnil
    simp [hasDoubleSpace] at hd
  | succ fuel ih =>
    intro l hl hd
    cases l with
    | nil => simp [hasDoubleSpace] at hd
    | cons c rest =>
      cases rest with
      | nil => simp [hasDoubleSpace] at hd
      | cons d rest' =>
        rw [replaceGo]
        by_cases hc : (c == ' ' && List.isPrefixOf [' '] (d :: rest')) = true
        · rw [if_pos hc]
          have h1 : (replaceGo ' ' [' '] [' '] fuel ((d :: rest').drop 1)).length ≤
              ((d :: rest').drop 1).length := replaceGo_spaces_length_le
          simp only [List.length_append, List.length_cons, List.length_nil,
            Nat.zero_add, List.drop_succ_cons, List.drop_zero, List.length_tail] at h1 ⊢
          omega
        · rw [if_neg hc]
          have hds : hasDoubleSpace (d :: rest') = true := by
            rw [hasDoubleSpace] at hd
            rcases Bool.or_eq_true_iff.mp hd with h1 | h2
            · exfalso
              apply hc
              have hcsp := (Bool.and_eq_true_iff.mp h1).1
              have hdsp := (Bool.and_eq_true_iff.mp h1).2
              have hdeq : d = ' ' := by simpa using hdsp
              simp [hcsp, hdeq, List.isPrefixOf]
            · exact h2
          have h2 := ih (by simpa using Nat.le_of_succ_le_succ hl) hds
          simp only [List.length_cons] at h2 ⊢
          omega

theorem collapseGo_no_double :
    ∀ {fuel} {l : List Char}, l.length ≤ fuel →
      hasDoubleSpace (collapseGo fuel l) = false := by
  intro fuel
  induction fuel with
  | zero =>
    intro l hl
    have hnil : l = [] := List.eq_nil_of_length_eq_zero (Nat.le_zero.mp hl)
    subst hnil
    simp [collapseGo, hasDoubleSpace]
  | succ fuel ih =>
    intro l hl
    rw [collapseGo]
    by_cases hd : hasDoubleSpace l = true
    · rw [if_pos hd]
      apply ih
      have hlt : (replaceStr ' ' [' '] [' '] l).length < l.length :=
        replaceGo_spaces_length_lt (Nat.le_refl _) hd
      omega
    · rw [if_neg hd]
      exact Bool.not_eq_true _ ▸ (by simpa using hd)

theorem mem_collapseGo :
    ∀ {fuel} {l : List Char} {x}, x ∈ collapseGo fuel l → x ∈ l ∨ x = ' ' := by
  intro fuel
  induction fuel with
  | zero => intro l x h; exact Or.inl h
  | succ fuel ih =>
    intro l x h
    rw [collapseGo] at h
    by_cases hd : hasDoubleSpace l = true
    · rw [if_pos hd] at h
      rcases ih h with h1 | h2
      · rcases mem_replaceGo h1 with h3 | h4
        · exact Or.inl h3
        · right
          simpa using h4
      · exact Or.inr h2
    · rw [if_neg hd] at h
      exact Or.inl h

theorem genRecipientClean_single_line (value : List Char) :
    '\r' ∉ genRecipientClean value ∧ '\n' ∉ genRecipientClean value ∧
      hasDoubleSpace (genRecipientClean value) = false := by
  rw [genRecipientClean]
  set v4 := replaceStr '\r' ['\n'] [' ']
    (replaceStr '\r' ['\n', '\t'] [' ']
      (replaceStr '\r' ['\n', '\t', ' '] [' ']
        (replaceStr ' ' ['\r', '\n', '\t'] [' '] value))) with hv4
  set v5 := replaceStr '\r' [] [' '] v4 with hv5
  set v6 := replaceStr '\n' [] [' '] v5 with hv6
  have h5r : '\r' ∉ v5 := not_mem_replaceGo_single (by decide) (Nat.le_refl _)
  have h6n : '\n' ∉ v6 := not_mem_replaceGo_single (by decide) (Nat.le_refl _)
  have h6r : '\r' ∉ v6 := by
    intro hm
    rcases mem_replaceGo hm with h1 | h2
    · exact h5r h1
    · simp at h2
  refine ⟨?_, ?_, ?_⟩
  · intro hm
    rcases mem_collapseGo hm with h1 | h2
    · exact h6r h1
    · cases h2
  · intro hm
    rcases mem_collapseGo hm with h1 | h2
    · exact h6n h1
    · cases h2
  · exact collapseGo_no_double (Nat.le_refl _)

theorem genRecipientFinal_single_line {x : Option (List Char)} {v : List Char}
    (h : genRecipientFinal x = Option.some v) :
    '\r' ∉ v ∧ '\n' ∉ v ∧ hasDoubleSpace v = false := by
  cases x with
  | none => simp [genRecipientFinal] at h
  | some w =>
    rw [genRecipientFinal] at h
    by_cases he : w.isEmpty = true
    · rw [if_pos he] at h
      injection h with h2
      subst h2
      have hw : w = [] := by simpa using he
      subst hw
      simp [hasDoubleSpace]
    · rw [if_neg he] at h
      injection h with h2
      subst h2
      exact genRecipientClean_single_line w

/-- Claim C9 (amended): whenever _genRecipient of CalendarBase returns a
string, the string contains no carriage-return and no line-feed character
and no two consecutive spaces, and the whitespace-collapsing loop
terminates on every input (the embedding is a total function whose loop
fuel, the string length, bounds the iteration count).  The original claim
also said no tab character remains; the counterexample shows a lone tab
survives the cleanup, because the source only removes tabs inside the
three line-break sequences. -/
theorem genRecipient_single_line (headerInit : Bool) (headerValue : Option (List Char))
    (recipientSeparator : List Char) (recipients : List (Nat × List Char))
    (recipientInt : Nat) (v : List Char)
    (h : genRecipient headerInit headerValue recipientSeparator recipients recipientInt =
      Option.some v) :
    '\r' ∉ v ∧ '\n' ∉ v ∧ hasDoubleSpace v = false := by
  simp only [genRecipient] at h
  exact genRecipientFinal_single_line h

/-- Witness for claim C9 (amended): a concrete header value consisting of a
word, a space and a word is returned unchanged, and the theorem yields that
the result holds no carriage return, no line feed and no double space. -/
theorem genRecipient_single_line_witness :
    '\r' ∉ ['a', ' ', 'b'] ∧ '\n' ∉ ['a', ' ', 'b'] ∧
      hasDoubleSpace ['a', ' ', 'b'] = false :=
  genRecipient_single_line true (Option.some ['a', ' ', 'b']) [','] [] 0
    ['a', ' ', 'b'] (by decide)

/-- Counterexample for claim C9 as stated: with the header initialised and
holding the value a, tab, b, _genRecipient returns the value unchanged, so
the returned string still contains a tab character, against the claim that
returned strings contain no tab. -/
theorem genRecipient_tab_survives :
    genRecipient true (Option.some ['a', '\t', 'b']) [','] [] 0 =
      Option.some ['a', '\t', 'b'] ∧ '\t' ∈ ['a', '\t', 'b'] := by
  constructor
  · decide
  · decide

theorem getNamedAs_absent_bool_false (props : List ((String × String) × PyValue))
    (name guid : String)
    (h : props.find? (fun e => e.1 == (name, guid)) = Option.none) :
    getNamedAs props name guid (Option.some pyBool) false = .bool false := by
  simp [getNamedAs, h, pyBool, pyTruthy]

theorem getNamedAs_absent_preserve (props : List ((String × String) × PyValue))
    (name guid : String)
    (h : props.find? (fun e => e.1 == (name, guid)) = Option.none) :
    getNamedAs props name guid (Option.some pyBool) true = .none := by
  simp [getNamedAs, h]

/-- Claim C8 (amended): when the underlying named property is absent, each
boolean accessor among appointmentNotAllowPropose, appointmentSubType,
isException, isRecurring, meetingDoNotForward, fExceptionalBody and
fInvited returns False, because they pass preserveNone as False so bool is
applied to the absent None; the accessor recurring, whose fourth argument
True is the preserveNone flag and not a default value, instead returns the
absent None itself, not True. -/
theorem boolAccessors_absent_default (props : List ((String × String) × PyValue)) :
    (props.find? (fun e => e.1 == ("8259", PSETID_APPOINTMENT)) = Option.none →
      appointmentNotAllowPropose props = .bool false) ∧
    (props.find? (fun e => e.1 == ("8215", PSETID_APPOINTMENT)) = Option.none →
      appointmentSubType props = .bool false) ∧
    (props.find? (fun e => e.1 == ("000A", PSETID_MEETING)) = Option.none →
      isException props = .bool false) ∧
    (props.find? (fun e => e.1 == ("0005", PSETID_MEETING)) = Option.none →
      isRecurring props = .bool false) ∧
    (props.find? (fun e => e.1 == ("DoNotForward", PS_PUBLIC_STRINGS)) = Option.none →
      meetingDoNotForward props = .bool false) ∧
    (props.find? (fun e => e.1 == ("8206", PSETID_APPOINTMENT)) = Option.none →
      fExceptionalBody props = .bool false) ∧
    (props.find? (fun e => e.1 == ("8229", PSETID_APPOINTMENT)) = Option.none →
      fInvited props = .bool false) ∧
    (props.find? (fun e => e.1 == ("8223", PSETID_APPOINTMENT)) = Option.none →
      recurring props = .none) := by
  refine ⟨?_, ?_, ?_, ?_, ?_, ?_, ?_, ?_⟩
  · exact fun h => getNamedAs_absent_bool_false props _ _ h
  · exact fun h => getNamedAs_absent_bool_false props _ _ h
  · exact fun h => getNamedAs_absent_bool_false props _ _ h
  · exact fun h => getNamedAs_absent_bool_false props _ _ h
  · exact fun h => getNamedAs_absent_bool_false props _ _ h
  · exact fun h => getNamedAs_absent_bool_false props _ _ h
  · exact fun h => getNamedAs_absent_bool_false props _ _ h
  · exact fun h => getNamedAs_absent_preserve props _ _ h

/-- Witness for claim C8 (amended): with an empty property table every
lookup is absent, the seven listed accessors return False and recurring
returns None. -/
theorem boolAccessors_absent_default_witness :
    appointmentNotAllowPropose [] = .bool false ∧
    appointmentSubType [] = .bool false ∧
    isException [] = .bool false ∧
    isRecurring [] = .bool false ∧
    meetingDoNotForward [] = .bool false ∧
    fExceptionalBody [] = .bool false ∧
    fInvited [] = .bool false ∧
    recurring [] = .none := by
  have h := boolAccessors_absent_default []
  exact ⟨h.1 rfl, h.2.1 rfl, h.2.2.1 rfl, h.2.2.2.1 rfl, h.2.2.2.2.1 rfl,
    h.2.2.2.2.2.1 rfl, h.2.2.2.2.2.2.1 rfl, h.2.2.2.2.2.2.2 rfl⟩

/-- Counterexample for claim C8 as stated: with the named property 8223 of
PSETID_APPOINTMENT absent (empty property table), the accessor recurring
returns None, not True, because its fourth argument True is the
preserveNone flag of _getNamedAs and not a default value. -/
theorem recurring_absent_not_true :
    recurring [] = PyValue.none ∧ recurring [] ≠ PyValue.bool true := by
  constructor
  · decide
  · decide

/-- Claim C10: for every MeetingException object state and any keyword
arguments, save returns exactly the pair (SaveType.NONE, None) and the
state passes through unchanged, so nothing is mutated and no output is
produced. -/
theorem meetingExceptionSave_returns_none_and_pure (σ : Type) (state : σ)
    (kwargs : List (String × String)) :
    meetingExceptionSave state kwargs = ((SaveType.NONE, Option.none), state) := rfl

theorem find?_eq_of_unique {α} {p : α → Bool} {l : List α} {x : α}
    (hx : x ∈ l) (hpx : p x = true)
    (huniq : ∀ y ∈ l, p y = true → y = x) : l.find? p = some x := by
  induction l with
  | nil => cases hx
  | cons a rest ih =>
    by_cases hpa : p a = true
    · rw [List.find?_cons_of_pos _ hpa]
      exact congrArg some (huniq a (List.mem_cons_self a rest) hpa)
    · rw [List.find?_cons_of_neg _ hpa]
      rcases List.mem_cons.mp hx with h1 | h2
      · exact absurd (h1 ▸ hpx) hpa
      · exact ih h2 (fun y hy hpy => huniq y (List.mem_cons_of_mem _ hy) hpy)

theorem pairwise_key_unique {α β} {k : α → β} {l : List α}
    (h : l.Pairwise (fun a b => k a ≠ k b)) :
    ∀ x ∈ l, ∀ y ∈ l, k x = k y → x = y := by
  induction l with
  | nil => intro x hx; cases hx
  | cons a rest ih =>
    have ha := (List.pairwise_cons.mp h).1
    have hrest := (List.pairwise_cons.mp h).2
    intro x hx y hy hk
    rcases List.mem_cons.mp hx with h1 | h2 <;>
      rcases List.mem_cons.mp hy with h3 | h4
    · exact h1.trans h3.symm
    · exact absurd (h1 ▸ hk) (ha y h4)
    · exact absurd (h3 ▸ hk).symm (ha x h2)
    · exact ih hrest x h2 y h4 hk

/-- Claim C3: resolve and reverse of NamedPropertyResolver are mutually
inverse on the entries of one file.  Concretely, with a GUID table whose
entry at packed index 3 is the PSETID_Appointment GUID and an entry-table
record mapping discriminator LID 0x8208 to synthetic ID 0x8010, resolve
returns 0x8010 and reverse returns the pair back; in general, under the
bijection invariant of the data model (no two entries claim the same
synthetic ID, no two entries claim the same resolved (GUID, discriminator)
key), resolve and reverse invert each other, and each lookup returns at
most one answer because both are functions. -/
theorem resolver_resolve_reverse_inverse :
    (resolve nameidExample PSETID_APPOINTMENT_GUID (.lid 0x8208) = .ok 0x8010 ∧
      reverse nameidExample 0x8010 =
        .ok (PSETID_APPOINTMENT_GUID, .lid 0x8208)) ∧
    ∀ ns : NameidStorage,
      (parseEntries ns.entryStream).Pairwise (fun a b => a.propId ≠ b.propId) →
      (parseEntries ns.entryStream).Pairwise
        (fun a b => namedKey ns a ≠ namedKey ns b) →
      ∀ (g : List Nat) (d : NamedDisc) (pid : Nat),
        (resolve ns g d = .ok pid → reverse ns pid = .ok (g, d)) ∧
        (reverse ns pid = .ok (g, d) → resolve ns g d = .ok pid) := by
  constructor
  · exact ⟨rfl, rfl⟩
  · intro ns wfA wfB g d pid
    constructor
    · intro h
      rw [resolve] at h
      cases hf : (parseEntries ns.entryStream).find?
          (entryMatches (guidsOfStream ns.guidStream) ns.stringStream g d) with
      | none => simp only [hf] at h; cases h
      | some e =>
        simp only [hf] at h
        injection h with hpid
        have hmem := List.mem_of_find?_eq_some hf
        have hmatch := List.find?_some hf
        rw [entryMatches, Bool.and_eq_true] at hmatch
        have hg : guidAt (guidsOfStream ns.guidStream) e.guidIndex = some g :=
          of_decide_eq_true hmatch.1
        have hd : discOf ns.stringStream e = some d :=
          of_decide_eq_true hmatch.2
        have hfind2 : (parseEntries ns.entryStream).find?
            (fun e' => e'.propId == pid) = some e := by
          apply find?_eq_of_unique hmem
          · simp [hpid]
          · intro y hy hpy
            apply pairwise_key_unique wfA y hy e hmem
            have : y.propId = pid := by simpa using hpy
            rw [this, hpid]
        rw [reverse]
        simp only [hfind2, hg, hd]
    · intro h
      rw [reverse] at h
      cases hf : (parseEntries ns.entryStream).find?
          (fun e' => e'.propId == pid) with
      | none => simp only [hf] at h; cases h
      | some e =>
        simp only [hf] at h
        have hmem := List.mem_of_find?_eq_some hf
        have hpe : e.propId = pid := by simpa using List.find?_some hf
        cases hg : guidAt (guidsOfStream ns.guidStream) e.guidIndex with
        | none => simp only [hg] at h; cases h
        | some g' =>
          cases hd : discOf ns.stringStream e with
          | none => simp only [hg, hd] at h; cases h
          | some d' =>
            simp only [hg, hd] at h
            injection h with hpair
            have hge : g' = g := congrArg Prod.fst hpair
            have hde : d' = d := congrArg Prod.snd hpair
            rw [← hge, ← hde]
            have hfind2 : (parseEntries ns.entryStream).find?
                (entryMatches (guidsOfStream ns.guidStream) ns.stringStream g' d')
                = some e := by
              apply find?_eq_of_unique hmem
              · rw [entryMatches, Bool.and_eq_true]
                exact ⟨decide_eq_true hg, decide_eq_true hd⟩
              · intro y hy hpy
                rw [entryMatches, Bool.and_eq_true] at hpy
                apply pairwise_key_unique wfB y hy e hmem
                rw [namedKey, namedKey, of_decide_eq_true hpy.1,
                  of_decide_eq_true hpy.2, hg, hd]
            rw [resolve]
            simp only [hfind2, hpe]

/-- Witness for claim C3: applying the general inverse direction at the
concrete one-entry nameid storage, whose entry table trivially satisfies
the bijection invariant, recovers the reverse lookup of 0x8010. -/
theorem resolver_resolve_reverse_inverse_witness :
    reverse nameidExample 0x8010 =
      .ok (PSETID_APPOINTMENT_GUID, NamedDisc.lid 0x8208) :=
  (resolver_resolve_reverse_inverse.2 nameidExample (by decide) (by decide)
    PSETID_APPOINTMENT_GUID (NamedDisc.lid 0x8208) 0x8010).1
    resolver_resolve_reverse_inverse.1.1

theorem chunkExactGo_congr {α} {w : Nat} :
    ∀ {f1 f2 : Nat} {l : List α}, l.length ≤ f1 → l.length ≤ f2 →
      chunkExactGo w f1 l = chunkExactGo w f2 l := by
  intro f1
  induction f1 with
  | zero =>
    intro f2 l h1 h2
    have hnil : l = [] := List.eq_nil_of_length_eq_zero (Nat.le_zero.mp h1)
    subst hnil
    cases f2 <;> rfl
  | succ f1 ih =>
    intro f2 l h1 h2
    cases l with
    | nil => cases f2 <;> rfl
    | cons a rest =>
      cases f2 with
      | zero => simp at h2
      | succ f2 =>
        rw [chunkExactGo, chunkExactGo]
        by_cases hw : w = 0
        · simp [hw]
        · rw [if_neg hw, if_neg hw]
          have hd : ((a :: rest).drop w).length ≤ f1 := by
            simp only [List.length_drop, List.length_cons] at h1 ⊢
            omega
          have hd2 : ((a :: rest).drop w).length ≤ f2 := by
            simp only [List.length_drop, List.length_cons] at h2 ⊢
            omega
          rw [ih hd hd2]

theorem chunkExact_append_of_length {α} {w : Nat} (hw : 0 < w)
    {r rest : List α} (hr : r.length = w) :
    chunkExact w (r ++ rest) = r :: chunkExact w rest := by
  cases r with
  | nil => simp at hr; omega
  | cons a r' =>
    rw [chunkExact]
    have happ : (a :: r') ++ rest = a :: (r' ++ rest) := rfl
    have hr' : r'.length + 1 = w := by simpa using hr
    have hlen : ((a :: r') ++ rest).length = (r'.length + rest.length) + 1 := by
      simp only [List.length_append, List.length_cons]
      omega
    rw [happ] at hlen ⊢
    rw [hlen, chunkExactGo, if_neg (by omega)]
    have ht : (a :: (r' ++ rest)).take w = a :: r' := by
      rw [← happ, ← hr]
      exact List.take_left _ _
    have hd : (a :: (r' ++ rest)).drop w = rest := by
      rw [← happ, ← hr]
      exact List.drop_left _ _
    rw [ht, hd, chunkExact]
    apply congrArg
    apply chunkExactGo_congr
    · omega
    · exact Nat.le_refl _

theorem chunkExact_short {α} {w : Nat} {l : List α} (hne : l ≠ [])
    (hl : l.length ≤ w) : chunkExact w l = [l] := by
  cases l with
  | nil => exact absurd rfl hne
  | cons a rest =>
    rw [chunkExact]
    have hlen : (a :: rest).length = rest.length + 1 := by simp
    rw [hlen, chunkExactGo]
    have hw : w ≠ 0 := by
      simp only [List.length_cons] at hl
      omega
    rw [if_neg hw]
    rw [List.take_of_length_le hl, List.drop_eq_nil_of_le hl]
    cases rest.length <;> rfl

theorem chunkExactGo_flatten {α} {w : Nat} (hw : 0 < w) :
    ∀ {fuel} {l : List α}, l.length ≤ fuel →
      (chunkExactGo w fuel l).flatten = l := by
  intro fuel
  induction fuel with
  | zero =>
    intro l h1
    have hnil : l = [] := List.eq_nil_of_length_eq_zero (Nat.le_zero.mp h1)
    subst hnil
    rfl
  | succ fuel ih =>
    intro l h1
    cases l with
    | nil => rfl
    | cons a rest =>
      rw [chunkExactGo, if_neg (by omega)]
      rw [List.flatten_cons]
      rw [ih (by simp only [List.length_drop, List.length_cons] at h1 ⊢; omega)]
      exact List.take_append_drop _ _

theorem chunkExactGo_length_mul {α} {w : Nat} (hw : 0 < w) :
    ∀ {fuel} {l : List α} {k : Nat}, l.length ≤ fuel → l.length = w * k →
      (chunkExactGo w fuel l).length = k := by
  intro fuel
  induction fuel with
  | zero =>
    intro l k h1 hk
    have hnil : l = [] := List.eq_nil_of_length_eq_zero (Nat.le_zero.mp h1)
    subst hnil
    have hk0 : k = 0 := by
      rcases Nat.eq_zero_or_pos k with h | h
      · exact h
      · exfalso
        have hle : w ≤ w * k := Nat.le_mul_of_pos_right w h
        simp at hk
        omega
    subst hk0
    rfl
  | succ fuel ih =>
    intro l k h1 hk
    cases l with
    | nil =>
      have hk0 : k = 0 := by
        rcases Nat.eq_zero_or_pos k with h | h
        · exact h
        · exfalso
          have hle : w ≤ w * k := Nat.le_mul_of_pos_right w h
          simp at hk
          omega
      subst hk0
      rfl
    | cons a rest =>
      rw [chunkExactGo, if_neg (by omega)]
      cases k with
      | zero => simp at hk
      | succ k' =>
        have hmul : w * (k' + 1) = w * k' + w := by ring
        have hlen : ((a :: rest).drop w).length = w * k' := by
          simp only [List.length_drop, List.length_cons] at hk ⊢
          omega
        have hfuel : ((a :: rest).drop w).length ≤ fuel := by
          simp only [List.length_drop, List.length_cons] at h1 ⊢
          omega
        simp only [List.length_cons]
        rw [ih hfuel hlen]

/-- Claim C5: a property stream holding the single fixed 32-bit integer
record for tag 0x0E080003 with inline value 1024 decodes to the mapping
entry with key (0x0E08, 3), the INTEGER32 type code, and value 1024. -/
theorem int32_record_decodes :
    decodeProps [3, 0, 8, 14, 0, 0, 0, 0, 0, 4, 0, 0, 0, 0, 0, 0] [] =
      [((0x0E08, 3), PropOutcome.value (PropValue.int32 1024))] := by
  decide

/-- Claim C4: property-level and structured-value decode failures are local
and never global.  Decoding a stream whose first slot is a full 16-byte
record splits into that record decoded on its own followed by the decode of
the rest, so one record never aborts the others; a trailing slot off the
16-byte stride is reported as MalformedPropertyRecord for that slot alone;
concretely, a stream pairing a valid 32-bit integer record with a
variable-typed record whose sibling stream is missing decodes the integer
and reports only the other property unreadable; and with the sibling
stream present but holding a truncated RecurrencePattern buffer, the
structured decoder fails with TruncatedStructure on that value alone while
the integer property still decodes. -/
theorem property_decode_failures_local :
    (∀ (siblings : List (List Char × List Nat)) (rec rest : List Nat),
      rec.length = 16 →
      decodeProps (rec ++ rest) siblings =
        decodeRecord siblings rec :: decodeProps rest siblings) ∧
    (∀ (siblings : List (List Char × List Nat)) (rec : List Nat),
      rec ≠ [] → rec.length < 16 →
      decodeProps rec siblings =
        [((readLE rec 0 4 / 65536, readLE rec 0 4 % 65536),
          .unreadable .malformedPropertyRecord)]) ∧
    decodeProps
        ([3, 0, 8, 14, 0, 0, 0, 0, 0, 4, 0, 0, 0, 0, 0, 0] ++
          [2, 1, 22, 130, 0, 0, 0, 0, 0, 0, 0, 0, 0, 0, 0, 0]) [] =
      [((0x0E08, 3), .value (.int32 1024)),
        ((0x8216, 0x0102), .unreadable .missingValueStream)] ∧
    decodeProps
        ([3, 0, 8, 14, 0, 0, 0, 0, 0, 4, 0, 0, 0, 0, 0, 0] ++
          [2, 1, 22, 130, 0, 0, 0, 0, 0, 0, 0, 0, 0, 0, 0, 0])
        [(substgName 0x8216 0x0102, [1, 2, 3])] =
      [((0x0E08, 3), .value (.int32 1024)),
        ((0x8216, 0x0102), .value (.bytes [1, 2, 3]))] ∧
    parseRecurrencePattern [1, 2, 3] = .error .truncatedStructure := by
  refine ⟨?_, ?_, by decide, by decide, by rfl⟩
  · intro siblings rec rest h
    rw [decodeProps, decodeProps,
      chunkExact_append_of_length (by omega) h, List.map_cons]
  · intro siblings rec hne hlt
    rw [decodeProps, chunkExact_short hne (by omega)]
    simp only [List.map_cons, List.map_nil, decodeRecord]
    rw [if_pos (show rec.length ≠ 16 by omega)]

/-- Witness for claim C4: the locality of the split at the concrete
two-record stream, the first record decoded on its own in front of the
decode of the second. -/
theorem property_decode_failures_local_witness :
    decodeProps
        ([3, 0, 8, 14, 0, 0, 0, 0, 0, 4, 0, 0, 0, 0, 0, 0] ++
          [2, 1, 22, 130, 0, 0, 0, 0, 0, 0, 0, 0, 0, 0, 0, 0]) [] =
      decodeRecord [] [3, 0, 8, 14, 0, 0, 0, 0, 0, 4, 0, 0, 0, 0, 0, 0] ::
        decodeProps [2, 1, 22, 130, 0, 0, 0, 0, 0, 0, 0, 0, 0, 0, 0, 0] [] :=
  property_decode_failures_local.1 []
    [3, 0, 8, 14, 0, 0, 0, 0, 0, 4, 0, 0, 0, 0, 0, 0]
    [2, 1, 22, 130, 0, 0, 0, 0, 0, 0, 0, 0, 0, 0, 0, 0] (by decide)

/-- Claim C6: every structured-value decoder returns a fully-typed record
or fails: each fails with TruncatedStructure exactly when the buffer is
shorter than its fixed header (20 bytes for EntryID, 40 for
GlobalObjectID, 16 for RecurrencePattern, 48 for TimeZoneStruct, 4 for
TimeZoneDefinition), fails with InconsistentStructureLength exactly when
the buffer reaches the header but its embedded length field disagrees
with the remaining buffer size (the data size at offset 36 for
GlobalObjectID, the 4-byte exception count at offset 12 for
RecurrencePattern, the trailing-slack check of the fixed 48-byte
TimeZoneStruct, the header byte count at offset 2 for TimeZoneDefinition;
EntryID carries no embedded length field and never reports it), and never
returns a silently-truncated partial record: every successful decode
accounts for the whole buffer through the returned record. -/
theorem structured_decoders_strict :
    (∀ b : List Nat,
      parseEntryID b = .error .truncatedStructure ↔ b.length < 20) ∧
    (∀ (b : List Nat) r, parseEntryID b = .ok r →
      20 ≤ b.length ∧ r.payload.length + 20 = b.length) ∧
    (∀ b : List Nat,
      parseGlobalObjectID b = .error .truncatedStructure ↔ b.length < 40) ∧
    (∀ (b : List Nat) r, parseGlobalObjectID b = .ok r →
      b.length = 40 + r.data.length) ∧
    (∀ b : List Nat,
      parseRecurrencePattern b = .error .truncatedStructure ↔ b.length < 16) ∧
    (∀ (b : List Nat) r, parseRecurrencePattern b = .ok r →
      b.length = 16 + 4 * r.exceptions.length) ∧
    (∀ b : List Nat,
      parseTimeZoneStruct b = .error .truncatedStructure ↔ b.length < 48) ∧
    (∀ (b : List Nat) r, parseTimeZoneStruct b = .ok r → b.length = 48) ∧
    (∀ b : List Nat,
      parseTimeZoneDefinition b = .error .truncatedStructure ↔ b.length < 4) ∧
    (∀ (b : List Nat) r, parseTimeZoneDefinition b = .ok r →
      b.length = 4 + r.content.length) ∧
    (∀ b : List Nat, parseEntryID b ≠ .error .inconsistentStructureLength) ∧
    (∀ b : List Nat,
      parseGlobalObjectID b = .error .inconsistentStructureLength ↔
        40 ≤ b.length ∧ b.length ≠ 40 + readLE b 36 4) ∧
    (∀ b : List Nat,
      parseRecurrencePattern b = .error .inconsistentStructureLength ↔
        16 ≤ b.length ∧ b.length ≠ 16 + 4 * readLE b 12 4) ∧
    (∀ b : List Nat,
      parseTimeZoneStruct b = .error .inconsistentStructureLength ↔
        48 < b.length) ∧
    (∀ b : List Nat,
      parseTimeZoneDefinition b = .error .inconsistentStructureLength ↔
        4 ≤ b.length ∧ b.length ≠ 4 + readLE b 2 2) := by
  refine ⟨?_, ?_, ?_, ?_, ?_, ?_, ?_, ?_, ?_, ?_, ?_, ?_, ?_, ?_, ?_⟩
  · intro b
    simp only [parseEntryID]
    split_ifs with h <;> simp [h]
  · intro b r h
    simp only [parseEntryID] at h
    split_ifs at h with h1
    injection h with h2
    subst h2
    simp only [List.length_drop]
    omega
  · intro b
    simp only [parseGlobalObjectID]
    split_ifs with h1 h2 <;> simp [h1]
  · intro b r h
    simp only [parseGlobalObjectID] at h
    split_ifs at h with h1 h2
    cases h
    dsimp only
    simp only [List.length_take, List.length_drop]
    omega
  · intro b
    simp only [parseRecurrencePattern]
    split_ifs with h1 h2 <;> simp [h1]
  · intro b r h
    simp only [parseRecurrencePattern] at h
    split_ifs at h with h1 h2
    cases h
    dsimp only
    simp only [List.length_map]
    rw [chunkExact, chunkExactGo_length_mul (by omega) (Nat.le_refl _)
      (show (b.drop 16).length = 4 * readLE b 12 4 by
        simp only [List.length_drop]; omega)]
    omega
  · intro b
    simp only [parseTimeZoneStruct]
    split_ifs with h1 h2 <;> simp [h1]
  · intro b r h
    simp only [parseTimeZoneStruct] at h
    split_ifs at h with h1 h2
    simp only [ne_eq, not_not] at h2
    exact h2
  · intro b
    simp only [parseTimeZoneDefinition]
    split_ifs with h1 h2 <;> simp [h1]
  · intro b r h
    simp only [parseTimeZoneDefinition] at h
    split_ifs at h with h1 h2
    cases h
    dsimp only
    simp only [List.length_drop]
    omega
  · intro b
    simp only [parseEntryID]
    split_ifs with h <;> simp
  · intro b
    simp only [parseGlobalObjectID]
    split_ifs with h1 h2 <;> simp <;> omega
  · intro b
    simp only [parseRecurrencePattern]
    split_ifs with h1 h2 <;> simp <;> omega
  · intro b
    simp only [parseTimeZoneStruct]
    split_ifs with h1 h2 <;> simp <;> omega
  · intro b
    simp only [parseTimeZoneDefinition]
    split_ifs with h1 h2 <;> simp <;> omega

/-- Witness for claim C6: the three-byte buffer of the truncated
RecurrencePattern of the testable properties fails with
TruncatedStructure through the exactness direction of the theorem, and a
48-byte GlobalObjectID buffer whose embedded size field reads 100 fails
with InconsistentStructureLength through the embedded-length
characterisation. -/
theorem structured_decoders_strict_witness :
    parseRecurrencePattern [1, 2, 3] = .error .truncatedStructure ∧
    parseGlobalObjectID
        (List.replicate 36 0 ++ [100, 0, 0, 0] ++ List.replicate 8 0) =
      .error .inconsistentStructureLength :=
  ⟨(structured_decoders_strict.2.2.2.2.1 [1, 2, 3]).mpr (by decide),
    (structured_decoders_strict.2.2.2.2.2.2.2.2.2.2.2.1
        (List.replicate 36 0 ++ [100, 0, 0, 0] ++ List.replicate 8 0)).mpr
      (by decide)⟩

theorem length_leBytes : ∀ (w n : Nat), (leBytes w n).length = w := by
  intro w
  induction w with
  | zero => intro n; rfl
  | succ w ih => intro n; simp [leBytes, ih]

theorem leVal_leBytes : ∀ (w n : Nat), n < 256 ^ w → leVal (leBytes w n) = n := by
  intro w
  induction w with
  | zero =>
    intro n h
    simp [Nat.pow_zero] at h
    simp [h, leBytes, leVal]
  | succ w ih =>
    intro n h
    rw [leBytes, leVal]
    have hdiv : n / 256 < 256 ^ w := by
      rw [Nat.div_lt_iff_lt_mul (by omega)]
      calc n < 256 ^ (w + 1) := h
      _ = 256 ^ w * 256 := by rw [Nat.pow_succ]
    rw [ih _ hdiv]
    omega

theorem leBytes_lt : ∀ (w n : Nat), ∀ b ∈ leBytes w n, b < 256 := by
  intro w
  induction w with
  | zero => intro n b hb; simp [leBytes] at hb
  | succ w ih =>
    intro n b hb
    rw [leBytes] at hb
    rcases List.mem_cons.mp hb with h | h
    · subst h; exact Nat.mod_lt _ (by omega)
    · exact ih _ _ h

theorem readLE_skip {a : List Nat} (b : List Nat) {off : Nat} (w : Nat)
    (h : a.length ≤ off) : readLE (a ++ b) off w = readLE b (off - a.length) w := by
  rw [readLE, readLE]
  have hsplit : off = a.length + (off - a.length) := by omega
  rw [hsplit, ← List.drop_drop, List.drop_left]
  simp

theorem readLE_here {a : List Nat} (b : List Nat) {off w : Nat}
    (h : off + w ≤ a.length) : readLE (a ++ b) off w = readLE a off w := by
  rw [readLE, readLE]
  apply congrArg
  have h1 : (a.drop off).length = a.length - off := by simp
  rw [List.drop_append_of_le_length (by omega)]
  rw [List.take_append_of_le_length (by omega)]

theorem readLE_exact {a : List Nat} (b : List Nat) {w : Nat}
    (h : a.length = w) : readLE (a ++ b) 0 w = leVal a := by
  rw [readLE, List.drop_zero, List.take_append_of_le_length (by omega),
    List.take_of_length_le (by omega)]

theorem readLE_le32 (b : List Nat) (n : Nat) (h : n < 4294967296) :
    readLE (le32 n ++ b) 0 4 = n := by
  rw [le32, readLE_exact b (length_leBytes 4 n)]
  exact leVal_leBytes 4 n h

theorem readLE_le16 (b : List Nat) (n : Nat) (h : n < 65536) :
    readLE (le16 n ++ b) 0 2 = n := by
  rw [le16, readLE_exact b (length_leBytes 2 n)]
  exact leVal_leBytes 2 n h

theorem readLE_le64 (b : List Nat) (n : Nat) (h : n < 18446744073709551616) :
    readLE (le64 n ++ b) 0 8 = n := by
  rw [le64, readLE_exact b (length_leBytes 8 n)]
  exact leVal_leBytes 8 n h

theorem padTo_length {α} {w : Nat} {pad : α} {l : List α} (h : l.length ≤ w) :
    (padTo w pad l).length = w := by
  rw [padTo]
  simp
  omega

theorem padTo_take {α} (w : Nat) (pad : α) (l : List α) :
    (padTo w pad l).take l.length = l := by
  rw [padTo, List.take_left]

theorem ceilDiv_le_mul (n w : Nat) (hw : 0 < w) : n ≤ w * ceilDiv n w := by
  rw [ceilDiv]
  rcases Nat.eq_zero_or_pos n with h | h
  · simp [h]
  · have h1 : n + w - 1 = (n - 1) + w := by omega
    rw [h1, Nat.add_div_right _ hw, Nat.mul_add, Nat.mul_one]
    have h2 : w * ((n - 1) / w) + (n - 1) % w = n - 1 :=
      Nat.div_add_mod _ _
    have h3 : (n - 1) % w < w := Nat.mod_lt _ hw
    omega

theorem ceilDiv_pos {n w : Nat} (hn : 0 < n) (hw : 0 < w) : 0 < ceilDiv n w := by
  rw [ceilDiv]
  have h1 : n + w - 1 = (n - 1) + w := by omega
  rw [h1, Nat.add_div_right _ hw]
  exact Nat.succ_pos _

theorem ceilDiv_mul (k w : Nat) (hw : 0 < w) : ceilDiv (w * k) w = k := by
  rw [ceilDiv]
  rcases Nat.eq_zero_or_pos k with h | h
  · subst h
    simp
    exact Nat.div_eq_of_lt (by omega)
  · have h1 : w * k + w - 1 = (w * k - 1) + w := by
      have : 1 ≤ w * k := Nat.one_le_iff_ne_zero.mpr (by positivity)
      omega
    rw [h1, Nat.add_div_right _ hw]
    have h2 : w * k - 1 = w * (k - 1) + (w - 1) := by
      have h3 : w * k = w * (k - 1) + w := by
        rw [← Nat.mul_succ]
        congr 1
        omega
      omega
    rw [h2, Nat.mul_add_div hw, Nat.div_eq_of_lt (by omega)]
    omega

theorem map_range_eq {α} (f : Nat → α) (l : List α) :
    (∀ i, (hi : i < l.length) → f i = l.get ⟨i, hi⟩) →
    (List.range l.length).map f = l := by
  induction l using List.reverseRecOn with
  | nil => intro _; rfl
  | append_singleton l x ih =>
    intro h
    rw [List.length_append, List.length_singleton, List.range_succ,
      List.map_append, List.map_singleton]
    congr 1
    · apply ih
      intro i hi
      have hx := h i (by simp; omega)
      rw [hx]
      rw [List.get_append _ hi]
    · have hx := h l.length (by simp)
      rw [hx]
      congr 1
      rw [List.get_append_right] <;> simp

theorem range'_map_eq {α} (f : Nat → α) :
    ∀ (k s : Nat) (l : List α), l.length = k →
    (∀ i, i < k → f (s + i) = l[i]?.getD (f (s + i))) →
    (List.range' s k).map f = l := by
  intro k
  induction k with
  | zero =>
    intro s l hl _
    simp [List.eq_nil_of_length_eq_zero hl]
  | succ k ih =>
    intro s l hl h
    cases l with
    | nil => simp at hl
    | cons x rest =>
      rw [List.range'_succ, List.map_cons]
      congr 1
      · have h0 := h 0 (by omega)
        simpa using h0
      · apply ih (s + 1) rest (by simpa using hl)
        intro i hi
        have hx := h (i + 1) (by omega)
        have e1 : s + (i + 1) = s + 1 + i := by omega
        rw [e1] at hx
        simpa using hx

theorem flatten_drop_uniform {α} {w : Nat} (hw : 0 < w) :
    ∀ (blocks : List (List α)) (j : Nat), (∀ b ∈ blocks, b.length = w) →
    (blocks.flatten).drop (w * j) = (blocks.drop j).flatten := by
  intro blocks
  induction blocks with
  | nil => intro j _; simp
  | cons b rest ih =>
    intro j hu
    cases j with
    | zero => simp
    | succ j =>
      have hb : b.length = w := hu b (List.mem_cons_self _ _)
      rw [List.flatten_cons, List.drop_succ_cons]
      have e1 : w * (j + 1) = b.length + w * j := by rw [hb]; ring
      rw [e1, ← List.drop_drop, List.drop_left]
      exact ih j (fun x hx => hu x (List.mem_cons_of_mem _ hx))

theorem flatten_slice_uniform {α} {w : Nat} (hw : 0 < w)
    (blocks : List (List α)) (j : Nat) (hu : ∀ b ∈ blocks, b.length = w)
    (hj : j < blocks.length) :
    ((blocks.flatten).drop (w * j)).take w = blocks[j] := by
  rw [flatten_drop_uniform hw blocks j hu]
  have hdj : blocks.drop j = blocks[j] :: blocks.drop (j + 1) :=
    List.drop_eq_getElem_cons hj
  have hmem : blocks[j] ∈ blocks := List.getElem_mem hj
  have hlen : (blocks[j]).length = w := hu _ hmem
  rw [hdj, List.flatten_cons,
    List.take_append_of_le_length (by omega), List.take_of_length_le (by omega)]

theorem flatten_getElem_block {α} :
    ∀ (blocks : List (List α)) (j off : Nat) (hj : j < blocks.length),
    off < (blocks[j]).length →
    (blocks.flatten)[(((blocks.take j).map List.length).sum) + off]? =
      (blocks[j])[off]? := by
  intro blocks
  induction blocks with
  | nil => intro j off hj; simp at hj
  | cons b rest ih =>
    intro j off hj hoff
    cases j with
    | zero =>
      simp only [List.take_zero, List.map_nil, List.sum_nil, Nat.zero_add,
        List.flatten_cons]
      rw [List.getElem?_append, if_pos (by simpa using hoff)]
      simp
    | succ j =>
      have hj' : j < rest.length := by simpa using hj
      have hoff' : off < (rest[j]).length := by simpa using hoff
      have := ih j off hj' hoff'
      simp only [List.take_succ_cons, List.map_cons, List.sum_cons,
        List.flatten_cons]
      rw [Nat.add_assoc, List.getElem?_append_right (by omega)]
      simpa using this

theorem chunkPadGo_congr {α} {w : Nat} {pad : α} :
    ∀ {f1 f2 : Nat} {l : List α}, l.length ≤ f1 → l.length ≤ f2 →
      chunkPadGo w pad f1 l = chunkPadGo w pad f2 l := by
  intro f1
  induction f1 with
  | zero =>
    intro f2 l h1 h2
    have hnil : l = [] := List.eq_nil_of_length_eq_zero (Nat.le_zero.mp h1)
    subst hnil
    cases f2 <;> rfl
  | succ f1 ih =>
    intro f2 l h1 h2
    cases l with
    | nil => cases f2 <;> rfl
    | cons a rest =>
      cases f2 with
      | zero => simp at h2
      | succ f2 =>
        rw [chunkPadGo, chunkPadGo]
        by_cases hw : w = 0
        · simp [hw]
        · rw [if_neg hw, if_neg hw]
          congr 1
          apply ih
          · simp only [List.length_drop, List.length_cons] at h1 ⊢
            omega
          · simp only [List.length_drop, List.length_cons] at h2 ⊢
            omega

theorem chunkPadGo_uniform {α} {w : Nat} {pad : α} (hw : 0 < w) :
    ∀ {fuel} {l : List α}, ∀ c ∈ chunkPadGo w pad fuel l, c.length = w := by
  intro fuel
  induction fuel with
  | zero => intro l c hc; simp [chunkPadGo] at hc
  | succ fuel ih =>
    intro l c hc
    cases l with
    | nil => simp [chunkPadGo] at hc
    | cons a rest =>
      rw [chunkPadGo, if_neg (by omega)] at hc
      rcases List.mem_cons.mp hc with h | h
      · subst h
        simp only [List.length_append, List.length_take, List.length_replicate,
          List.length_cons]
        omega
      · exact ih _ h


theorem ceilDiv_zero_left {w : Nat} (hw : 0 < w) : ceilDiv 0 w = 0 := by
  rw [ceilDiv]
  exact Nat.div_eq_of_lt (by omega)

theorem ceilDiv_sub_step {w n : Nat} (hw : 0 < w) (hn : 0 < n) :
    ceilDiv n w = ceilDiv (n - w) w + 1 := by
  rw [ceilDiv, ceilDiv]
  by_cases hle : n ≤ w
  · have e0 : n - w = 0 := by omega
    have e1 : n + w - 1 = (n - 1) + w := by omega
    rw [e0, e1, Nat.add_div_right _ hw,
      Nat.div_eq_of_lt (by omega : n - 1 < w),
      Nat.div_eq_of_lt (by omega : 0 + w - 1 < w)]
  · have e1 : n + w - 1 = ((n - w) + w - 1) + w := by omega
    rw [e1, Nat.add_div_right _ hw]

theorem chunkPadGo_length {α} {w : Nat} {pad : α} (hw : 0 < w) :
    ∀ {fuel} {l : List α}, l.length ≤ fuel →
      (chunkPadGo w pad fuel l).length = ceilDiv l.length w := by
  intro fuel
  induction fuel with
  | zero =>
    intro l h1
    have hnil : l = [] := List.eq_nil_of_length_eq_zero (Nat.le_zero.mp h1)
    subst hnil
    simp [chunkPadGo, ceilDiv_zero_left hw]
  | succ fuel ih =>
    intro l h1
    cases l with
    | nil => simp [chunkPadGo, ceilDiv_zero_left hw]
    | cons a rest =>
      rw [chunkPadGo, if_neg (by omega)]
      rw [List.length_cons]
      rw [ih (by simp only [List.length_drop, List.length_cons] at h1 ⊢; omega)]
      simp only [List.length_drop, List.length_cons]
      rw [ceilDiv_sub_step hw (by omega : 0 < rest.length + 1)]

theorem chunkPadGo_flatten {α} {w : Nat} {pad : α} (hw : 0 < w) :
    ∀ {fuel} {l : List α}, l.length ≤ fuel →
      ∃ m, (chunkPadGo w pad fuel l).flatten = l ++ List.replicate m pad := by
  intro fuel
  induction fuel with
  | zero =>
    intro l h1
    have hnil : l = [] := List.eq_nil_of_length_eq_zero (Nat.le_zero.mp h1)
    subst hnil
    exact ⟨0, by simp [chunkPadGo]⟩
  | succ fuel ih =>
    intro l h1
    cases l with
    | nil => exact ⟨0, by simp [chunkPadGo]⟩
    | cons a rest =>
      rw [chunkPadGo, if_neg (by omega)]
      obtain ⟨m, hm⟩ := ih (l := (a :: rest).drop w)
        (by simp only [List.length_drop, List.length_cons] at h1 ⊢; omega)
      rw [List.flatten_cons, hm]
      by_cases hle : (a :: rest).length ≤ w
      · refine ⟨w - (a :: rest).length + m, ?_⟩
        rw [List.take_of_length_le hle, List.drop_eq_nil_of_le hle,
          List.nil_append, List.append_assoc, List.replicate_add]
      · refine ⟨m, ?_⟩
        have e0 : w - (a :: rest).length = 0 := by omega
        rw [e0]
        simp only [List.replicate_zero, List.append_nil]
        rw [← List.append_assoc, List.take_append_drop]

theorem chunkPad_length {α} {w : Nat} {pad : α} (hw : 0 < w) (l : List α) :
    (chunkPad w pad l).length = ceilDiv l.length w :=
  chunkPadGo_length hw (Nat.le_refl _)

theorem chunkPad_uniform {α} {w : Nat} {pad : α} (hw : 0 < w) (l : List α) :
    ∀ c ∈ chunkPad w pad l, c.length = w := by
  simp only [chunkPad]
  exact chunkPadGo_uniform hw

theorem chunkPad_flatten {α} {w : Nat} {pad : α} (hw : 0 < w) (l : List α) :
    ∃ m, (chunkPad w pad l).flatten = l ++ List.replicate m pad :=
  chunkPadGo_flatten hw (Nat.le_refl _)

theorem chunkExact_flatten {α} {w : Nat} (hw : 0 < w) (l : List α) :
    (chunkExact w l).flatten = l :=
  chunkExactGo_flatten hw (Nat.le_refl _)

theorem chunkExactGo_uniform {α} {w : Nat} (hw : 0 < w) :
    ∀ {fuel : Nat} {l : List α} {k : Nat}, l.length ≤ fuel → l.length = w * k →
      ∀ c ∈ chunkExactGo w fuel l, c.length = w := by
  intro fuel
  induction fuel with
  | zero =>
    intro l k h1 hk c hc
    simp [chunkExactGo] at hc
  | succ fuel ih =>
    intro l k h1 hk c hc
    cases l with
    | nil => simp [chunkExactGo] at hc
    | cons a rest =>
      rw [chunkExactGo, if_neg (by omega)] at hc
      cases k with
      | zero => simp at hk
      | succ q =>
        rcases List.mem_cons.mp hc with h | h
        · subst h
          simp only [List.length_take, List.length_cons]
          have hge : w ≤ rest.length + 1 := by
            simp only [List.length_cons] at hk
            have : w ≤ w * (q + 1) := Nat.le_mul_of_pos_right w (by omega)
            omega
          omega
        · refine ih (l := (a :: rest).drop w) (k := q) ?_ ?_ c h
          · simp only [List.length_drop, List.length_cons] at h1 ⊢
            omega
          · simp only [List.length_drop, List.length_cons] at hk ⊢
            have : w * (q + 1) = w * q + w := by ring
            omega

theorem chunkExact_uniform {α} {w : Nat} (hw : 0 < w) {l : List α} {k : Nat}
    (hk : l.length = w * k) : ∀ c ∈ chunkExact w l, c.length = w := by
  simp only [chunkExact]
  exact chunkExactGo_uniform hw (Nat.le_refl _) hk

theorem serFat_length (l : List FatEntry) : (serFat l).length = 4 * l.length := by
  rw [serFat, List.length_flatten, List.map_map]
  have he : (l.map (List.length ∘ fun e => le32 (fatEntryVal e))) =
      l.map (fun _ => 4) :=
    List.map_congr_left (fun e _ => by simp [le32, length_leBytes])
  rw [he, List.map_const']
  simp [List.sum_replicate, smul_eq_mul, Nat.mul_comm]

theorem serFat_mem_le32 {l : List FatEntry} {c : List Nat} :
    c ∈ (l.map (fun e => le32 (fatEntryVal e))) → c.length = 4 := by
  intro hc
  obtain ⟨e, _, he⟩ := List.mem_map.mp hc
  rw [← he, le32, length_leBytes]

theorem chainEntries_length (b k : Nat) : (chainEntries b k).length = k := by
  simp [chainEntries]

theorem flatten_drop_blocks {α} :
    ∀ (blocks : List (List α)) (j : Nat),
    (blocks.flatten).drop (((blocks.take j).map List.length).sum) =
      (blocks.drop j).flatten := by
  intro blocks
  induction blocks with
  | nil => intro j; simp
  | cons b rest ih =>
    intro j
    cases j with
    | zero => simp
    | succ j =>
      simp only [List.take_succ_cons, List.map_cons, List.sum_cons,
        List.flatten_cons, List.drop_succ_cons]
      rw [← List.drop_drop, List.drop_left]
      exact ih j

theorem flatten_blocks_slice {α} (blocks : List (List α)) (j : Nat)
    (hj : j < blocks.length) :
    ((blocks.flatten).drop (((blocks.take j).map List.length).sum)).take
      ((blocks[j]).length) = blocks[j] := by
  rw [flatten_drop_blocks]
  rw [List.drop_eq_getElem_cons hj, List.flatten_cons, List.take_left]

theorem bigChains_length (E : List (List (List Nat) × List Nat)) :
    ((((bigNodes E).map
      (fun q => chainEntries (bigStartOf E q) (secCount E q))).flatten)).length =
      nBig E := by
  rw [List.length_flatten, List.map_map, nBig]
  congr 1
  apply List.map_congr_left
  intro q _
  simp [Function.comp, chainEntries_length]

theorem miniChains_length (E : List (List (List Nat) × List Nat)) :
    ((((miniNodes E).map
      (fun q => chainEntries (miniStartOf E q) (miniCount E q))).flatten)).length =
      totalMini E := by
  rw [List.length_flatten, List.map_map, totalMini]
  congr 1
  apply List.map_congr_left
  intro q _
  simp [Function.comp, chainEntries_length]

theorem nonFatSecs_le (E : List (List (List Nat) × List Nat)) :
    nonFatSecs E ≤ 126 * numFat E := by
  rw [numFat]
  exact ceilDiv_le_mul _ _ (by omega)

theorem numDifat_le (E : List (List (List Nat) × List Nat)) :
    numDifat E ≤ numFat E := by
  rw [numDifat]
  split_ifs with h
  · omega
  · have h1 : ceilDiv (numFat E - 109) 127 ≤ numFat E - 109 := by
      rw [ceilDiv]
      omega
    omega

theorem fatVals_length (E : List (List (List Nat) × List Nat)) :
    (fatVals E).length = numFat E * 128 := by
  rw [fatVals]
  apply padTo_length
  simp only [List.length_append, List.length_replicate]
  rw [bigChains_length, chainEntries_length, chainEntries_length, chainEntries_length]
  have h1 := nonFatSecs_le E
  have h2 := numDifat_le E
  rw [nonFatSecs] at h1
  omega

theorem totalMini_le (E : List (List (List Nat) × List Nat)) :
    totalMini E ≤ 128 * nMiniFat E := by
  rw [nMiniFat]
  exact ceilDiv_le_mul _ _ (by omega)

theorem miniFatVals_length (E : List (List (List Nat) × List Nat)) :
    (miniFatVals E).length = nMiniFat E * 128 := by
  rw [miniFatVals]
  apply padTo_length
  rw [miniChains_length]
  have := totalMini_le E
  omega

theorem bigSecs_length (E : List (List (List Nat) × List Nat)) :
    (((bigNodes E).map (fun q => chunkPad 512 0 (bytesOfNode E q))).flatten).length =
      nBig E := by
  rw [List.length_flatten, List.map_map, nBig]
  congr 1
  apply List.map_congr_left
  intro q _
  simp only [Function.comp]
  rw [chunkPad_length (by omega)]
  rfl

theorem fatChunks_length (E : List (List (List Nat) × List Nat)) :
    (chunkExact 512 (serFat (fatVals E))).length = numFat E := by
  rw [chunkExact]
  apply chunkExactGo_length_mul (by omega) (Nat.le_refl _)
  rw [serFat_length, fatVals_length]
  ring

theorem miniFatChunks_length (E : List (List (List Nat) × List Nat)) :
    (chunkExact 512 (serFat (miniFatVals E))).length = nMiniFat E := by
  rw [chunkExact]
  apply chunkExactGo_length_mul (by omega) (Nat.le_refl _)
  rw [serFat_length, miniFatVals_length]
  ring

theorem flatten_le32_length (l : List Nat) :
    ((l.map le32).flatten).length = 4 * l.length := by
  rw [List.length_flatten, List.map_map]
  have he : (l.map (List.length ∘ le32)) = l.map (fun _ => 4) :=
    List.map_congr_left (fun x _ => by simp [le32, length_leBytes])
  rw [he, List.map_const']
  simp [List.sum_replicate, smul_eq_mul, Nat.mul_comm]

theorem difatTail_length (E : List (List (List Nat) × List Nat)) :
    (difatTail E).length = numFat E - 109 := by
  rw [difatTail]
  simp

theorem difatSecAt_length (E : List (List (List Nat) × List Nat)) (j : Nat) :
    (difatSecAt E j).length = 512 := by
  rw [difatSecAt]
  simp only [List.length_append]
  rw [flatten_le32_length, padTo_length (by
    simp only [List.length_take]
    omega)]
  simp [le32, length_leBytes]

theorem difatSecs_length (E : List (List (List Nat) × List Nat)) :
    (difatSecs E).length = numDifat E := by
  rw [difatSecs]
  simp

theorem difatSecs_uniform (E : List (List (List Nat) × List Nat)) :
    ∀ s ∈ difatSecs E, s.length = 512 := by
  intro s hs
  rw [difatSecs] at hs
  obtain ⟨j, _, he⟩ := List.mem_map.mp hs
  rw [← he]
  exact difatSecAt_length E j

theorem sectorsOf_length (E : List (List (List Nat) × List Nat)) :
    (sectorsOf E).length =
      nBig E + nMiniSec E + nMiniFat E + nDir E + numFat E + numDifat E := by
  rw [sectorsOf]
  simp only [List.length_append]
  rw [bigSecs_length, fatChunks_length, miniFatChunks_length,
    chunkPad_length (by omega), chunkPad_length (by omega), difatSecs_length]
  rw [nMiniSec, nDir]

theorem sectors_uniform (E : List (List (List Nat) × List Nat)) :
    ∀ s ∈ sectorsOf E, s.length = 512 := by
  intro s hs
  rw [sectorsOf] at hs
  simp only [List.mem_append] at hs
  rcases hs with ((((h | h) | h) | h) | h) | h
  · obtain ⟨blk, hblk, hmem⟩ := List.mem_flatten.mp h
    obtain ⟨q, _, heq⟩ := List.mem_map.mp hblk
    rw [← heq] at hmem
    exact chunkPad_uniform (by omega) _ s hmem
  · exact chunkPad_uniform (by omega) _ s h
  · exact chunkExact_uniform (by omega)
      (show (serFat (miniFatVals E)).length = 512 * nMiniFat E by
        rw [serFat_length, miniFatVals_length]; ring) s h
  · exact chunkPad_uniform (by omega) _ s h
  · exact chunkExact_uniform (by omega)
      (show (serFat (fatVals E)).length = 512 * numFat E by
        rw [serFat_length, fatVals_length]; ring) s h
  · exact difatSecs_uniform E s h

theorem difatList_length (E : List (List (List Nat) × List Nat)) :
    (difatList E).length = 109 := by
  rw [difatList]
  apply padTo_length
  simp

theorem headerBytesOf_length (E : List (List (List Nat) × List Nat)) :
    (headerBytesOf E).length = 512 := by
  rw [headerBytesOf]
  simp only [List.length_append, List.length_replicate]
  rw [List.length_flatten, List.map_map]
  have he : ((difatList E).map (List.length ∘ le32)) =
      (difatList E).map (fun _ => 4) :=
    List.map_congr_left (fun x _ => by simp [le32, length_leBytes])
  rw [he, List.map_const', difatList_length E]
  simp [le16, le32, length_leBytes, cfMagic, List.sum_replicate, smul_eq_mul]

theorem sectorAt_blobOf (E : List (List (List Nat) × List Nat))
    {i : Nat} (hi : i < (sectorsOf E).length) :
    sectorAt (blobOf E) i = (sectorsOf E)[i] := by
  rw [sectorAt, blobOf]
  have e1 : 512 * (i + 1) = (headerBytesOf E).length + 512 * i := by
    rw [headerBytesOf_length E]; ring
  rw [e1, ← List.drop_drop, List.drop_left]
  exact flatten_slice_uniform (by omega) (sectorsOf E) i (sectors_uniform E) hi

theorem readLE_drop0 (blob : List Nat) (off w : Nat) :
    readLE blob off w = readLE (blob.drop off) 0 w := by
  rw [readLE, readLE, List.drop_zero]

theorem readLE_shift (blob : List Nat) (a b w : Nat) :
    readLE blob (a + b) w = readLE (blob.drop a) b w := by
  rw [readLE, readLE, List.drop_drop]

theorem miniFatBase_le (E : List (List (List Nat) × List Nat)) :
    miniFatBase E ≤ nonFatSecs E := by
  rw [miniFatBase, nonFatSecs]
  omega

theorem dirBase_le (E : List (List (List Nat) × List Nat)) :
    dirBase E ≤ nonFatSecs E := by
  rw [dirBase, miniFatBase, nonFatSecs]
  omega

theorem nMiniFat_le (E : List (List (List Nat) × List Nat)) :
    nMiniFat E ≤ nonFatSecs E := by
  rw [nonFatSecs]
  omega

theorem capBounds (E : List (List (List Nat) × List Nat)) (h : capOK E) :
    nonFatSecs E + numFat E + numDifat E ≤ 4294967292 ∧
    (allNodes E).length + 1 ≤ 4294967294 ∧ totalMini E ≤ 4294967292 := by
  obtain ⟨h1, h2, h3⟩ := h
  rw [totalSecs] at h1
  exact ⟨h1, h2, h3⟩

theorem nonFatSecs_bound (E : List (List (List Nat) × List Nat))
    (h : capOK E) : nonFatSecs E ≤ 4294967292 := by
  have := (capBounds E h).1
  omega

theorem header_take8 (E : List (List (List Nat) × List Nat)) :
    (blobOf E).take 8 = cfMagic := rfl

theorem header_read8 (E : List (List (List Nat) × List Nat)) :
    readLE (blobOf E) 8 2 = 65534 := by
  have hd : (blobOf E).drop 8 =
      (le16 65534 ++ (le16 9 ++ (le32 4096 ++ (le32 (numFat E) ++
        (le32 (dirBase E) ++ (le32 (miniFatStartVal E) ++
        (le32 (nMiniFat E) ++ (le32 (difatStartVal E) ++
        (le32 (numDifat E) ++ (List.replicate 36 0 ++
        ((difatList E).map le32).flatten)))))))))) ++ (sectorsOf E).flatten := rfl
  rw [readLE_drop0, hd, List.append_assoc, readLE_le16 _ _ (by omega)]

theorem header_read10 (E : List (List (List Nat) × List Nat)) :
    readLE (blobOf E) 10 2 = 9 := by
  have hd : (blobOf E).drop 10 =
      (le16 9 ++ (le32 4096 ++ (le32 (numFat E) ++
        (le32 (dirBase E) ++ (le32 (miniFatStartVal E) ++
        (le32 (nMiniFat E) ++ (le32 (difatStartVal E) ++
        (le32 (numDifat E) ++ (List.replicate 36 0 ++
        ((difatList E).map le32).flatten))))))))) ++ (sectorsOf E).flatten := rfl
  rw [readLE_drop0, hd, List.append_assoc, readLE_le16 _ _ (by omega)]

theorem header_read12 (E : List (List (List Nat) × List Nat)) :
    readLE (blobOf E) 12 4 = 4096 := by
  have hd : (blobOf E).drop 12 =
      (le32 4096 ++ (le32 (numFat E) ++
        (le32 (dirBase E) ++ (le32 (miniFatStartVal E) ++
        (le32 (nMiniFat E) ++ (le32 (difatStartVal E) ++
        (le32 (numDifat E) ++ (List.replicate 36 0 ++
        ((difatList E).map le32).flatten)))))))) ++ (sectorsOf E).flatten := rfl
  rw [readLE_drop0, hd, List.append_assoc, readLE_le32 _ _ (by omega)]

theorem header_read16 (E : List (List (List Nat) × List Nat))
    (h : capOK E) : readLE (blobOf E) 16 4 = numFat E := by
  have hd : (blobOf E).drop 16 =
      (le32 (numFat E) ++
        (le32 (dirBase E) ++ (le32 (miniFatStartVal E) ++
        (le32 (nMiniFat E) ++ (le32 (difatStartVal E) ++
        (le32 (numDifat E) ++ (List.replicate 36 0 ++
        ((difatList E).map le32).flatten))))))) ++ (sectorsOf E).flatten := rfl
  have h2 := (capBounds E h).1
  rw [readLE_drop0, hd, List.append_assoc, readLE_le32 _ _ (by omega)]

theorem header_read20 (E : List (List (List Nat) × List Nat))
    (h : capOK E) : readLE (blobOf E) 20 4 = dirBase E := by
  have hd : (blobOf E).drop 20 =
      (le32 (dirBase E) ++ (le32 (miniFatStartVal E) ++
        (le32 (nMiniFat E) ++ (le32 (difatStartVal E) ++
        (le32 (numDifat E) ++ (List.replicate 36 0 ++
        ((difatList E).map le32).flatten)))))) ++ (sectorsOf E).flatten := rfl
  have h1 := dirBase_le E
  have h2 := nonFatSecs_bound E h
  rw [readLE_drop0, hd, List.append_assoc, readLE_le32 _ _ (by omega)]

theorem header_read24 (E : List (List (List Nat) × List Nat))
    (h : capOK E) : readLE (blobOf E) 24 4 = miniFatStartVal E := by
  have hd : (blobOf E).drop 24 =
      (le32 (miniFatStartVal E) ++
        (le32 (nMiniFat E) ++ (le32 (difatStartVal E) ++
        (le32 (numDifat E) ++ (List.replicate 36 0 ++
        ((difatList E).map le32).flatten))))) ++ (sectorsOf E).flatten := rfl
  have h1 := miniFatBase_le E
  have h2 := nonFatSecs_bound E h
  have h3 : miniFatStartVal E < 4294967296 := by
    rw [miniFatStartVal]
    split_ifs
    · decide
    · omega
  rw [readLE_drop0, hd, List.append_assoc, readLE_le32 _ _ h3]

theorem header_read28 (E : List (List (List Nat) × List Nat))
    (h : capOK E) : readLE (blobOf E) 28 4 = nMiniFat E := by
  have hd : (blobOf E).drop 28 =
      (le32 (nMiniFat E) ++ (le32 (difatStartVal E) ++
        (le32 (numDifat E) ++ (List.replicate 36 0 ++
        ((difatList E).map le32).flatten)))) ++ (sectorsOf E).flatten := rfl
  have h1 := nMiniFat_le E
  have h2 := nonFatSecs_bound E h
  rw [readLE_drop0, hd, List.append_assoc, readLE_le32 _ _ (by omega)]

theorem header_read32 (E : List (List (List Nat) × List Nat))
    (h : capOK E) : readLE (blobOf E) 32 4 = difatStartVal E := by
  have hd : (blobOf E).drop 32 =
      (le32 (difatStartVal E) ++
        (le32 (numDifat E) ++ (List.replicate 36 0 ++
        ((difatList E).map le32).flatten))) ++ (sectorsOf E).flatten := rfl
  have h2 := (capBounds E h).1
  have h3 : difatStartVal E < 4294967296 := by
    rw [difatStartVal]
    split_ifs
    · decide
    · rw [difatBase]
      omega
  rw [readLE_drop0, hd, List.append_assoc, readLE_le32 _ _ h3]

theorem header_read36 (E : List (List (List Nat) × List Nat))
    (h : capOK E) : readLE (blobOf E) 36 4 = numDifat E := by
  have hd : (blobOf E).drop 36 =
      (le32 (numDifat E) ++ (List.replicate 36 0 ++
        ((difatList E).map le32).flatten)) ++ (sectorsOf E).flatten := rfl
  have h2 := (capBounds E h).1
  rw [readLE_drop0, hd, List.append_assoc, readLE_le32 _ _ (by omega)]

theorem difatList_lt (E : List (List (List Nat) × List Nat))
    (h : capOK E) : ∀ x ∈ difatList E, x < 4294967296 := by
  intro x hx
  rw [difatList, padTo] at hx
  rcases List.mem_append.mp hx with h1 | h1
  · obtain ⟨i, hi, rfl⟩ := List.mem_map.mp h1
    have h2 := (capBounds E h).1
    have h3 : i < min (numFat E) 109 := List.mem_range.mp hi
    show nonFatSecs E + i < 4294967296
    omega
  · have := List.eq_of_mem_replicate h1
    omega

theorem header_difat (E : List (List (List Nat) × List Nat))
    (h : capOK E) :
    (List.range 109).map (fun i => readLE (blobOf E) (76 + 4 * i) 4) =
      difatList E := by
  have hlen := difatList_length E
  have hu : ∀ b ∈ (difatList E).map le32, b.length = 4 := fun b hb => by
    obtain ⟨x, _, he⟩ := List.mem_map.mp hb
    rw [← he, le32, length_leBytes]
  have hflen : (((difatList E).map le32).flatten).length = 436 := by
    rw [List.length_flatten, List.map_map]
    have he : ((difatList E).map (List.length ∘ le32)) =
        (difatList E).map (fun _ => 4) :=
      List.map_congr_left (fun x _ => by simp [le32, length_leBytes])
    rw [he, List.map_const', hlen]
    simp [List.sum_replicate, smul_eq_mul]
  rw [show (109 : Nat) = (difatList E).length from hlen.symm]
  apply map_range_eq
  intro i hi
  have hi9 : i < 109 := by rw [hlen] at hi; exact hi
  have hd : (blobOf E).drop 76 =
      ((difatList E).map le32).flatten ++ (sectorsOf E).flatten := rfl
  rw [readLE_shift, hd, readLE]
  rw [List.drop_append_of_le_length (by omega)]
  rw [List.take_append_of_le_length (by simp only [List.length_drop]; omega)]
  have hsl := flatten_slice_uniform (by omega : (0:Nat) < 4)
    ((difatList E).map le32) i hu (by simpa using hi)
  rw [hsl, List.getElem_map, le32]
  have hp : (256 : Nat) ^ 4 = 4294967296 := by norm_num
  rw [leVal_leBytes 4 _ (by
    have hb := difatList_lt E h ((difatList E)[i]) (List.getElem_mem hi)
    omega)]
  simp [List.get_eq_getElem]

theorem parseHeader_blobOf (E : List (List (List Nat) × List Nat))
    (h : capOK E) :
    parseHeader (blobOf E) = .ok
      { hNumFat := numFat E
        hDirStart := dirBase E
        hMiniFatStart := miniFatStartVal E
        hNumMiniFat := nMiniFat E
        hDifatStart := difatStartVal E
        hNumDifat := numDifat E
        hDifat := difatList E } := by
  rw [parseHeader, header_take8, header_read8 E, header_read10 E,
    header_read12 E]
  rw [if_neg (by simp), if_neg (by simp), if_neg (by omega), if_neg (by simp),
    if_neg (by simp)]
  rw [header_read16 E h, header_read20 E h, header_read24 E h,
    header_read28 E h, header_read32 E h, header_read36 E h, header_difat E h]

theorem fatEntry_roundtrip (e : FatEntry)
    (h : ∀ n, e = .next n → n < 4294967292) :
    fatEntryOfVal (fatEntryVal e) = e := by
  cases e with
  | next n =>
    have hn := h n rfl
    show fatEntryOfVal n = FatEntry.next n
    rw [fatEntryOfVal, if_neg (by omega), if_neg (by omega), if_neg (by omega)]
  | free => rfl
  | endOfChain => rfl
  | fatSect => rfl

theorem parse_serFat :
    ∀ (l : List FatEntry), (∀ e ∈ l, fatEntryVal e < 4294967296) →
      (∀ e ∈ l, fatEntryOfVal (fatEntryVal e) = e) →
      (chunkExact 4 (serFat l)).map (fun c => fatEntryOfVal (leVal c)) = l := by
  intro l
  induction l with
  | nil => intro _ _; rfl
  | cons e rest ih =>
    intro hb hr
    rw [serFat, List.map_cons, List.flatten_cons]
    rw [chunkExact_append_of_length (by omega) (by rw [le32, length_leBytes])]
    rw [List.map_cons]
    congr 1
    · rw [le32, leVal_leBytes _ _ (by
        have hb1 := hb e (List.mem_cons_self _ _)
        have hp : (256 : Nat) ^ 4 = 4294967296 := by norm_num
        omega)]
      exact hr e (List.mem_cons_self _ _)
    · rw [← serFat]
      exact ih (fun x hx => hb x (List.mem_cons_of_mem _ hx))
        (fun x hx => hr x (List.mem_cons_of_mem _ hx))

theorem sum_take_getElem_le (l : List Nat) :
    ∀ (j : Nat) (hj : j < l.length), (l.take j).sum + l[j] ≤ l.sum := by
  induction l with
  | nil => intro j hj; simp at hj
  | cons a rest ih =>
    intro j hj
    cases j with
    | zero => simp
    | succ j =>
      simp only [List.take_succ_cons, List.sum_cons, List.getElem_cons_succ]
      have := ih j (by simpa using hj)
      omega

theorem foldPath_length (q : List (List Nat)) : (foldPath q).length = q.length := by
  rw [foldPath, List.length_map]

theorem bytesOfNode_congr {E : List (List (List Nat) × List Nat)}
    {q r : List (List Nat)} (h : foldPath q = foldPath r) :
    bytesOfNode E q = bytesOfNode E r := by
  rw [bytesOfNode, bytesOfNode, h]

theorem secCount_congr {E : List (List (List Nat) × List Nat)}
    {q r : List (List Nat)} (h : foldPath q = foldPath r) :
    secCount E q = secCount E r := by
  rw [secCount, secCount, bytesOfNode_congr h]

theorem miniCount_congr {E : List (List (List Nat) × List Nat)}
    {q r : List (List Nat)} (h : foldPath q = foldPath r) :
    miniCount E q = miniCount E r := by
  rw [miniCount, miniCount, bytesOfNode_congr h]

theorem isStreamNode_congr {E : List (List (List Nat) × List Nat)}
    {q r : List (List Nat)} (h : foldPath q = foldPath r) :
    isStreamNode E q = isStreamNode E r := by
  rw [isStreamNode, isStreamNode, h]

theorem childrenOf_congr {E : List (List (List Nat) × List Nat)}
    {q r : List (List Nat)} (h : foldPath q = foldPath r) :
    childrenOf E q = childrenOf E r := by
  have hlen : q.length = r.length := by
    rw [← foldPath_length q, ← foldPath_length r, h]
  rw [childrenOf, childrenOf, h, hlen]

theorem bigStart_add_le (E : List (List (List Nat) × List Nat))
    {q : List (List Nat)} (hq : q ∈ bigNodes E) :
    bigStartOf E q + secCount E q ≤ nBig E := by
  have hex : ∃ r, r ∈ bigNodes E ∧ (foldPath r == foldPath q) = true :=
    ⟨q, hq, by simp⟩
  have hlt := List.findIdx_lt_length_of_exists hex
  have hmatch : (foldPath ((bigNodes E)[(bigNodes E).findIdx
      (fun r => foldPath r == foldPath q)]) == foldPath q) = true :=
    @List.findIdx_getElem _ (fun r => foldPath r == foldPath q) (bigNodes E) hlt
  have hfp : foldPath ((bigNodes E)[(bigNodes E).findIdx
      (fun r => foldPath r == foldPath q)]) = foldPath q := by
    simpa using hmatch
  have hsum := sum_take_getElem_le ((bigNodes E).map (secCount E))
    ((bigNodes E).findIdx (fun r => foldPath r == foldPath q)) (by simpa using hlt)
  rw [List.getElem_map, secCount_congr hfp] at hsum
  rw [bigStartOf, nBig, List.map_take]
  exact hsum

theorem miniStart_add_le (E : List (List (List Nat) × List Nat))
    {q : List (List Nat)} (hq : q ∈ miniNodes E) :
    miniStartOf E q + miniCount E q ≤ totalMini E := by
  have hex : ∃ r, r ∈ miniNodes E ∧ (foldPath r == foldPath q) = true :=
    ⟨q, hq, by simp⟩
  have hlt := List.findIdx_lt_length_of_exists hex
  have hmatch : (foldPath ((miniNodes E)[(miniNodes E).findIdx
      (fun r => foldPath r == foldPath q)]) == foldPath q) = true :=
    @List.findIdx_getElem _ (fun r => foldPath r == foldPath q) (miniNodes E) hlt
  have hfp : foldPath ((miniNodes E)[(miniNodes E).findIdx
      (fun r => foldPath r == foldPath q)]) = foldPath q := by
    simpa using hmatch
  have hsum := sum_take_getElem_le ((miniNodes E).map (miniCount E))
    ((miniNodes E).findIdx (fun r => foldPath r == foldPath q)) (by simpa using hlt)
  rw [List.getElem_map, miniCount_congr hfp] at hsum
  rw [miniStartOf, totalMini, List.map_take]
  exact hsum

theorem bigStartOf_congr {E : List (List (List Nat) × List Nat)}
    {q r : List (List Nat)} (h : foldPath q = foldPath r) :
    bigStartOf E q = bigStartOf E r := by
  rw [bigStartOf, bigStartOf, h]

theorem miniStartOf_congr {E : List (List (List Nat) × List Nat)}
    {q r : List (List Nat)} (h : foldPath q = foldPath r) :
    miniStartOf E q = miniStartOf E r := by
  rw [miniStartOf, miniStartOf, h]

theorem chainEntries_getElem (b k j : Nat) (hj : j < k) :
    (chainEntries b k)[j]? =
      some (if j + 1 = k then FatEntry.endOfChain else FatEntry.next (b + j + 1)) := by
  rw [chainEntries, List.getElem?_map, List.getElem?_range hj]
  rfl

theorem chain_region (fat : List FatEntry) (base k : Nat) (hk : 1 ≤ k)
    (hfat : k ≤ fat.length)
    (hmid : ∀ j, j + 1 < k → fat[base + j]? = some (.next (base + j + 1)))
    (hlast : fat[base + (k - 1)]? = some .endOfChain) :
    chain fat base = .ok (List.range' base k) := by
  rw [chain]
  exact chainAux_range' k hk base fat.length hfat hmid hlast

theorem chain_from_entries (fat : List FatEntry) (base k : Nat) (hk : 1 ≤ k)
    (hfat : k ≤ fat.length)
    (hget : ∀ j, j < k → fat[base + j]? = (chainEntries base k)[j]?) :
    chain fat base = .ok (List.range' base k) := by
  apply chain_region fat base k hk hfat
  · intro j hj
    rw [hget j (by omega), chainEntries_getElem _ _ _ (by omega), if_neg (by omega)]
  · rw [hget (k - 1) (by omega), chainEntries_getElem _ _ _ (by omega),
      if_pos (by omega)]

theorem fatVals_getElem_lt (E : List (List (List Nat) × List Nat)) {idx : Nat}
    (h : idx < nonFatSecs E + numFat E + numDifat E) :
    (fatVals E)[idx]? =
      ((((bigNodes E).map
          (fun q => chainEntries (bigStartOf E q) (secCount E q))).flatten ++
        chainEntries (miniStreamBase E) (nMiniSec E) ++
        chainEntries (miniFatBase E) (nMiniFat E) ++
        chainEntries (dirBase E) (nDir E) ++
        List.replicate (numFat E + numDifat E) FatEntry.fatSect))[idx]? := by
  rw [fatVals, padTo, List.getElem?_append, if_pos (by
    simp only [List.length_append, List.length_replicate, chainEntries_length]
    rw [bigChains_length]
    rw [nonFatSecs] at h
    omega)]

theorem fatVals_getElem_bigflat (E : List (List (List Nat) × List Nat))
    {idx : Nat} (h : idx < nBig E) :
    (fatVals E)[idx]? =
      (((bigNodes E).map
        (fun q => chainEntries (bigStartOf E q) (secCount E q))).flatten)[idx]? := by
  rw [fatVals_getElem_lt E (by rw [nonFatSecs]; omega)]
  rw [List.getElem?_append, if_pos (by
    simp only [List.length_append, chainEntries_length]
    rw [bigChains_length]
    omega)]
  rw [List.getElem?_append, if_pos (by
    simp only [List.length_append, chainEntries_length]
    rw [bigChains_length]
    omega)]
  rw [List.getElem?_append, if_pos (by
    simp only [List.length_append, chainEntries_length]
    rw [bigChains_length]
    omega)]
  rw [List.getElem?_append, if_pos (by
    rw [bigChains_length]
    omega)]

theorem fatVals_getElem_ms (E : List (List (List Nat) × List Nat)) {j : Nat}
    (hj : j < nMiniSec E) :
    (fatVals E)[miniStreamBase E + j]? =
      (chainEntries (miniStreamBase E) (nMiniSec E))[j]? := by
  have hms : miniStreamBase E = nBig E := by rw [miniStreamBase]
  rw [fatVals_getElem_lt E (by rw [nonFatSecs]; omega)]
  rw [List.getElem?_append, if_pos (by
    simp only [List.length_append, chainEntries_length]
    rw [bigChains_length]
    omega)]
  rw [List.getElem?_append, if_pos (by
    simp only [List.length_append, chainEntries_length]
    rw [bigChains_length]
    omega)]
  rw [List.getElem?_append, if_pos (by
    simp only [List.length_append, chainEntries_length]
    rw [bigChains_length]
    omega)]
  rw [List.getElem?_append_right (by rw [bigChains_length]; omega)]
  have he : miniStreamBase E + j -
      (((bigNodes E).map
        (fun q => chainEntries (bigStartOf E q) (secCount E q))).flatten).length = j := by
    rw [bigChains_length]
    omega
  rw [he]

theorem fatVals_getElem_mf (E : List (List (List Nat) × List Nat)) {j : Nat}
    (hj : j < nMiniFat E) :
    (fatVals E)[miniFatBase E + j]? =
      (chainEntries (miniFatBase E) (nMiniFat E))[j]? := by
  have hmb : miniFatBase E = nBig E + nMiniSec E := by
    rw [miniFatBase]
  rw [fatVals_getElem_lt E (by rw [nonFatSecs]; omega)]
  rw [List.getElem?_append, if_pos (by
    simp only [List.length_append, chainEntries_length]
    rw [bigChains_length]
    omega)]
  rw [List.getElem?_append, if_pos (by
    simp only [List.length_append, chainEntries_length]
    rw [bigChains_length]
    omega)]
  rw [List.getElem?_append_right (by
    simp only [List.length_append, chainEntries_length]
    rw [bigChains_length]
    omega)]
  have he : miniFatBase E + j -
      ((((bigNodes E).map
        (fun q => chainEntries (bigStartOf E q) (secCount E q))).flatten ++
        chainEntries (miniStreamBase E) (nMiniSec E)).length) = j := by
    simp only [List.length_append, chainEntries_length]
    rw [bigChains_length]
    omega
  rw [he]

theorem fatVals_getElem_dir (E : List (List (List Nat) × List Nat)) {j : Nat}
    (hj : j < nDir E) :
    (fatVals E)[dirBase E + j]? =
      (chainEntries (dirBase E) (nDir E))[j]? := by
  have hdb : dirBase E = nBig E + nMiniSec E + nMiniFat E := by
    rw [dirBase, miniFatBase]
  rw [fatVals_getElem_lt E (by rw [nonFatSecs]; omega)]
  rw [List.getElem?_append, if_pos (by
    simp only [List.length_append, chainEntries_length]
    rw [bigChains_length]
    omega)]
  rw [List.getElem?_append_right (by
    simp only [List.length_append, chainEntries_length]
    rw [bigChains_length]
    omega)]
  have he : dirBase E + j -
      ((((bigNodes E).map
        (fun q => chainEntries (bigStartOf E q) (secCount E q))).flatten ++
        chainEntries (miniStreamBase E) (nMiniSec E) ++
        chainEntries (miniFatBase E) (nMiniFat E)).length) = j := by
    simp only [List.length_append, chainEntries_length]
    rw [bigChains_length]
    omega
  rw [he]

theorem fatVals_getElem_fatsect (E : List (List (List Nat) × List Nat)) {j : Nat}
    (hj : j < numFat E + numDifat E) :
    (fatVals E)[nonFatSecs E + j]? = some FatEntry.fatSect := by
  have hnf : nonFatSecs E = nBig E + nMiniSec E + nMiniFat E + nDir E := by
    rw [nonFatSecs]
  rw [fatVals_getElem_lt E (by omega)]
  rw [List.getElem?_append_right (by
    simp only [List.length_append, chainEntries_length]
    rw [bigChains_length]
    omega)]
  have he : nonFatSecs E + j -
      ((((bigNodes E).map
        (fun q => chainEntries (bigStartOf E q) (secCount E q))).flatten ++
        chainEntries (miniStreamBase E) (nMiniSec E) ++
        chainEntries (miniFatBase E) (nMiniFat E) ++
        chainEntries (dirBase E) (nDir E)).length) = j := by
    simp only [List.length_append, chainEntries_length]
    rw [bigChains_length]
    omega
  rw [he, List.getElem?_replicate, if_pos hj]

theorem fatVals_getElem_big (E : List (List (List Nat) × List Nat))
    {q : List (List Nat)} (hq : q ∈ bigNodes E) {j : Nat}
    (hj : j < secCount E q) :
    (fatVals E)[bigStartOf E q + j]? =
      (chainEntries (bigStartOf E q) (secCount E q))[j]? := by
  have hle := bigStart_add_le E hq
  rw [fatVals_getElem_bigflat E (by omega)]
  have hex : ∃ r, r ∈ bigNodes E ∧ (foldPath r == foldPath q) = true :=
    ⟨q, hq, by simp⟩
  have hlt := List.findIdx_lt_length_of_exists hex
  have hmatch := @List.findIdx_getElem _ (fun r => foldPath r == foldPath q)
    (bigNodes E) hlt
  have hfp : foldPath ((bigNodes E)[(bigNodes E).findIdx
      (fun r => foldPath r == foldPath q)]) = foldPath q := by
    simpa using hmatch
  have hlt2 : (bigNodes E).findIdx (fun r => foldPath r == foldPath q) <
      ((bigNodes E).map
        (fun r => chainEntries (bigStartOf E r) (secCount E r))).length := by
    simpa using hlt
  have hoff : j < (((bigNodes E).map
      (fun r => chainEntries (bigStartOf E r) (secCount E r)))[(bigNodes E).findIdx
        (fun r => foldPath r == foldPath q)]).length := by
    rw [List.getElem_map, chainEntries_length, secCount_congr hfp]
    exact hj
  have hblk := flatten_getElem_block
    ((bigNodes E).map (fun r => chainEntries (bigStartOf E r) (secCount E r)))
    ((bigNodes E).findIdx (fun r => foldPath r == foldPath q)) j hlt2 hoff
  have hsum : ((((bigNodes E).map
      (fun r => chainEntries (bigStartOf E r) (secCount E r))).take
        ((bigNodes E).findIdx (fun r => foldPath r == foldPath q))).map
      List.length).sum = bigStartOf E q := by
    rw [← List.map_take, List.map_map, bigStartOf]
    congr 1
    apply List.map_congr_left
    intro r _
    simp [Function.comp, chainEntries_length]
  rw [hsum] at hblk
  rw [hblk, List.getElem_map, bigStartOf_congr hfp, secCount_congr hfp]

theorem chain_fatVals_big (E : List (List (List Nat) × List Nat))
    {q : List (List Nat)} (hq : q ∈ bigNodes E)
    (hk : 1 ≤ secCount E q) :
    chain (fatVals E) (bigStartOf E q) =
      .ok (List.range' (bigStartOf E q) (secCount E q)) := by
  apply chain_from_entries
  · exact hk
  · rw [fatVals_length]
    have h1 := bigStart_add_le E hq
    have h2 := nonFatSecs_le E
    have h3 : nBig E ≤ nonFatSecs E := by rw [nonFatSecs]; omega
    omega
  · intro j hj
    exact fatVals_getElem_big E hq hj

theorem chain_fatVals_ms (E : List (List (List Nat) × List Nat))
    (hk : 1 ≤ nMiniSec E) :
    chain (fatVals E) (miniStreamBase E) =
      .ok (List.range' (miniStreamBase E) (nMiniSec E)) := by
  apply chain_from_entries
  · exact hk
  · rw [fatVals_length]
    have h2 := nonFatSecs_le E
    have h3 : nMiniSec E ≤ nonFatSecs E := by rw [nonFatSecs]; omega
    omega
  · intro j hj
    exact fatVals_getElem_ms E hj

theorem chain_fatVals_mf (E : List (List (List Nat) × List Nat))
    (hk : 1 ≤ nMiniFat E) :
    chain (fatVals E) (miniFatBase E) =
      .ok (List.range' (miniFatBase E) (nMiniFat E)) := by
  apply chain_from_entries
  · exact hk
  · rw [fatVals_length]
    have h2 := nonFatSecs_le E
    have h3 : nMiniFat E ≤ nonFatSecs E := by rw [nonFatSecs]; omega
    omega
  · intro j hj
    exact fatVals_getElem_mf E hj

theorem chain_fatVals_dir (E : List (List (List Nat) × List Nat))
    (hk : 1 ≤ nDir E) :
    chain (fatVals E) (dirBase E) =
      .ok (List.range' (dirBase E) (nDir E)) := by
  apply chain_from_entries
  · exact hk
  · rw [fatVals_length]
    have h2 := nonFatSecs_le E
    have h3 : nDir E ≤ nonFatSecs E := by rw [nonFatSecs]; omega
    omega
  · intro j hj
    exact fatVals_getElem_dir E hj

theorem chainEntries_mem {b k : Nat} {e : FatEntry} (he : e ∈ chainEntries b k) :
    e = .endOfChain ∨ ∃ j, j + 1 < k ∧ e = .next (b + j + 1) := by
  rw [chainEntries] at he
  obtain ⟨j, hj, rfl⟩ := List.mem_map.mp he
  have hjk : j < k := List.mem_range.mp hj
  by_cases h : j + 1 = k
  · left
    simp [h]
  · right
    exact ⟨j, by omega, by simp [h]⟩

theorem fatVals_mem_bound (E : List (List (List Nat) × List Nat))
    (h : capOK E) :
    ∀ e ∈ fatVals E, ∀ n, e = .next n → n < 4294967292 := by
  have hb := nonFatSecs_bound E h
  have hnf : nonFatSecs E = nBig E + nMiniSec E + nMiniFat E + nDir E := by
    rw [nonFatSecs]
  have hmb : miniFatBase E = nBig E + nMiniSec E := by rw [miniFatBase]
  have hms : miniStreamBase E = nBig E := by rw [miniStreamBase]
  have hdb : dirBase E = nBig E + nMiniSec E + nMiniFat E := by
    rw [dirBase, miniFatBase]
  intro e he n hen
  subst hen
  rw [fatVals, padTo] at he
  simp only [List.mem_append] at he
  rcases he with ((((h1 | h1) | h1) | h1) | h1) | h1
  · obtain ⟨blk, hblk, hmem⟩ := List.mem_flatten.mp h1
    obtain ⟨q, hqmem, heq⟩ := List.mem_map.mp hblk
    rw [← heq] at hmem
    have hble := bigStart_add_le E hqmem
    rcases chainEntries_mem hmem with h2 | ⟨j, hj, h2⟩
    · cases h2
    · cases h2
      omega
  · rcases chainEntries_mem h1 with h2 | ⟨j, hj, h2⟩
    · cases h2
    · cases h2
      omega
  · rcases chainEntries_mem h1 with h2 | ⟨j, hj, h2⟩
    · cases h2
    · cases h2
      omega
  · rcases chainEntries_mem h1 with h2 | ⟨j, hj, h2⟩
    · cases h2
    · cases h2
      omega
  · have := List.eq_of_mem_replicate h1
    cases this
  · have := List.eq_of_mem_replicate h1
    cases this

theorem miniFatVals_mem_bound (E : List (List (List Nat) × List Nat))
    (h : capOK E) :
    ∀ e ∈ miniFatVals E, ∀ n, e = .next n → n < 4294967292 := by
  have hb := (capBounds E h).2.2
  intro e he n hen
  subst hen
  rw [miniFatVals, padTo] at he
  simp only [List.mem_append] at he
  rcases he with h1 | h1
  · obtain ⟨blk, hblk, hmem⟩ := List.mem_flatten.mp h1
    obtain ⟨q, hqmem, heq⟩ := List.mem_map.mp hblk
    rw [← heq] at hmem
    have hble := miniStart_add_le E hqmem
    rcases chainEntries_mem hmem with h2 | ⟨j, hj, h2⟩
    · cases h2
    · cases h2
      omega
  · have := List.eq_of_mem_replicate h1
    cases this

theorem fatVals_parse (E : List (List (List Nat) × List Nat))
    (h : capOK E) :
    (chunkExact 4 (serFat (fatVals E))).map (fun c => fatEntryOfVal (leVal c)) =
      fatVals E := by
  apply parse_serFat
  · intro e he
    cases e with
    | next n =>
      have := fatVals_mem_bound E h _ he n rfl
      show n < 4294967296
      omega
    | free => norm_num [fatEntryVal]
    | endOfChain => norm_num [fatEntryVal]
    | fatSect => norm_num [fatEntryVal]
  · intro e he
    exact fatEntry_roundtrip e (fatVals_mem_bound E h e he)

theorem miniFatVals_parse (E : List (List (List Nat) × List Nat))
    (h : capOK E) :
    (chunkExact 4 (serFat (miniFatVals E))).map
      (fun c => fatEntryOfVal (leVal c)) = miniFatVals E := by
  apply parse_serFat
  · intro e he
    cases e with
    | next n =>
      have := miniFatVals_mem_bound E h _ he n rfl
      show n < 4294967296
      omega
    | free => norm_num [fatEntryVal]
    | endOfChain => norm_num [fatEntryVal]
    | fatSect => norm_num [fatEntryVal]
  · intro e he
    exact fatEntry_roundtrip e (miniFatVals_mem_bound E h e he)

theorem sectorsOf_getElem_fat (E : List (List (List Nat) × List Nat)) {i : Nat}
    (hi : i < numFat E) :
    (sectorsOf E)[nBig E + nMiniSec E + nMiniFat E + nDir E + i]? =
      (chunkExact 512 (serFat (fatVals E)))[i]? := by
  have hB : (chunkPad 512 0 (miniBytes E)).length = nMiniSec E := by
    rw [chunkPad_length (by omega), nMiniSec]
  have hD : (chunkPad 512 0 (dirBytes E)).length = nDir E := by
    rw [chunkPad_length (by omega), nDir]
  rw [sectorsOf]
  rw [List.getElem?_append, if_pos (by
    simp only [List.length_append]
    rw [bigSecs_length, hB, hD, miniFatChunks_length, fatChunks_length]
    omega)]
  rw [List.getElem?_append_right (by
    simp only [List.length_append]
    rw [bigSecs_length, hB, hD, miniFatChunks_length]
    omega)]
  have he : nBig E + nMiniSec E + nMiniFat E + nDir E + i -
      ((((bigNodes E).map (fun q => chunkPad 512 0 (bytesOfNode E q))).flatten ++
        chunkPad 512 0 (miniBytes E) ++
        chunkExact 512 (serFat (miniFatVals E)) ++
        chunkPad 512 0 (dirBytes E)).length) = i := by
    simp only [List.length_append]
    rw [bigSecs_length, hB, hD, miniFatChunks_length]
    omega
  rw [he]

theorem sectorsOf_getElem_dir (E : List (List (List Nat) × List Nat)) {j : Nat}
    (hj : j < nDir E) :
    (sectorsOf E)[dirBase E + j]? = (chunkPad 512 0 (dirBytes E))[j]? := by
  have hB : (chunkPad 512 0 (miniBytes E)).length = nMiniSec E := by
    rw [chunkPad_length (by omega), nMiniSec]
  have hD : (chunkPad 512 0 (dirBytes E)).length = nDir E := by
    rw [chunkPad_length (by omega), nDir]
  have hdb : dirBase E = nBig E + nMiniSec E + nMiniFat E := by
    rw [dirBase, miniFatBase]
  rw [sectorsOf]
  rw [List.getElem?_append, if_pos (by
    simp only [List.length_append]
    rw [bigSecs_length, hB, hD, miniFatChunks_length, fatChunks_length]
    omega)]
  rw [List.getElem?_append, if_pos (by
    simp only [List.length_append]
    rw [bigSecs_length, hB, hD, miniFatChunks_length]
    omega)]
  rw [List.getElem?_append_right (by
    simp only [List.length_append]
    rw [bigSecs_length, hB, miniFatChunks_length]
    omega)]
  have he : dirBase E + j -
      ((((bigNodes E).map (fun q => chunkPad 512 0 (bytesOfNode E q))).flatten ++
        chunkPad 512 0 (miniBytes E) ++
        chunkExact 512 (serFat (miniFatVals E))).length) = j := by
    simp only [List.length_append]
    rw [bigSecs_length, hB, miniFatChunks_length]
    omega
  rw [he]

theorem sectorsOf_getElem_mf (E : List (List (List Nat) × List Nat)) {j : Nat}
    (hj : j < nMiniFat E) :
    (sectorsOf E)[miniFatBase E + j]? =
      (chunkExact 512 (serFat (miniFatVals E)))[j]? := by
  have hB : (chunkPad 512 0 (miniBytes E)).length = nMiniSec E := by
    rw [chunkPad_length (by omega), nMiniSec]
  have hD : (chunkPad 512 0 (dirBytes E)).length = nDir E := by
    rw [chunkPad_length (by omega), nDir]
  have hmb : miniFatBase E = nBig E + nMiniSec E := by rw [miniFatBase]
  rw [sectorsOf]
  rw [List.getElem?_append, if_pos (by
    simp only [List.length_append]
    rw [bigSecs_length, hB, hD, miniFatChunks_length, fatChunks_length]
    omega)]
  rw [List.getElem?_append, if_pos (by
    simp only [List.length_append]
    rw [bigSecs_length, hB, hD, miniFatChunks_length]
    omega)]
  rw [List.getElem?_append, if_pos (by
    simp only [List.length_append]
    rw [bigSecs_length, hB, miniFatChunks_length]
    omega)]
  rw [List.getElem?_append_right (by
    simp only [List.length_append]
    rw [bigSecs_length, hB]
    omega)]
  have he : miniFatBase E + j -
      ((((bigNodes E).map (fun q => chunkPad 512 0 (bytesOfNode E q))).flatten ++
        chunkPad 512 0 (miniBytes E)).length) = j := by
    simp only [List.length_append]
    rw [bigSecs_length, hB]
    omega
  rw [he]

theorem sectorsOf_getElem_ms (E : List (List (List Nat) × List Nat)) {j : Nat}
    (hj : j < nMiniSec E) :
    (sectorsOf E)[miniStreamBase E + j]? =
      (chunkPad 512 0 (miniBytes E))[j]? := by
  have hB : (chunkPad 512 0 (miniBytes E)).length = nMiniSec E := by
    rw [chunkPad_length (by omega), nMiniSec]
  have hD : (chunkPad 512 0 (dirBytes E)).length = nDir E := by
    rw [chunkPad_length (by omega), nDir]
  have hms : miniStreamBase E = nBig E := by rw [miniStreamBase]
  rw [sectorsOf]
  rw [List.getElem?_append, if_pos (by
    simp only [List.length_append]
    rw [bigSecs_length, hB, hD, miniFatChunks_length, fatChunks_length]
    omega)]
  rw [List.getElem?_append, if_pos (by
    simp only [List.length_append]
    rw [bigSecs_length, hB, hD, miniFatChunks_length]
    omega)]
  rw [List.getElem?_append, if_pos (by
    simp only [List.length_append]
    rw [bigSecs_length, hB, miniFatChunks_length]
    omega)]
  rw [List.getElem?_append, if_pos (by
    simp only [List.length_append]
    rw [bigSecs_length, hB]
    omega)]
  rw [List.getElem?_append_right (by rw [bigSecs_length]; omega)]
  have he : miniStreamBase E + j -
      ((((bigNodes E).map (fun q => chunkPad 512 0 (bytesOfNode E q))).flatten).length) =
      j := by
    rw [bigSecs_length]
    omega
  rw [he]

theorem sectorsOf_getElem_bigflat (E : List (List (List Nat) × List Nat))
    {idx : Nat} (h : idx < nBig E) :
    (sectorsOf E)[idx]? =
      (((bigNodes E).map (fun q => chunkPad 512 0 (bytesOfNode E q))).flatten)[idx]? := by
  have hB : (chunkPad 512 0 (miniBytes E)).length = nMiniSec E := by
    rw [chunkPad_length (by omega), nMiniSec]
  have hD : (chunkPad 512 0 (dirBytes E)).length = nDir E := by
    rw [chunkPad_length (by omega), nDir]
  rw [sectorsOf]
  rw [List.getElem?_append, if_pos (by
    simp only [List.length_append]
    rw [bigSecs_length, hB, hD, miniFatChunks_length, fatChunks_length]
    omega)]
  rw [List.getElem?_append, if_pos (by
    simp only [List.length_append]
    rw [bigSecs_length, hB, hD, miniFatChunks_length]
    omega)]
  rw [List.getElem?_append, if_pos (by
    simp only [List.length_append]
    rw [bigSecs_length, hB, miniFatChunks_length]
    omega)]
  rw [List.getElem?_append, if_pos (by
    simp only [List.length_append]
    rw [bigSecs_length, hB]
    omega)]
  rw [List.getElem?_append, if_pos (by rw [bigSecs_length]; omega)]

theorem sectorsOf_getElem_difat (E : List (List (List Nat) × List Nat))
    {j : Nat} (hj : j < numDifat E) :
    (sectorsOf E)[difatBase E + j]? = some (difatSecAt E j) := by
  have hB : (chunkPad 512 0 (miniBytes E)).length = nMiniSec E := by
    rw [chunkPad_length (by omega), nMiniSec]
  have hD : (chunkPad 512 0 (dirBytes E)).length = nDir E := by
    rw [chunkPad_length (by omega), nDir]
  have hdfb : difatBase E = nonFatSecs E + numFat E := by rw [difatBase]
  have hnf : nonFatSecs E = nBig E + nMiniSec E + nMiniFat E + nDir E := by
    rw [nonFatSecs]
  rw [sectorsOf]
  rw [List.getElem?_append_right (by
    simp only [List.length_append]
    rw [bigSecs_length, hB, hD, miniFatChunks_length, fatChunks_length]
    omega)]
  have he : difatBase E + j -
      ((((bigNodes E).map (fun q => chunkPad 512 0 (bytesOfNode E q))).flatten ++
        chunkPad 512 0 (miniBytes E) ++
        chunkExact 512 (serFat (miniFatVals E)) ++
        chunkPad 512 0 (dirBytes E) ++
        chunkExact 512 (serFat (fatVals E))).length) = j := by
    simp only [List.length_append]
    rw [bigSecs_length, hB, hD, miniFatChunks_length, fatChunks_length]
    omega
  rw [he, difatSecs, List.getElem?_map, List.getElem?_range hj]
  rfl

theorem range'_sectors (E : List (List (List Nat) × List Nat))
    (base k : Nat)
    (hbk : base + k ≤ (sectorsOf E).length)
    (l : List (List Nat)) (hl : l.length = k)
    (hpt : ∀ i, i < k → (sectorsOf E)[base + i]? = l[i]?) :
    (List.range' base k).map (sectorAt (blobOf E)) = l := by
  apply range'_map_eq _ k base l hl
  intro i hi
  have hblt : base + i < (sectorsOf E).length := by omega
  rw [sectorAt_blobOf E hblt]
  have hthis := hpt i hi
  rw [List.getElem?_eq_getElem hblt] at hthis
  rw [← hthis]
  rfl

theorem readLE_skip2 {a : List Nat} (B : List Nat) {off : Nat} (w k : Nat)
    (h : a.length ≤ off) (hk : off - a.length = k) :
    readLE (a ++ B) off w = readLE B k w := by
  rw [readLE_skip B w h, hk]

theorem readLE_le32_flatten (vs : List Nat) (i : Nat) (hi : i < vs.length)
    (hall : ∀ x ∈ vs, x < 4294967296) :
    readLE ((vs.map le32).flatten) (4 * i) 4 = vs[i] := by
  rw [readLE]
  have hu : ∀ b ∈ vs.map le32, b.length = 4 := fun b hb => by
    obtain ⟨x, _, he⟩ := List.mem_map.mp hb
    rw [← he, le32, length_leBytes]
  have hsl := flatten_slice_uniform (by omega : (0:Nat) < 4) (vs.map le32) i
    hu (by simpa using hi)
  rw [hsl, List.getElem_map, le32, leVal_leBytes _ _ (by
    have hb := hall (vs[i]) (List.getElem_mem hi)
    have hp : (256 : Nat) ^ 4 = 4294967296 := by norm_num
    omega)]

theorem numDifat_bounds (E : List (List (List Nat) × List Nat)) :
    numFat E - 109 ≤ 127 * numDifat E ∧
    (0 < numDifat E → 127 * (numDifat E - 1) < numFat E - 109) := by
  rw [numDifat]
  split_ifs with h
  · exact ⟨by omega, by omega⟩
  · rw [ceilDiv]
    exact ⟨by omega, fun _ => by omega⟩

theorem difatTail_mem (E : List (List (List Nat) × List Nat)) :
    ∀ x ∈ difatTail E, x < nonFatSecs E + numFat E := by
  intro x hx
  rw [difatTail] at hx
  obtain ⟨t, ht, rfl⟩ := List.mem_map.mp hx
  have := List.mem_range.mp ht
  omega

theorem sectorAt_difat (E : List (List (List Nat) × List Nat)) {j : Nat}
    (hj : j < numDifat E) :
    sectorAt (blobOf E) (difatBase E + j) = difatSecAt E j := by
  have hblt : difatBase E + j < (sectorsOf E).length := by
    rw [sectorsOf_length, difatBase, nonFatSecs]
    omega
  rw [sectorAt_blobOf E hblt]
  have hix := sectorsOf_getElem_difat E hj
  rw [List.getElem?_eq_getElem hblt] at hix
  simpa using hix

theorem padTo_chunk_step {α} (w : Nat) (pad : α) (l : List α) (k : Nat)
    (hk : w ≤ l.length) :
    padTo w pad (l.take w) ++ padTo (w * k) pad (l.drop w) =
      padTo (w * (k + 1)) pad l := by
  have ht : (l.take w).length = w := by
    simp only [List.length_take]
    omega
  rw [padTo, padTo, padTo, ht, Nat.sub_self, List.replicate_zero,
    List.append_nil, ← List.append_assoc, List.take_append_drop]
  congr 2
  simp only [List.length_drop]
  have he : w * (k + 1) = w * k + w := by ring
  omega

theorem padTo_chunk_last {α} (w : Nat) (pad : α) (l : List α)
    (hl : l.length ≤ w) :
    padTo w pad (l.take w) ++ ([] : List α) = padTo (w * 1) pad l := by
  rw [List.append_nil, List.take_of_length_le hl, Nat.mul_one]

theorem difatWalk_blobOf (E : List (List (List Nat) × List Nat))
    (h : capOK E) :
    ∀ (d j : Nat), j + d = numDifat E →
      difatWalk (blobOf E) d (difatBase E + j) =
        padTo (127 * d) 4294967295 ((difatTail E).drop (127 * j)) := by
  have htl := difatTail_length E
  have hnb := numDifat_bounds E
  have hcb := (capBounds E h).1
  have hdb : difatBase E = nonFatSecs E + numFat E := rfl
  intro d
  induction d with
  | zero =>
    intro j hj
    have hnb1 := hnb.1
    rw [difatWalk]
    have hdrop : (difatTail E).drop (127 * j) = [] :=
      List.drop_eq_nil_of_le (by omega)
    rw [hdrop]
    simp [padTo]
  | succ d ih =>
    intro j hj
    have hjlt : j < numDifat E := by omega
    have hnb1 := hnb.1
    have hnb2 : 127 * (numDifat E - 1) < numFat E - 109 := hnb.2 (by omega)
    have hslice_le : ((((difatTail E).drop (127 * j)).take 127)).length ≤ 127 := by
      simp only [List.length_take]
      omega
    have hplen : (padTo 127 4294967295
        (((difatTail E).drop (127 * j)).take 127)).length = 127 :=
      padTo_length hslice_le
    have hallp : ∀ x ∈ padTo 127 4294967295
        (((difatTail E).drop (127 * j)).take 127), x < 4294967296 := by
      intro x hx
      rw [padTo] at hx
      rcases List.mem_append.mp hx with h2 | h2
      · have h3 := difatTail_mem E x
          (List.mem_of_mem_drop (List.mem_of_mem_take h2))
        omega
      · have := List.eq_of_mem_replicate h2
        omega
    rw [difatWalk, sectorAt_difat E hjlt]
    have hentries : (List.range 127).map
        (fun i => readLE (difatSecAt E j) (4 * i) 4) =
        padTo 127 4294967295 (((difatTail E).drop (127 * j)).take 127) := by
      conv_lhs =>
        rw [show (127:Nat) = (padTo 127 4294967295
          (((difatTail E).drop (127 * j)).take 127)).length from hplen.symm]
      apply map_range_eq
      intro i hi
      rw [difatSecAt]
      rw [readLE_here _ (by rw [flatten_le32_length, hplen]; omega)]
      rw [readLE_le32_flatten _ i hi hallp, List.get_eq_getElem]
    have hnextlt : (if j + 1 < numDifat E then difatBase E + j + 1
        else ENDOFCHAINV) < 4294967296 := by
      split_ifs with h4
      · rw [hdb]
        omega
      · decide
    have hnext : readLE (difatSecAt E j) 508 4 =
        (if j + 1 < numDifat E then difatBase E + j + 1 else ENDOFCHAINV) := by
      rw [difatSecAt]
      rw [readLE_skip2 _ 4 0 (by rw [flatten_le32_length, hplen])
        (by rw [flatten_le32_length, hplen])]
      rw [show le32 (if j + 1 < numDifat E then difatBase E + j + 1
          else ENDOFCHAINV) = le32 (if j + 1 < numDifat E then
          difatBase E + j + 1 else ENDOFCHAINV) ++ [] from
        (List.append_nil _).symm]
      rw [readLE_le32 _ _ hnextlt]
    rw [hentries, hnext]
    by_cases h4 : j + 1 < numDifat E
    · rw [if_pos h4]
      have hihj := ih (j + 1) (by omega)
      rw [← Nat.add_assoc] at hihj
      rw [hihj]
      have he2 : (difatTail E).drop (127 * (j + 1)) =
          ((difatTail E).drop (127 * j)).drop 127 := by
        rw [List.drop_drop]
        congr 1
      rw [he2]
      apply padTo_chunk_step
      simp only [List.length_drop]
      omega
    · rw [if_neg h4]
      have hd0 : d = 0 := by omega
      subst hd0
      rw [show difatWalk (blobOf E) 0 ENDOFCHAINV = [] from rfl]
      apply padTo_chunk_last
      simp only [List.length_drop]
      omega

theorem difat_indices (E : List (List (List Nat) × List Nat)) :
    (difatList E ++ padTo (127 * numDifat E) 4294967295 (difatTail E)).take
      (numFat E) =
      (List.range (numFat E)).map (fun i => nonFatSecs E + i) := by
  by_cases h : numFat E ≤ 109
  · have hmin : min (numFat E) 109 = numFat E := by omega
    have hlen : ((List.range (min (numFat E) 109)).map
        (fun i => nonFatSecs E + i)).length = numFat E := by simp [hmin]
    rw [List.take_append_of_le_length (by rw [difatList_length]; omega)]
    rw [difatList]
    have hpt := padTo_take 109 4294967295
      ((List.range (min (numFat E) 109)).map (fun i => nonFatSecs E + i))
    rw [hlen] at hpt
    rw [hpt, hmin]
  · push_neg at h
    have hnb := (numDifat_bounds E).1
    have hmin : min (numFat E) 109 = 109 := by omega
    have hdl : difatList E =
        (List.range 109).map (fun i => nonFatSecs E + i) := by
      rw [difatList, hmin, padTo]
      simp
    have htl := difatTail_length E
    have hpad : padTo (127 * numDifat E) 4294967295 (difatTail E) =
        difatTail E ++ List.replicate
          (127 * numDifat E - (numFat E - 109)) 4294967295 := by
      rw [padTo, htl]
    rw [hdl, hpad]
    rw [List.take_append_eq_append_take, List.take_append_eq_append_take]
    simp only [List.length_map, List.length_range, htl]
    rw [List.take_of_length_le (by simp; omega),
      List.take_of_length_le (by rw [htl]),
      Nat.sub_self, List.take_zero, List.append_nil]
    rw [show numFat E = 109 + (numFat E - 109) from by omega,
      List.range_add, List.map_append, List.map_map]
    congr 1
    rw [difatTail]
    apply List.map_congr_left
    intro t _
    simp only [Function.comp]
    omega

theorem readFat_blobOf (E : List (List (List Nat) × List Nat))
    (h : capOK E) :
    readFat (blobOf E)
      { hNumFat := numFat E
        hDirStart := dirBase E
        hMiniFatStart := miniFatStartVal E
        hNumMiniFat := nMiniFat E
        hDifatStart := difatStartVal E
        hNumDifat := numDifat E
        hDifat := difatList E } = fatVals E := by
  rw [readFat]
  dsimp only
  have hwalk : difatWalk (blobOf E) (numDifat E) (difatStartVal E) =
      padTo (127 * numDifat E) 4294967295 (difatTail E) := by
    rcases Nat.eq_zero_or_pos (numDifat E) with h0 | h0
    · have htail0 : difatTail E = [] := by
        have h1 := (numDifat_bounds E).1
        apply List.eq_nil_of_length_eq_zero
        rw [difatTail_length]
        omega
      rw [h0, htail0]
      rw [show difatWalk (blobOf E) 0 (difatStartVal E) = [] from rfl]
      simp [padTo]
    · rw [difatStartVal, if_neg (by omega)]
      have hthis := difatWalk_blobOf E h (numDifat E) 0 (by omega)
      rw [Nat.add_zero] at hthis
      rw [hthis]
      simp
  rw [hwalk, difat_indices E, List.map_map]
  have hlen2 := fatChunks_length E
  rw [show numFat E = (chunkExact 512 (serFat (fatVals E))).length from hlen2.symm]
  have hmap : (List.range (chunkExact 512 (serFat (fatVals E))).length).map
      (sectorAt (blobOf E) ∘ fun i => nonFatSecs E + i) =
      chunkExact 512 (serFat (fatVals E)) := by
    apply map_range_eq
    intro i hi0
    have hi : i < numFat E := by rw [← hlen2]; exact hi0
    show sectorAt (blobOf E) (nonFatSecs E + i) = _
    have hblt : nonFatSecs E + i < (sectorsOf E).length := by
      rw [sectorsOf_length, nonFatSecs]
      omega
    rw [sectorAt_blobOf E hblt]
    have hix := sectorsOf_getElem_fat E hi
    rw [show nBig E + nMiniSec E + nMiniFat E + nDir E + i = nonFatSecs E + i from
      by rw [nonFatSecs]] at hix
    rw [List.getElem?_eq_getElem hblt, List.getElem?_eq_getElem hi0] at hix
    simpa using hix
  rw [hmap, chunkExact_flatten (by omega)]
  exact fatVals_parse E h

theorem readLE_byte (b : Nat) (X : List Nat) : readLE ([b] ++ X) 0 1 = b % 256 := by
  simp [readLE, leVal]

theorem flatten_le16_length (nm : List Nat) :
    ((nm.map le16).flatten).length = 2 * nm.length := by
  rw [List.length_flatten, List.map_map]
  have he : (nm.map (List.length ∘ le16)) = nm.map (fun _ => 2) :=
    List.map_congr_left (fun x _ => by simp [le16, length_leBytes])
  rw [he, List.map_const']
  simp [List.sum_replicate, smul_eq_mul, Nat.mul_comm]

theorem serName_length {nm : List Nat} (h : nm.length ≤ 31) :
    (serName nm).length = 64 := by
  rw [serName]
  apply padTo_length
  rw [flatten_le16_length]
  omega


theorem tailRead_len (nm : List Nat) (t l r c s z : Nat)
    (hname : nm.length ≤ 31) :
    readLE (le16 (2 * (nm.length + 1)) ++ ([t % 256] ++ ([0] ++ (le32 l ++ (le32 r ++ (le32 c ++ (List.replicate 36 0 ++ (le32 s ++ le64 z)))))))) 0 2 = 2 * (nm.length + 1) := by
  rw [readLE_le16 _ _ (by omega)]

theorem tailRead_typ (nm : List Nat) (t l r c s z : Nat) (ht : t < 256) :
    readLE (le16 (2 * (nm.length + 1)) ++ ([t % 256] ++ ([0] ++ (le32 l ++ (le32 r ++ (le32 c ++ (List.replicate 36 0 ++ (le32 s ++ le64 z)))))))) 2 1 = t := by
  rw [readLE_skip2 _ 1 0 (by simp [le16, length_leBytes])
    (by simp [le16, length_leBytes])]
  rw [readLE_byte]
  omega

theorem tailRead_left (nm : List Nat) (t l r c s z : Nat)
    (hl : l < 4294967296) :
    readLE (le16 (2 * (nm.length + 1)) ++ ([t % 256] ++ ([0] ++ (le32 l ++ (le32 r ++ (le32 c ++ (List.replicate 36 0 ++ (le32 s ++ le64 z)))))))) 4 4 = l := by
  rw [readLE_skip2 _ 4 2 (by simp [le16, length_leBytes])
    (by simp [le16, length_leBytes])]
  rw [readLE_skip2 _ 4 1 (by simp) (by simp)]
  rw [readLE_skip2 _ 4 0 (by simp) (by simp)]
  rw [readLE_le32 _ _ hl]

theorem tailRead_right (nm : List Nat) (t l r c s z : Nat)
    (hr : r < 4294967296) :
    readLE (le16 (2 * (nm.length + 1)) ++ ([t % 256] ++ ([0] ++ (le32 l ++ (le32 r ++ (le32 c ++ (List.replicate 36 0 ++ (le32 s ++ le64 z)))))))) 8 4 = r := by
  rw [readLE_skip2 _ 4 6 (by simp [le16, length_leBytes])
    (by simp [le16, length_leBytes])]
  rw [readLE_skip2 _ 4 5 (by simp) (by simp)]
  rw [readLE_skip2 _ 4 4 (by simp) (by simp)]
  rw [readLE_skip2 _ 4 0 (by simp [le32, length_leBytes])
    (by simp [le32, length_leBytes])]
  rw [readLE_le32 _ _ hr]

theorem tailRead_child (nm : List Nat) (t l r c s z : Nat)
    (hc : c < 4294967296) :
    readLE (le16 (2 * (nm.length + 1)) ++ ([t % 256] ++ ([0] ++ (le32 l ++ (le32 r ++ (le32 c ++ (List.replicate 36 0 ++ (le32 s ++ le64 z)))))))) 12 4 = c := by
  rw [readLE_skip2 _ 4 10 (by simp [le16, length_leBytes])
    (by simp [le16, length_leBytes])]
  rw [readLE_skip2 _ 4 9 (by simp) (by simp)]
  rw [readLE_skip2 _ 4 8 (by simp) (by simp)]
  rw [readLE_skip2 _ 4 4 (by simp [le32, length_leBytes])
    (by simp [le32, length_leBytes])]
  rw [readLE_skip2 _ 4 0 (by simp [le32, length_leBytes])
    (by simp [le32, length_leBytes])]
  rw [readLE_le32 _ _ hc]

theorem tailRead_start (nm : List Nat) (t l r c s z : Nat)
    (hs : s < 4294967296) :
    readLE (le16 (2 * (nm.length + 1)) ++ ([t % 256] ++ ([0] ++ (le32 l ++ (le32 r ++ (le32 c ++ (List.replicate 36 0 ++ (le32 s ++ le64 z)))))))) 52 4 = s := by
  rw [readLE_skip2 _ 4 50 (by simp [le16, length_leBytes])
    (by simp [le16, length_leBytes])]
  rw [readLE_skip2 _ 4 49 (by simp) (by simp)]
  rw [readLE_skip2 _ 4 48 (by simp) (by simp)]
  rw [readLE_skip2 _ 4 44 (by simp [le32, length_leBytes])
    (by simp [le32, length_leBytes])]
  rw [readLE_skip2 _ 4 40 (by simp [le32, length_leBytes])
    (by simp [le32, length_leBytes])]
  rw [readLE_skip2 _ 4 36 (by simp [le32, length_leBytes])
    (by simp [le32, length_leBytes])]
  rw [readLE_skip2 _ 4 0 (by simp) (by simp)]
  rw [readLE_le32 _ _ hs]

theorem tailRead_size (nm : List Nat) (t l r c s z : Nat)
    (hz : z < 18446744073709551616) :
    readLE (le16 (2 * (nm.length + 1)) ++ ([t % 256] ++ ([0] ++ (le32 l ++ (le32 r ++ (le32 c ++ (List.replicate 36 0 ++ (le32 s ++ le64 z)))))))) 56 8 = z := by
  rw [readLE_skip2 _ 8 54 (by simp [le16, length_leBytes])
    (by simp [le16, length_leBytes])]
  rw [readLE_skip2 _ 8 53 (by simp) (by simp)]
  rw [readLE_skip2 _ 8 52 (by simp) (by simp)]
  rw [readLE_skip2 _ 8 48 (by simp [le32, length_leBytes])
    (by simp [le32, length_leBytes])]
  rw [readLE_skip2 _ 8 44 (by simp [le32, length_leBytes])
    (by simp [le32, length_leBytes])]
  rw [readLE_skip2 _ 8 40 (by simp [le32, length_leBytes])
    (by simp [le32, length_leBytes])]
  rw [readLE_skip2 _ 8 4 (by simp) (by simp)]
  rw [readLE_skip2 _ 8 0 (by simp [le32, length_leBytes])
    (by simp [le32, length_leBytes])]
  rw [show le64 z = le64 z ++ [] from (List.append_nil _).symm]
  rw [readLE_le64 _ _ hz]

theorem parseDirEntry_ser (nm : List Nat) (t l r c s z : Nat)
    (hname : nm.length ≤ 31)
    (hunits : ∀ u ∈ nm, u < 65536)
    (ht : t < 256) (hl : l < 4294967296) (hr : r < 4294967296)
    (hc : c < 4294967296) (hs0 : s < 4294967296)
    (hz : z < 18446744073709551616) :
    parseDirEntry (serDirEntry (DirEntry.mk nm t l r c s z)) =
      DirEntry.mk nm t l r c s z := by
  have hb : serDirEntry (DirEntry.mk nm t l r c s z) =
      serName nm ++ (le16 (2 * (nm.length + 1)) ++ ([t % 256] ++ ([0] ++ (le32 l ++ (le32 r ++ (le32 c ++ (List.replicate 36 0 ++ (le32 s ++ le64 z)))))))) := rfl
  have h64 : (serName nm).length = 64 := serName_length hname
  have hf64 : readLE (serName nm ++ (le16 (2 * (nm.length + 1)) ++ ([t % 256] ++ ([0] ++ (le32 l ++ (le32 r ++ (le32 c ++ (List.replicate 36 0 ++ (le32 s ++ le64 z))))))))) 64 2 = 2 * (nm.length + 1) := by
    rw [readLE_skip2 _ 2 0 (by omega) (by omega)]
    exact tailRead_len nm t l r c s z hname
  have hf66 : readLE (serName nm ++ (le16 (2 * (nm.length + 1)) ++ ([t % 256] ++ ([0] ++ (le32 l ++ (le32 r ++ (le32 c ++ (List.replicate 36 0 ++ (le32 s ++ le64 z))))))))) 66 1 = t := by
    rw [readLE_skip2 _ 1 2 (by omega) (by omega)]
    exact tailRead_typ nm t l r c s z ht
  have hf68 : readLE (serName nm ++ (le16 (2 * (nm.length + 1)) ++ ([t % 256] ++ ([0] ++ (le32 l ++ (le32 r ++ (le32 c ++ (List.replicate 36 0 ++ (le32 s ++ le64 z))))))))) 68 4 = l := by
    rw [readLE_skip2 _ 4 4 (by omega) (by omega)]
    exact tailRead_left nm t l r c s z hl
  have hf72 : readLE (serName nm ++ (le16 (2 * (nm.length + 1)) ++ ([t % 256] ++ ([0] ++ (le32 l ++ (le32 r ++ (le32 c ++ (List.replicate 36 0 ++ (le32 s ++ le64 z))))))))) 72 4 = r := by
    rw [readLE_skip2 _ 4 8 (by omega) (by omega)]
    exact tailRead_right nm t l r c s z hr
  have hf76 : readLE (serName nm ++ (le16 (2 * (nm.length + 1)) ++ ([t % 256] ++ ([0] ++ (le32 l ++ (le32 r ++ (le32 c ++ (List.replicate 36 0 ++ (le32 s ++ le64 z))))))))) 76 4 = c := by
    rw [readLE_skip2 _ 4 12 (by omega) (by omega)]
    exact tailRead_child nm t l r c s z hc
  have hf116 : readLE (serName nm ++ (le16 (2 * (nm.length + 1)) ++ ([t % 256] ++ ([0] ++ (le32 l ++ (le32 r ++ (le32 c ++ (List.replicate 36 0 ++ (le32 s ++ le64 z))))))))) 116 4 = s := by
    rw [readLE_skip2 _ 4 52 (by omega) (by omega)]
    exact tailRead_start nm t l r c s z hs0
  have hf120 : readLE (serName nm ++ (le16 (2 * (nm.length + 1)) ++ ([t % 256] ++ ([0] ++ (le32 l ++ (le32 r ++ (le32 c ++ (List.replicate 36 0 ++ (le32 s ++ le64 z))))))))) 120 8 = z := by
    rw [readLE_skip2 _ 8 56 (by omega) (by omega)]
    exact tailRead_size nm t l r c s z hz
  have harg : (2 * (nm.length + 1) - 2) / 2 = nm.length := by omega
  have hnm : (List.range ((readLE (serName nm ++ (le16 (2 * (nm.length + 1)) ++ ([t % 256] ++ ([0] ++ (le32 l ++ (le32 r ++ (le32 c ++ (List.replicate 36 0 ++ (le32 s ++ le64 z))))))))) 64 2 - 2) / 2)).map
      (fun i => readLE (serName nm ++ (le16 (2 * (nm.length + 1)) ++ ([t % 256] ++ ([0] ++ (le32 l ++ (le32 r ++ (le32 c ++ (List.replicate 36 0 ++ (le32 s ++ le64 z))))))))) (2 * i) 2) = nm := by
    rw [hf64, harg]
    apply map_range_eq
    intro i hi
    rw [readLE_here _ (by omega)]
    rw [serName, padTo]
    rw [readLE_here _ (by rw [flatten_le16_length]; omega)]
    rw [readLE]
    have hu2 : ∀ b2 ∈ nm.map le16, b2.length = 2 := fun b2 hb2 => by
      obtain ⟨x, _, he⟩ := List.mem_map.mp hb2
      rw [← he, le16, length_leBytes]
    have hsl := flatten_slice_uniform (by omega : (0:Nat) < 2) (nm.map le16) i hu2
      (by simpa using hi)
    rw [hsl, List.getElem_map, le16]
    rw [leVal_leBytes _ _ (by
      have hub := hunits (nm[i]) (List.getElem_mem hi)
      have hp : (256 : Nat) ^ 2 = 65536 := by norm_num
      omega)]
    rw [List.get_eq_getElem]
  rw [parseDirEntry, hb, hnm, hf66, hf68, hf72, hf76, hf116, hf120]

theorem chunkExact_flatten_uniform {α} {w : Nat} (hw : 0 < w) :
    ∀ (ls : List (List α)), (∀ c ∈ ls, c.length = w) →
      chunkExact w (ls.flatten) = ls := by
  intro ls
  induction ls with
  | nil => intro _; rfl
  | cons c rest ih =>
    intro hu
    rw [List.flatten_cons,
      chunkExact_append_of_length hw (hu c (List.mem_cons_self _ _))]
    rw [ih (fun x hx => hu x (List.mem_cons_of_mem _ hx))]

theorem chunkExact_append_mul {α} {w : Nat} (hw : 0 < w) :
    ∀ (k : Nat) (a b : List α), a.length = w * k →
      chunkExact w (a ++ b) = chunkExact w a ++ chunkExact w b := by
  intro k
  induction k with
  | zero =>
    intro a b ha
    simp only [Nat.mul_zero] at ha
    have : a = [] := List.eq_nil_of_length_eq_zero ha
    subst this
    rw [List.nil_append, show chunkExact w ([] : List α) = [] from rfl,
      List.nil_append]
  | succ k ih =>
    intro a b ha
    have hwa : w ≤ a.length := by
      have : w * (k + 1) = w * k + w := by ring
      omega
    have htd : a = a.take w ++ a.drop w := (List.take_append_drop _ _).symm
    have htl : (a.take w).length = w := by
      rw [List.length_take]
      omega
    have hdl : (a.drop w).length = w * k := by
      rw [List.length_drop]
      have : w * (k + 1) = w * k + w := by ring
      omega
    rw [htd, List.append_assoc,
      chunkExact_append_of_length hw htl,
      chunkExact_append_of_length hw htl,
      ih _ _ hdl, List.cons_append]

theorem dedupByGo_subset {β : Type} [DecidableEq β] (k : α → β) :
    ∀ (fuel : Nat) (l : List α), ∀ x ∈ dedupByGo k fuel l, x ∈ l := by
  intro fuel
  induction fuel with
  | zero => intro l x hx; simp [dedupByGo] at hx
  | succ fuel ih =>
    intro l x hx
    cases l with
    | nil => simp [dedupByGo] at hx
    | cons a rest =>
      rw [dedupByGo] at hx
      rcases List.mem_cons.mp hx with h | h
      · exact h ▸ List.mem_cons_self _ _
      · have := ih _ _ h
        exact List.mem_cons_of_mem _ (List.mem_of_mem_filter this)

theorem allNodes_mem (E : List (List (List Nat) × List Nat))
    {q : List (List Nat)} (hq : q ∈ allNodes E) :
    ∃ p, p ∈ E ∧ ∃ i, i < p.1.length ∧ q = p.1.take (i + 1) := by
  rw [allNodes, dedupBy] at hq
  have h1 := dedupByGo_subset foldPath _ _ q hq
  rw [allPrefixes] at h1
  obtain ⟨p, hp, hq2⟩ := List.mem_flatMap.mp h1
  rw [prefixesOf] at hq2
  obtain ⟨i, hi, he⟩ := List.mem_map.mp hq2
  exact ⟨p, hp, i, List.mem_range.mp hi, he.symm⟩

theorem allNodes_ne_nil (E : List (List (List Nat) × List Nat))
    {q : List (List Nat)} (hq : q ∈ allNodes E) : q ≠ [] := by
  obtain ⟨p, hp, i, hi, he⟩ := allNodes_mem E hq
  subst he
  have : (p.1.take (i + 1)).length = i + 1 := by
    rw [List.length_take]
    omega
  intro hcon
  rw [hcon] at this
  simp at this

theorem allNodes_names (E : List (List (List Nat) × List Nat))
    (hwf : wfEntries E) {q : List (List Nat)} (hq : q ∈ allNodes E) :
    ∀ nm ∈ q, 1 ≤ nm.length ∧ nm.length ≤ 31 ∧ ∀ u ∈ nm, u < 65536 := by
  obtain ⟨p, hp, i, hi, he⟩ := allNodes_mem E hq
  subst he
  intro nm hnm
  exact (hwf.1 p hp).2.1 nm (List.mem_of_mem_take hnm)

theorem getLastD_mem {α} {q : List α} (h : q ≠ []) (d : α) :
    q.getLast?.getD d ∈ q := by
  rw [List.getLast?_eq_getLast q h]
  exact List.getLast_mem h

theorem serDirEntry_length {e : DirEntry} (h : e.name.length ≤ 31) :
    (serDirEntry e).length = 128 := by
  rw [serDirEntry]
  simp [List.length_append, serName_length h, le16, le32, le64, length_leBytes]

theorem dirEntriesOf_length (E : List (List (List Nat) × List Nat)) :
    (dirEntriesOf E).length = 1 + (allNodes E).length := by
  rw [dirEntriesOf]
  simp [Nat.add_comm]

theorem dirBytes_length (E : List (List (List Nat) × List Nat))
    (hnames : ∀ e ∈ dirEntriesOf E, e.name.length ≤ 31) :
    (dirBytes E).length = 128 * (dirEntriesOf E).length := by
  rw [dirBytes, List.length_flatten, List.map_map]
  have he : ((dirEntriesOf E).map (List.length ∘ serDirEntry)) =
      (dirEntriesOf E).map (fun _ => 128) :=
    List.map_congr_left (fun e hee => by
      simp [Function.comp, serDirEntry_length (hnames e hee)])
  rw [he, List.map_const']
  simp [List.sum_replicate, smul_eq_mul, Nat.mul_comm]

theorem dirEntriesOf_names (E : List (List (List Nat) × List Nat))
    (hwf : wfEntries E) :
    ∀ e ∈ dirEntriesOf E, e.name.length ≤ 31 ∧ ∀ u ∈ e.name, u < 65536 := by
  intro e he
  rw [dirEntriesOf] at he
  rcases List.mem_cons.mp he with h | h
  · subst h
    refine ⟨show rootName.length ≤ 31 by decide, ?_⟩
    intro u hu
    have hu2 : u ∈ rootName := hu
    have hall : ∀ v ∈ rootName, v < 65536 := by decide
    exact hall u hu2
  · obtain ⟨q, hqmem, he2⟩ := List.mem_map.mp h
    rw [← he2]
    have hqne := allNodes_ne_nil E hqmem
    have hmem := getLastD_mem hqne ([] : List Nat)
    have hnm := allNodes_names E hwf hqmem (q.getLast?.getD []) hmem
    have hname : (mkEntry E q).name = q.getLast?.getD [] := by
      rw [mkEntry]
      split_ifs <;> rfl
    rw [hname]
    exact ⟨hnm.2.1, hnm.2.2⟩

theorem dirCount_bound (E : List (List (List Nat) × List Nat))
    (h109 : capOK E) :
    (dirEntriesOf E).length ≤ 4294967294 := by
  have h2 := (capBounds E h109).2.1
  rw [dirEntriesOf_length]
  omega

theorem nodeIdx_le (E : List (List (List Nat) × List Nat))
    (q : List (List Nat)) : nodeIdx E q ≤ 1 + (allNodes E).length := by
  rw [nodeIdx]
  have h : (allNodes E).findIdx (fun r => foldPath r == foldPath q) ≤
      (allNodes E).length := List.findIdx_le_length _
  omega

theorem nextSibVal_lt (E : List (List (List Nat) × List Nat))
    (hcnt : (allNodes E).length + 1 ≤ 4294967294) (r : List (List Nat)) :
    nextSibVal E r < 4294967296 := by
  simp only [nextSibVal]
  cases hx : (childrenOf E r.dropLast)[(childrenOf E r.dropLast).findIdx
      (fun s => foldPath s == foldPath r) + 1]? with
  | none => norm_num [NOSTREAM]
  | some s =>
    show nodeIdx E s < 4294967296
    have := nodeIdx_le E s
    omega

theorem firstChildVal_lt (E : List (List (List Nat) × List Nat))
    (hcnt : (allNodes E).length + 1 ≤ 4294967294) (q : List (List Nat)) :
    firstChildVal E q < 4294967296 := by
  rw [firstChildVal]
  cases hx : (childrenOf E q).head? with
  | none => norm_num [NOSTREAM]
  | some s =>
    show nodeIdx E s < 4294967296
    have := nodeIdx_le E s
    omega

theorem parseDirEntry_ser_e (e : DirEntry)
    (h1 : e.name.length ≤ 31) (h2 : ∀ u ∈ e.name, u < 65536)
    (h3 : e.typ < 256) (h4 : e.left < 4294967296) (h5 : e.right < 4294967296)
    (h6 : e.child < 4294967296) (h7 : e.start < 4294967296)
    (h8 : e.size < 18446744073709551616) :
    parseDirEntry (serDirEntry e) = e := by
  obtain ⟨nm, t, l, r, c, s, z⟩ := e
  exact parseDirEntry_ser nm t l r c s z h1 h2 h3 h4 h5 h6 h7 h8

theorem dirEntriesOf_roundtrip (E : List (List (List Nat) × List Nat))
    (hwf : wfEntries E) (h109 : capOK E) :
    ∀ e ∈ dirEntriesOf E, parseDirEntry (serDirEntry e) = e := by
  have hcnt := dirCount_bound E h109
  have hcnt2 : (allNodes E).length + 1 ≤ 4294967294 := by
    rw [dirEntriesOf_length] at hcnt
    omega
  have hnf := nonFatSecs_bound E h109
  have hnb : nBig E ≤ nonFatSecs E := by rw [nonFatSecs]; omega
  have htm := (capBounds E h109).2.2
  have hmfle := nMiniFat_le E
  have hnms : nMiniSec E ≤ nonFatSecs E := by rw [nonFatSecs]; omega
  intro e he
  have hnames := dirEntriesOf_names E hwf e he
  rw [dirEntriesOf] at he
  rcases List.mem_cons.mp he with hh | hh
  · subst hh
    apply parseDirEntry_ser_e _ hnames.1 hnames.2
    · show (5 : Nat) < 256
      norm_num
    · show NOSTREAM < 4294967296
      norm_num [NOSTREAM]
    · show NOSTREAM < 4294967296
      norm_num [NOSTREAM]
    · exact firstChildVal_lt E hcnt2 []
    · show (if (miniBytes E).length = 0 then ENDOFCHAINV else nBig E) < 4294967296
      split_ifs
      · norm_num [ENDOFCHAINV]
      · omega
    · show (miniBytes E).length < 18446744073709551616
      have h1 : (miniBytes E).length ≤ 512 * nMiniSec E := by
        rw [nMiniSec]
        exact ceilDiv_le_mul _ _ (by omega)
      omega
  · obtain ⟨q, hqmem, he2⟩ := List.mem_map.mp hh
    subst he2
    apply parseDirEntry_ser_e _ hnames.1 hnames.2
    · simp only [mkEntry]
      split_ifs
      all_goals first
      | (show (2 : Nat) < 256; norm_num)
      | (show (1 : Nat) < 256; norm_num)
    · simp only [mkEntry]
      split_ifs
      all_goals show NOSTREAM < 4294967296
      all_goals norm_num [NOSTREAM]
    · simp only [mkEntry]
      split_ifs
      all_goals exact nextSibVal_lt E hcnt2 q
    · simp only [mkEntry]
      split_ifs
      all_goals first
      | exact firstChildVal_lt E hcnt2 q
      | (show NOSTREAM < 4294967296; norm_num [NOSTREAM])
    · simp only [mkEntry]
      split_ifs with hst h0 hbg
      · show ENDOFCHAINV < 4294967296
        norm_num [ENDOFCHAINV]
      · show bigStartOf E q < 4294967296
        have hqbig : q ∈ bigNodes E := by
          rw [bigNodes]
          exact List.mem_filter.mpr ⟨hqmem, by simp [hst, hbg]⟩
        have hble := bigStart_add_le E hqbig
        omega
      · show miniStartOf E q < 4294967296
        have hqmini : q ∈ miniNodes E := by
          rw [miniNodes]
          refine List.mem_filter.mpr ⟨hqmem, by simp [hst]; omega⟩
        have hmle := miniStart_add_le E hqmini
        omega
      · show ENDOFCHAINV < 4294967296
        norm_num [ENDOFCHAINV]
    · simp only [mkEntry]
      split_ifs with hst h0 hbg
      · show (bytesOfNode E q).length < 18446744073709551616
        omega
      · show (bytesOfNode E q).length < 18446744073709551616
        have hqbig : q ∈ bigNodes E := by
          rw [bigNodes]
          exact List.mem_filter.mpr ⟨hqmem, by simp [hst, hbg]⟩
        have h1 : (bytesOfNode E q).length ≤ 512 * secCount E q := by
          rw [secCount]
          exact ceilDiv_le_mul _ _ (by omega)
        have h2 := bigStart_add_le E hqbig
        omega
      · show (bytesOfNode E q).length < 18446744073709551616
        omega
      · show (0 : Nat) < 18446744073709551616
        norm_num

theorem flatten_length_uniform {α} {w : Nat} :
    ∀ {ls : List (List α)}, (∀ c ∈ ls, c.length = w) →
      ls.flatten.length = w * ls.length := by
  intro ls
  induction ls with
  | nil => intro _; simp
  | cons c rest ih =>
    intro hu
    rw [List.flatten_cons, List.length_append, hu c (List.mem_cons_self _ _),
      ih (fun x hx => hu x (List.mem_cons_of_mem _ hx)), List.length_cons]
    ring

theorem nDir_pos (E : List (List (List Nat) × List Nat)) (hwf : wfEntries E) :
    1 ≤ nDir E := by
  have hnames := dirEntriesOf_names E hwf
  have hdb := dirBytes_length E (fun e he => (hnames e he).1)
  have hlen := dirEntriesOf_length E
  rw [nDir]
  exact ceilDiv_pos (by omega) (by omega)

theorem readDir_blobOf (E : List (List (List Nat) × List Nat))
    (hwf : wfEntries E) (h109 : capOK E) :
    ∃ junk, readDir (blobOf E) (fatVals E) (dirBase E) =
      .ok (dirEntriesOf E ++ junk) := by
  have hnames := dirEntriesOf_names E hwf
  have hdb := dirBytes_length E (fun e he => (hnames e he).1)
  have hnd := nDir_pos E hwf
  obtain ⟨m, hm⟩ := chunkPad_flatten (by omega : (0:Nat) < 512) (dirBytes E)
  refine ⟨(chunkExact 128 (List.replicate m 0)).map parseDirEntry, ?_⟩
  rw [readDir, chain_fatVals_dir E hnd]
  have hbk : dirBase E + nDir E ≤ (sectorsOf E).length := by
    rw [sectorsOf_length, dirBase, miniFatBase]
    omega
  have hD : (chunkPad 512 0 (dirBytes E)).length = nDir E := by
    rw [chunkPad_length (by omega), nDir]
  have hmap := range'_sectors E (dirBase E) (nDir E) hbk
    (chunkPad 512 0 (dirBytes E)) hD
    (fun i hi => sectorsOf_getElem_dir E hi)
  simp only [Except.map]
  rw [hmap, hm,
    chunkExact_append_mul (by omega) ((dirEntriesOf E).length) _ _ hdb,
    List.map_append]
  have hser : chunkExact 128 (dirBytes E) = (dirEntriesOf E).map serDirEntry := by
    rw [dirBytes]
    exact chunkExact_flatten_uniform (by omega) _ (fun c hc => by
      obtain ⟨e, hee, hce⟩ := List.mem_map.mp hc
      rw [← hce]
      exact serDirEntry_length (hnames e hee).1)
  rw [hser, List.map_map]
  have hid : (dirEntriesOf E).map (parseDirEntry ∘ serDirEntry) =
      dirEntriesOf E := by
    have h2 : (dirEntriesOf E).map (parseDirEntry ∘ serDirEntry) =
        (dirEntriesOf E).map id :=
      List.map_congr_left (fun e hee => dirEntriesOf_roundtrip E hwf h109 e hee)
    rw [h2, List.map_id]
  rw [hid]

theorem sectorsOf_getElem_big (E : List (List (List Nat) × List Nat))
    {q : List (List Nat)} (hq : q ∈ bigNodes E) {j : Nat}
    (hj : j < secCount E q) :
    (sectorsOf E)[bigStartOf E q + j]? =
      (chunkPad 512 0 (bytesOfNode E q))[j]? := by
  have hle := bigStart_add_le E hq
  rw [sectorsOf_getElem_bigflat E (by omega)]
  have hex : ∃ r, r ∈ bigNodes E ∧ (foldPath r == foldPath q) = true :=
    ⟨q, hq, by simp⟩
  have hlt := List.findIdx_lt_length_of_exists hex
  have hmatch := @List.findIdx_getElem _ (fun r => foldPath r == foldPath q)
    (bigNodes E) hlt
  have hfp : foldPath ((bigNodes E)[(bigNodes E).findIdx
      (fun r => foldPath r == foldPath q)]) = foldPath q := by
    simpa using hmatch
  have hlt2 : (bigNodes E).findIdx (fun r => foldPath r == foldPath q) <
      ((bigNodes E).map (fun r => chunkPad 512 0 (bytesOfNode E r))).length := by
    simpa using hlt
  have hoff : j < (((bigNodes E).map
      (fun r => chunkPad 512 0 (bytesOfNode E r)))[(bigNodes E).findIdx
        (fun r => foldPath r == foldPath q)]).length := by
    rw [List.getElem_map, chunkPad_length (by omega)]
    rw [show ceilDiv (bytesOfNode E ((bigNodes E)[(bigNodes E).findIdx
        (fun r => foldPath r == foldPath q)])).length 512 =
      secCount E ((bigNodes E)[(bigNodes E).findIdx
        (fun r => foldPath r == foldPath q)]) from rfl]
    rw [secCount_congr hfp]
    exact hj
  have hblk := flatten_getElem_block
    ((bigNodes E).map (fun r => chunkPad 512 0 (bytesOfNode E r)))
    ((bigNodes E).findIdx (fun r => foldPath r == foldPath q)) j hlt2 hoff
  have hsum : ((((bigNodes E).map
      (fun r => chunkPad 512 0 (bytesOfNode E r))).take
        ((bigNodes E).findIdx (fun r => foldPath r == foldPath q))).map
      List.length).sum = bigStartOf E q := by
    rw [← List.map_take, List.map_map, bigStartOf]
    congr 1
    apply List.map_congr_left
    intro r _
    simp only [Function.comp]
    rw [chunkPad_length (by omega)]
    rfl
  rw [hsum] at hblk
  rw [hblk, List.getElem_map, bytesOfNode_congr hfp]

theorem readChainData_big (E : List (List (List Nat) × List Nat))
    (h109 : capOK E) {q : List (List Nat)} (hq : q ∈ bigNodes E)
    (hne : (bytesOfNode E q).length ≠ 0) :
    readChainData (blobOf E) (fatVals E) (bigStartOf E q)
      ((bytesOfNode E q).length) = .ok (bytesOfNode E q) := by
  rw [readChainData, if_neg hne]
  have hk : 1 ≤ secCount E q := by
    rw [secCount]
    exact ceilDiv_pos (by omega) (by omega)
  rw [chain_fatVals_big E hq hk]
  simp only [Except.map]
  have hble := bigStart_add_le E hq
  have hbk : bigStartOf E q + secCount E q ≤ (sectorsOf E).length := by
    rw [sectorsOf_length]
    omega
  have hcp : (chunkPad 512 0 (bytesOfNode E q)).length = secCount E q := by
    rw [chunkPad_length (by omega), secCount]
  have hmap := range'_sectors E (bigStartOf E q) (secCount E q) hbk _ hcp
    (fun i hi => sectorsOf_getElem_big E hq hi)
  rw [hmap]
  obtain ⟨m, hm⟩ := chunkPad_flatten (by omega : (0:Nat) < 512) (bytesOfNode E q)
  rw [hm, List.take_left]

theorem readChainData_ms (E : List (List (List Nat) × List Nat))
    (h109 : capOK E) (hne : (miniBytes E).length ≠ 0) :
    readChainData (blobOf E) (fatVals E) (miniStreamBase E)
      ((miniBytes E).length) = .ok (miniBytes E) := by
  rw [readChainData, if_neg hne]
  have hk : 1 ≤ nMiniSec E := by
    rw [nMiniSec]
    exact ceilDiv_pos (by omega) (by omega)
  rw [chain_fatVals_ms E hk]
  simp only [Except.map]
  have hbk : miniStreamBase E + nMiniSec E ≤ (sectorsOf E).length := by
    rw [sectorsOf_length, miniStreamBase]
    omega
  have hB : (chunkPad 512 0 (miniBytes E)).length = nMiniSec E := by
    rw [chunkPad_length (by omega), nMiniSec]
  have hmap := range'_sectors E (miniStreamBase E) (nMiniSec E) hbk _ hB
    (fun i hi => sectorsOf_getElem_ms E hi)
  rw [hmap]
  obtain ⟨m, hm⟩ := chunkPad_flatten (by omega : (0:Nat) < 512) (miniBytes E)
  rw [hm, List.take_left]

theorem readMiniFat_blobOf (E : List (List (List Nat) × List Nat))
    (h109 : capOK E) :
    readMiniFat (blobOf E) (fatVals E)
      { hNumFat := numFat E
        hDirStart := dirBase E
        hMiniFatStart := miniFatStartVal E
        hNumMiniFat := nMiniFat E
        hDifatStart := difatStartVal E
        hNumDifat := numDifat E
        hDifat := difatList E } = .ok (miniFatVals E) := by
  rw [readMiniFat]
  dsimp only
  by_cases h0 : nMiniFat E = 0
  · rw [if_pos h0]
    have hnil : miniFatVals E = [] := List.eq_nil_of_length_eq_zero
      (by rw [miniFatVals_length, h0])
    rw [hnil]
  · rw [if_neg h0]
    have hstart : miniFatStartVal E = miniFatBase E := by
      rw [miniFatStartVal, if_neg h0]
    rw [hstart, chain_fatVals_mf E (by omega)]
    simp only [Except.map]
    have hbk : miniFatBase E + nMiniFat E ≤ (sectorsOf E).length := by
      rw [sectorsOf_length, miniFatBase]
      omega
    have hlen := miniFatChunks_length E
    have hmap := range'_sectors E (miniFatBase E) (nMiniFat E) hbk
      (chunkExact 512 (serFat (miniFatVals E))) hlen
      (fun i hi => sectorsOf_getElem_mf E hi)
    rw [hmap, chunkExact_flatten (by omega)]
    rw [miniFatVals_parse E h109]

theorem miniChunks_uniform (E : List (List (List Nat) × List Nat)) :
    ∀ c ∈ miniChunks E, c.length = 64 := by
  intro c hc
  rw [miniChunks] at hc
  obtain ⟨blk, hblk, hmem⟩ := List.mem_flatten.mp hc
  obtain ⟨q, _, heq⟩ := List.mem_map.mp hblk
  rw [← heq] at hmem
  exact chunkPad_uniform (by omega) _ c hmem

theorem miniChunks_length (E : List (List (List Nat) × List Nat)) :
    (miniChunks E).length = totalMini E := by
  rw [miniChunks, List.length_flatten, List.map_map, totalMini]
  congr 1
  apply List.map_congr_left
  intro q _
  simp only [Function.comp]
  rw [chunkPad_length (by omega)]
  rfl

theorem miniChunks_getElem (E : List (List (List Nat) × List Nat))
    {q : List (List Nat)} (hq : q ∈ miniNodes E) {j : Nat}
    (hj : j < miniCount E q) :
    (miniChunks E)[miniStartOf E q + j]? =
      (chunkPad 64 0 (bytesOfNode E q))[j]? := by
  rw [miniChunks]
  have hex : ∃ r, r ∈ miniNodes E ∧ (foldPath r == foldPath q) = true :=
    ⟨q, hq, by simp⟩
  have hlt := List.findIdx_lt_length_of_exists hex
  have hmatch := @List.findIdx_getElem _ (fun r => foldPath r == foldPath q)
    (miniNodes E) hlt
  have hfp : foldPath ((miniNodes E)[(miniNodes E).findIdx
      (fun r => foldPath r == foldPath q)]) = foldPath q := by
    simpa using hmatch
  have hlt2 : (miniNodes E).findIdx (fun r => foldPath r == foldPath q) <
      ((miniNodes E).map (fun r => chunkPad 64 0 (bytesOfNode E r))).length := by
    simpa using hlt
  have hoff : j < (((miniNodes E).map
      (fun r => chunkPad 64 0 (bytesOfNode E r)))[(miniNodes E).findIdx
        (fun r => foldPath r == foldPath q)]).length := by
    rw [List.getElem_map, chunkPad_length (by omega)]
    rw [show ceilDiv (bytesOfNode E ((miniNodes E)[(miniNodes E).findIdx
        (fun r => foldPath r == foldPath q)])).length 64 =
      miniCount E ((miniNodes E)[(miniNodes E).findIdx
        (fun r => foldPath r == foldPath q)]) from rfl]
    rw [miniCount_congr hfp]
    exact hj
  have hblk := flatten_getElem_block
    ((miniNodes E).map (fun r => chunkPad 64 0 (bytesOfNode E r)))
    ((miniNodes E).findIdx (fun r => foldPath r == foldPath q)) j hlt2 hoff
  have hsum : ((((miniNodes E).map
      (fun r => chunkPad 64 0 (bytesOfNode E r))).take
        ((miniNodes E).findIdx (fun r => foldPath r == foldPath q))).map
      List.length).sum = miniStartOf E q := by
    rw [← List.map_take, List.map_map, miniStartOf]
    congr 1
    apply List.map_congr_left
    intro r _
    simp only [Function.comp]
    rw [chunkPad_length (by omega)]
    rfl
  rw [hsum] at hblk
  rw [hblk, List.getElem_map, bytesOfNode_congr hfp]

theorem miniFatVals_getElem (E : List (List (List Nat) × List Nat))
    {q : List (List Nat)} (hq : q ∈ miniNodes E) {j : Nat}
    (hj : j < miniCount E q) :
    (miniFatVals E)[miniStartOf E q + j]? =
      (chainEntries (miniStartOf E q) (miniCount E q))[j]? := by
  have hle := miniStart_add_le E hq
  rw [miniFatVals, padTo, List.getElem?_append, if_pos (by
    rw [miniChains_length]
    omega)]
  have hex : ∃ r, r ∈ miniNodes E ∧ (foldPath r == foldPath q) = true :=
    ⟨q, hq, by simp⟩
  have hlt := List.findIdx_lt_length_of_exists hex
  have hmatch := @List.findIdx_getElem _ (fun r => foldPath r == foldPath q)
    (miniNodes E) hlt
  have hfp : foldPath ((miniNodes E)[(miniNodes E).findIdx
      (fun r => foldPath r == foldPath q)]) = foldPath q := by
    simpa using hmatch
  have hlt2 : (miniNodes E).findIdx (fun r => foldPath r == foldPath q) <
      ((miniNodes E).map
        (fun r => chainEntries (miniStartOf E r) (miniCount E r))).length := by
    simpa using hlt
  have hoff : j < (((miniNodes E).map
      (fun r => chainEntries (miniStartOf E r) (miniCount E r)))[(miniNodes E).findIdx
        (fun r => foldPath r == foldPath q)]).length := by
    rw [List.getElem_map, chainEntries_length, miniCount_congr hfp]
    exact hj
  have hblk := flatten_getElem_block
    ((miniNodes E).map (fun r => chainEntries (miniStartOf E r) (miniCount E r)))
    ((miniNodes E).findIdx (fun r => foldPath r == foldPath q)) j hlt2 hoff
  have hsum : ((((miniNodes E).map
      (fun r => chainEntries (miniStartOf E r) (miniCount E r))).take
        ((miniNodes E).findIdx (fun r => foldPath r == foldPath q))).map
      List.length).sum = miniStartOf E q := by
    rw [← List.map_take, List.map_map, miniStartOf]
    congr 1
    apply List.map_congr_left
    intro r _
    simp [Function.comp, chainEntries_length]
  rw [hsum] at hblk
  rw [hblk, List.getElem_map, miniStartOf_congr hfp, miniCount_congr hfp]

theorem chain_miniFatVals (E : List (List (List Nat) × List Nat))
    {q : List (List Nat)} (hq : q ∈ miniNodes E) (hk : 1 ≤ miniCount E q) :
    chain (miniFatVals E) (miniStartOf E q) =
      .ok (List.range' (miniStartOf E q) (miniCount E q)) := by
  apply chain_from_entries
  · exact hk
  · rw [miniFatVals_length]
    have h1 := miniStart_add_le E hq
    have h2 := totalMini_le E
    omega
  · intro j hj
    exact miniFatVals_getElem E hq hj

theorem range'_minislices (E : List (List (List Nat) × List Nat))
    (base k : Nat) (hbk : base + k ≤ (miniChunks E).length)
    (l : List (List Nat)) (hl : l.length = k)
    (hpt : ∀ i, i < k → (miniChunks E)[base + i]? = l[i]?) :
    (List.range' base k).map
      (fun i => ((miniBytes E).drop (64 * i)).take 64) = l := by
  apply range'_map_eq _ k base l hl
  intro i hi
  have hblt : base + i < (miniChunks E).length := by omega
  have hsl := flatten_slice_uniform (by omega : (0:Nat) < 64) (miniChunks E)
    (base + i) (miniChunks_uniform E) hblt
  show ((miniBytes E).drop (64 * (base + i))).take 64 = _
  rw [miniBytes, hsl]
  have hthis := hpt i hi
  rw [List.getElem?_eq_getElem hblt] at hthis
  rw [← hthis]
  rfl

theorem readMiniData_node (E : List (List (List Nat) × List Nat))
    {q : List (List Nat)} (hq : q ∈ miniNodes E) :
    readMiniData (miniFatVals E) (miniBytes E) (miniStartOf E q)
      ((bytesOfNode E q).length) = .ok (bytesOfNode E q) := by
  rw [readMiniData]
  by_cases h0 : (bytesOfNode E q).length = 0
  · rw [if_pos h0]
    have hnil : bytesOfNode E q = [] := List.eq_nil_of_length_eq_zero h0
    rw [hnil]
  · rw [if_neg h0]
    have hk : 1 ≤ miniCount E q := by
      rw [miniCount]
      exact ceilDiv_pos (by omega) (by omega)
    rw [chain_miniFatVals E hq hk]
    simp only [Except.map]
    have hbk2 : miniStartOf E q + miniCount E q ≤ (miniChunks E).length := by
      rw [miniChunks_length]
      exact miniStart_add_le E hq
    have hcp : (chunkPad 64 0 (bytesOfNode E q)).length = miniCount E q := by
      rw [chunkPad_length (by omega), miniCount]
    have hmap := range'_minislices E (miniStartOf E q) (miniCount E q) hbk2 _ hcp
      (fun i hi => miniChunks_getElem E hq hi)
    rw [hmap]
    obtain ⟨m, hm⟩ := chunkPad_flatten (by omega : (0:Nat) < 64) (bytesOfNode E q)
    rw [hm, List.take_left]

theorem dedupByGo_pairwise {β : Type} [DecidableEq β] (k : α → β) :
    ∀ (fuel : Nat) (l : List α),
      (dedupByGo k fuel l).Pairwise (fun a b => k a ≠ k b) := by
  intro fuel
  induction fuel with
  | zero => intro l; simp [dedupByGo]
  | succ fuel ih =>
    intro l
    cases l with
    | nil => simp [dedupByGo]
    | cons a rest =>
      rw [dedupByGo]
      apply List.Pairwise.cons
      · intro b hb
        have hbmem := dedupByGo_subset _ _ _ b hb
        have hf := List.of_mem_filter hbmem
        simp only [bne_iff_ne, ne_eq] at hf
        exact fun hcon => hf hcon.symm
      · exact ih _

theorem dedupByGo_cover {β : Type} [DecidableEq β] (k : α → β) :
    ∀ (fuel : Nat) (l : List α), l.length ≤ fuel →
      ∀ x ∈ l, ∃ y, y ∈ dedupByGo k fuel l ∧ k y = k x := by
  intro fuel
  induction fuel with
  | zero =>
    intro l hl x hx
    have : l = [] := List.eq_nil_of_length_eq_zero (Nat.le_zero.mp hl)
    subst this
    cases hx
  | succ fuel ih =>
    intro l hl x hx
    cases l with
    | nil => cases hx
    | cons a rest =>
      rw [dedupByGo]
      rcases List.mem_cons.mp hx with h1 | h2
      · exact ⟨a, List.mem_cons_self _ _, by rw [h1]⟩
      · by_cases hk : k x = k a
        · exact ⟨a, List.mem_cons_self _ _, hk.symm⟩
        · have hmem : x ∈ rest.filter (fun y => k y != k a) :=
            List.mem_filter.mpr ⟨h2, by simp [hk]⟩
          have hlen : (rest.filter (fun y => k y != k a)).length ≤ fuel := by
            have := List.length_filter_le (fun y => k y != k a) rest
            simp only [List.length_cons] at hl
            omega
          obtain ⟨y, hy1, hy2⟩ := ih _ hlen x hmem
          exact ⟨y, List.mem_cons_of_mem _ hy1, hy2⟩

theorem allNodes_pairwise (E : List (List (List Nat) × List Nat)) :
    (allNodes E).Pairwise (fun a b => foldPath a ≠ foldPath b) := by
  rw [allNodes, dedupBy]
  exact dedupByGo_pairwise foldPath _ _

theorem allNodes_cover (E : List (List (List Nat) × List Nat))
    {p : List (List Nat)} (hp : p ∈ allPrefixes E) :
    ∃ q, q ∈ allNodes E ∧ foldPath q = foldPath p := by
  rw [allNodes, dedupBy]
  exact dedupByGo_cover foldPath _ _ (Nat.le_refl _) p hp

theorem allNodes_inj (E : List (List (List Nat) × List Nat))
    {x y : List (List Nat)} (hx : x ∈ allNodes E) (hy : y ∈ allNodes E)
    (hk : foldPath x = foldPath y) : x = y :=
  pairwise_key_unique (allNodes_pairwise E) x hx y hy hk

theorem findIdx_of_pairwise_keys :
    ∀ {l : List (List (List Nat))},
      l.Pairwise (fun a b => foldPath a ≠ foldPath b) →
      ∀ (j : Nat) (hj : j < l.length),
      l.findIdx (fun r => foldPath r == foldPath (l[j])) = j := by
  intro l
  induction l with
  | nil => intro _ j hj; simp at hj
  | cons a rest ih =>
    intro hpw j hj
    have ha := (List.pairwise_cons.mp hpw).1
    have hrest := (List.pairwise_cons.mp hpw).2
    cases j with
    | zero =>
      rw [List.findIdx_cons]
      simp
    | succ j =>
      rw [List.findIdx_cons]
      have hj2 : j < rest.length := by simpa using hj
      have hne : foldPath a ≠ foldPath ((a :: rest)[j + 1]) := by
        have hmem : (rest[j]) ∈ rest := List.getElem_mem hj2
        simpa using ha _ hmem
      have hfalse : (foldPath a == foldPath ((a :: rest)[j + 1])) = false := by
        simpa using hne
      rw [hfalse]
      simp only [cond_false]
      have := ih hrest j hj2
      simp only [List.getElem_cons_succ]
      omega

theorem allNodes_findIdx_getElem (E : List (List (List Nat) × List Nat))
    {q : List (List Nat)} (hq : q ∈ allNodes E) :
    (allNodes E)[(allNodes E).findIdx (fun r => foldPath r == foldPath q)]? =
      some q := by
  obtain ⟨j, hj, hqe⟩ := List.getElem_of_mem hq
  subst hqe
  rw [findIdx_of_pairwise_keys (allNodes_pairwise E) j hj]
  exact List.getElem?_eq_getElem hj

theorem dir_getElem_root (E : List (List (List Nat) × List Nat))
    (junk : List DirEntry) :
    (dirEntriesOf E ++ junk)[0]? = some (rootEntry E) := by
  rw [List.getElem?_append, if_pos (by rw [dirEntriesOf_length]; omega)]
  rw [dirEntriesOf]
  simp

theorem dir_getElem_node (E : List (List (List Nat) × List Nat))
    (junk : List DirEntry) {q : List (List Nat)} (hq : q ∈ allNodes E) :
    (dirEntriesOf E ++ junk)[nodeIdx E q]? = some (mkEntry E q) := by
  have hfi := allNodes_findIdx_getElem E hq
  have hlt : (allNodes E).findIdx (fun r => foldPath r == foldPath q) <
      (allNodes E).length := by
    by_contra hcon
    rw [List.getElem?_eq_none (by omega)] at hfi
    cases hfi
  rw [nodeIdx, List.getElem?_append, if_pos (by rw [dirEntriesOf_length]; omega)]
  rw [dirEntriesOf]
  rw [show 1 + (allNodes E).findIdx (fun r => foldPath r == foldPath q) =
    ((allNodes E).findIdx (fun r => foldPath r == foldPath q)) + 1 from by omega]
  rw [List.getElem?_cons_succ, List.getElem?_map, hfi]
  rfl

theorem childrenOf_sub (E : List (List (List Nat) × List Nat))
    {q s : List (List Nat)} (hs : s ∈ childrenOf E q) : s ∈ allNodes E := by
  rw [childrenOf] at hs
  exact List.mem_of_mem_filter hs

theorem childrenOf_pairwise (E : List (List (List Nat) × List Nat))
    (q : List (List Nat)) :
    (childrenOf E q).Pairwise (fun a b => foldPath a ≠ foldPath b) := by
  rw [childrenOf]
  exact (allNodes_pairwise E).filter _

theorem childrenOf_spec (E : List (List (List Nat) × List Nat))
    {q s : List (List Nat)} (hs : s ∈ childrenOf E q) :
    s ∈ allNodes E ∧ s.length = q.length + 1 ∧
      foldPath (s.take q.length) = foldPath q := by
  rw [childrenOf] at hs
  have h1 := List.mem_of_mem_filter hs
  have h2 := List.of_mem_filter hs
  simp only [Bool.and_eq_true, beq_iff_eq] at h2
  exact ⟨h1, h2.1, h2.2⟩

theorem childrenOf_dropLast (E : List (List (List Nat) × List Nat))
    {q s : List (List Nat)} (hs : s ∈ childrenOf E q) :
    childrenOf E s.dropLast = childrenOf E q := by
  obtain ⟨h1, hlen, hfp⟩ := childrenOf_spec E hs
  have hdl : s.dropLast = s.take q.length := by
    rw [List.dropLast_eq_take, hlen]
    simp
  rw [hdl]
  exact childrenOf_congr hfp

theorem foldPath_append (a b : List (List Nat)) :
    foldPath (a ++ b) = foldPath a ++ foldPath b := by
  rw [foldPath, foldPath, foldPath, List.map_append]

theorem childrenOf_split (E : List (List (List Nat) × List Nat))
    {q s : List (List Nat)} (hs : s ∈ childrenOf E q) :
    s = s.take q.length ++ [s.getLast?.getD []] := by
  obtain ⟨h1, hlen, hfp⟩ := childrenOf_spec E hs
  have hne : s ≠ [] := by
    intro hcon
    rw [hcon] at hlen
    simp at hlen
  have hdl : s.dropLast = s.take q.length := by
    rw [List.dropLast_eq_take, hlen]
    simp
  rw [List.getLast?_eq_getLast s hne]
  rw [← hdl]
  show s = s.dropLast ++ [s.getLast hne]
  exact (List.dropLast_append_getLast hne).symm

theorem childrenOf_key (E : List (List (List Nat) × List Nat))
    {q s : List (List Nat)} (hs : s ∈ childrenOf E q) :
    foldPath s = foldPath q ++ [foldName (s.getLast?.getD [])] := by
  obtain ⟨h1, hlen, hfp⟩ := childrenOf_spec E hs
  have hsplit := childrenOf_split E hs
  calc foldPath s = foldPath (s.take q.length ++ [s.getLast?.getD []]) := by
        rw [← hsplit]
  _ = foldPath (s.take q.length) ++ foldPath [s.getLast?.getD []] :=
        foldPath_append _ _
  _ = foldPath q ++ [foldName (s.getLast?.getD [])] := by
        rw [hfp]
        rfl

theorem childWalkGo_sibs (E : List (List (List Nat) × List Nat))
    (hwf : wfEntries E) (h109 : capOK E) (junk : List DirEntry)
    (q : List (List Nat)) :
    ∀ (fuel j : Nat),
      (childrenOf E q).length - j + 1 ≤ fuel →
      childWalkGo (dirEntriesOf E ++ junk) fuel
        (match (childrenOf E q)[j]? with
         | some s => nodeIdx E s
         | Option.none => NOSTREAM) =
      .ok (((childrenOf E q).drop j).map (nodeIdx E)) := by
  intro fuel
  induction fuel with
  | zero => intro j h; omega
  | succ fuel ih =>
    intro j h
    cases hj : (childrenOf E q)[j]? with
    | none =>
      have hge : (childrenOf E q).length ≤ j := by
        by_contra hcon
        rw [List.getElem?_eq_getElem (by omega)] at hj
        cases hj
      show childWalkGo (dirEntriesOf E ++ junk) (fuel + 1) NOSTREAM = _
      rw [childWalkGo, if_pos rfl, List.drop_eq_nil_of_le hge]
      rfl
    | some s =>
      have hlt : j < (childrenOf E q).length := by
        by_contra hcon
        rw [List.getElem?_eq_none (by omega)] at hj
        cases hj
      have hse : (childrenOf E q)[j] = s := by
        have h2 := (List.getElem?_eq_getElem hlt).symm.trans hj
        injection h2
      have hsmem : s ∈ childrenOf E q := hse ▸ List.getElem_mem hlt
      have hcnt := dirCount_bound E h109
      have hcnt2 : (allNodes E).length + 1 ≤ 4294967294 := by
        rw [dirEntriesOf_length] at hcnt
        omega
      have hidx := nodeIdx_le E s
      show childWalkGo (dirEntriesOf E ++ junk) (fuel + 1) (nodeIdx E s) = _
      rw [childWalkGo, if_neg (by rw [NOSTREAM]; omega)]
      rw [dir_getElem_node E junk (childrenOf_sub E hsmem)]
      show (childWalkGo (dirEntriesOf E ++ junk) fuel
        (mkEntry E s).right).map (nodeIdx E s :: ·) = _
      have hright : (mkEntry E s).right = nextSibVal E s := by
        rw [mkEntry]
        split_ifs <;> rfl
      have hnext : nextSibVal E s =
          (match (childrenOf E q)[j + 1]? with
           | some s2 => nodeIdx E s2
           | Option.none => NOSTREAM) := by
        simp only [nextSibVal]
        rw [childrenOf_dropLast E hsmem]
        rw [← hse, findIdx_of_pairwise_keys (childrenOf_pairwise E q) j hlt]
      rw [hright, hnext, ih (j + 1) (by omega)]
      simp only [Except.map]
      rw [List.drop_eq_getElem_cons hlt, hse, List.map_cons]

theorem childWalk_children (E : List (List (List Nat) × List Nat))
    (hwf : wfEntries E) (h109 : capOK E) (junk : List DirEntry)
    (q : List (List Nat)) :
    childWalk (dirEntriesOf E ++ junk) (firstChildVal E q) =
      .ok ((childrenOf E q).map (nodeIdx E)) := by
  rw [childWalk]
  have hfuel : (childrenOf E q).length - 0 + 1 ≤
      (dirEntriesOf E ++ junk).length + 1 := by
    have h1 : (childrenOf E q).length ≤ (allNodes E).length := by
      rw [childrenOf]
      exact List.length_filter_le _ _
    rw [List.length_append, dirEntriesOf_length]
    omega
  have h0 := childWalkGo_sibs E hwf h109 junk q
    ((dirEntriesOf E ++ junk).length + 1) 0 hfuel
  have hfc : firstChildVal E q =
      (match (childrenOf E q)[0]? with
       | some s => nodeIdx E s
       | Option.none => NOSTREAM) := by
    rw [firstChildVal, List.head?_eq_getElem?]
  rw [hfc, h0, List.drop_zero]

theorem isStreamNode_nil (E : List (List (List Nat) × List Nat))
    (hwf : wfEntries E) : isStreamNode E [] = false := by
  rw [isStreamNode]
  apply List.any_eq_false.mpr
  intro e he
  have hne := (hwf.1 e he).1
  have hfp : foldPath e.1 ≠ foldPath [] := by
    show foldPath e.1 ≠ []
    intro hcon
    have hlen : e.1.length = 0 := by
      rw [← foldPath_length e.1, hcon]
      rfl
    exact hne (List.eq_nil_of_length_eq_zero hlen)
  simpa using hfp

theorem mkEntry_name (E : List (List (List Nat) × List Nat))
    (q : List (List Nat)) : (mkEntry E q).name = q.getLast?.getD [] := by
  rw [mkEntry]
  split_ifs <;> rfl

theorem mkEntry_typ_stream {E : List (List (List Nat) × List Nat)}
    {q : List (List Nat)} (h : isStreamNode E q = true) :
    (mkEntry E q).typ = 2 := by
  rw [mkEntry, if_pos h]

theorem mkEntry_typ_storage {E : List (List (List Nat) × List Nat)}
    {q : List (List Nat)} (h : isStreamNode E q = false) :
    (mkEntry E q).typ = 1 := by
  rw [mkEntry, if_neg (by simp [h])]

theorem mkEntry_child_storage {E : List (List (List Nat) × List Nat)}
    {q : List (List Nat)} (h : isStreamNode E q = false) :
    (mkEntry E q).child = firstChildVal E q := by
  rw [mkEntry, if_neg (by simp [h])]

theorem mkEntry_size (E : List (List (List Nat) × List Nat))
    {q : List (List Nat)} (h : isStreamNode E q = true) :
    (mkEntry E q).size = (bytesOfNode E q).length := by
  rw [mkEntry, if_pos h]

theorem find?_congr_mem {α} {p q : α → Bool} :
    ∀ {l : List α}, (∀ x ∈ l, p x = q x) → l.find? p = l.find? q := by
  intro l
  induction l with
  | nil => intro _; rfl
  | cons a rest ih =>
    intro h
    have ha := h a (List.mem_cons_self _ _)
    by_cases hpa : p a = true
    · rw [List.find?_cons_of_pos _ hpa, List.find?_cons_of_pos _ (ha ▸ hpa)]
    · have hqa : ¬ q a = true := by rw [← ha]; exact hpa
      rw [List.find?_cons_of_neg _ hpa, List.find?_cons_of_neg _ hqa]
      exact ih (fun x hx => h x (List.mem_cons_of_mem _ hx))

theorem resolveNode_storage_step (E : List (List (List Nat) × List Nat))
    (hwf : wfEntries E) (h109 : capOK E) (junk : List DirEntry)
    (seg : List Nat) (rest : List (List Nat)) (q : List (List Nat)) (idx : Nat)
    (ent : DirEntry)
    (hget : (dirEntriesOf E ++ junk)[idx]? = some ent)
    (ht2 : ¬ ent.typ = 2) (ht15 : ent.typ = 1 ∨ ent.typ = 5)
    (hch : ent.child = firstChildVal E q)
    (ihok : ∀ s, s ∈ childrenOf E q →
      resolveNode (dirEntriesOf E ++ junk) rest (nodeIdx E s) =
        (navGo E rest s).map (nodeIdx E)) :
    resolveNode (dirEntriesOf E ++ junk) (seg :: rest) idx =
      ((match (childrenOf E q).find?
          (fun s => foldName (s.getLast?.getD []) == foldName seg) with
        | some s => navGo E rest s
        | Option.none => .error .streamNotFound) : Except CFErr (List (List Nat))).map
        (nodeIdx E) := by
  rw [resolveNode]
  simp only [hget]
  rw [if_neg ht2, if_pos ht15, hch, childWalk_children E hwf h109 junk q]
  simp only [Except.bind]
  have hpt : ∀ s ∈ childrenOf E q,
      ((fun k => match (dirEntriesOf E ++ junk)[k]? with
        | some ke => foldName ke.name == foldName seg
        | Option.none => false) ∘ (nodeIdx E)) s =
      (fun s => foldName (s.getLast?.getD []) == foldName seg) s := by
    intro s hs
    show (match (dirEntriesOf E ++ junk)[nodeIdx E s]? with
      | some ke => foldName ke.name == foldName seg
      | Option.none => false) = _
    rw [dir_getElem_node E junk (childrenOf_sub E hs)]
    show (foldName (mkEntry E s).name == foldName seg) = _
    rw [mkEntry_name]
  rw [List.find?_map, find?_congr_mem hpt]
  cases hf : (childrenOf E q).find?
      (fun s => foldName (s.getLast?.getD []) == foldName seg) with
  | none => rfl
  | some s => exact ihok s (List.mem_of_find?_eq_some hf)

theorem resolveNode_nav (E : List (List (List Nat) × List Nat))
    (hwf : wfEntries E) (h109 : capOK E) (junk : List DirEntry) :
    ∀ (rest : List (List Nat)) (q : List (List Nat)) (idx : Nat),
      (q = [] ∧ idx = 0 ∧ rest ≠ [] ∨ q ∈ allNodes E ∧ idx = nodeIdx E q) →
      resolveNode (dirEntriesOf E ++ junk) rest idx =
        (navGo E rest q).map (nodeIdx E) := by
  intro rest
  induction rest with
  | nil =>
    intro q idx hq
    rcases hq with ⟨_, _, hcon⟩ | ⟨hmem, hidx⟩
    · exact absurd rfl hcon
    · subst hidx
      rfl
  | cons seg rest ih =>
    intro q idx hq
    have hnav : navGo E (seg :: rest) q =
        (if isStreamNode E q then .error .typeMismatch
         else match (childrenOf E q).find?
            (fun s => foldName (s.getLast?.getD []) == foldName seg) with
          | some s => navGo E rest s
          | Option.none => .error .streamNotFound) := rfl
    rcases hq with ⟨hqnil, hidx, _⟩ | ⟨hmem, hidx⟩
    · subst hqnil
      subst hidx
      rw [hnav, if_neg (by simp [isStreamNode_nil E hwf])]
      exact resolveNode_storage_step E hwf h109 junk seg rest [] 0 (rootEntry E)
        (dir_getElem_root E junk)
        (by show ¬(5 : Nat) = 2; omega)
        (Or.inr (show (5 : Nat) = 5 from rfl))
        rfl
        (fun s hs => ih s (nodeIdx E s) (Or.inr ⟨childrenOf_sub E hs, rfl⟩))
    · subst hidx
      by_cases hst : isStreamNode E q = true
      · rw [hnav, if_pos hst]
        rw [resolveNode]
        simp only [dir_getElem_node E junk hmem]
        rw [if_pos (mkEntry_typ_stream hst)]
        rfl
      · have hst2 : isStreamNode E q = false := by
          cases hb : isStreamNode E q
          · rfl
          · exact absurd hb hst
        rw [hnav, if_neg (by simp [hst2])]
        exact resolveNode_storage_step E hwf h109 junk seg rest q (nodeIdx E q)
          (mkEntry E q) (dir_getElem_node E junk hmem)
          (by rw [mkEntry_typ_storage hst2]; omega)
          (Or.inl (mkEntry_typ_storage hst2))
          (mkEntry_child_storage hst2)
          (fun s hs => ih s (nodeIdx E s) (Or.inr ⟨childrenOf_sub E hs, rfl⟩))

theorem foldPath_take (l : List (List Nat)) (n : Nat) :
    foldPath (l.take n) = (foldPath l).take n := by
  rw [foldPath, foldPath, List.map_take]

theorem strictPref_of_key {a b : List (List Nat)}
    (hlen : a.length < b.length)
    (hkey : foldPath (b.take a.length) = foldPath a) :
    isStrictFoldPref a b = true := by
  rw [isStrictFoldPref]
  simp [hlen, hkey]

theorem key_of_strictPref {a b : List (List Nat)}
    (h : isStrictFoldPref a b = true) :
    a.length < b.length ∧ foldPath (b.take a.length) = foldPath a := by
  rw [isStrictFoldPref] at h
  simpa using h

theorem not_stream_of_proper (E : List (List (List Nat) × List Nat))
    (hwf : wfEntries E) {q : List (List Nat)}
    {p : List (List Nat) × List Nat} (hp : p ∈ E)
    {w : Nat} (hw : q.length < w) (hwp : w ≤ p.1.length)
    (hpref : foldPath (p.1.take q.length) = foldPath q) :
    isStreamNode E q = false := by
  by_contra hcon
  have hst : isStreamNode E q = true := by
    cases hb : isStreamNode E q
    · exact absurd hb hcon
    · rfl
  rw [isStreamNode] at hst
  obtain ⟨e, hemem, hep⟩ := List.any_eq_true.mp hst
  have hfq : foldPath e.1 = foldPath q := by simpa using hep
  have hlen_e : e.1.length = q.length := by
    rw [← foldPath_length e.1, hfq, foldPath_length]
  have hW3 := hwf.2.2 e hemem p hp
  have hsp : isStrictFoldPref e.1 p.1 = true := by
    apply strictPref_of_key
    · omega
    · rw [hlen_e, hpref, hfq]
  rw [hW3] at hsp
  cases hsp

theorem key_node_exists (E : List (List (List Nat) × List Nat))
    {e : List (List Nat) × List Nat} (he : e ∈ E)
    {j : Nat} (h1 : 1 ≤ j) (h2 : j ≤ e.1.length) :
    ∃ r, r ∈ allNodes E ∧ foldPath r = foldPath (e.1.take j) := by
  have hpre : e.1.take j ∈ allPrefixes E := by
    rw [allPrefixes]
    apply List.mem_flatMap.mpr
    refine ⟨e, he, ?_⟩
    rw [prefixesOf]
    apply List.mem_map.mpr
    exact ⟨j - 1, List.mem_range.mpr (by omega), by congr 1; omega⟩
  exact allNodes_cover E hpre

theorem child_of_key (E : List (List (List Nat) × List Nat))
    {q s : List (List Nat)} {x : List Nat} (hs : s ∈ allNodes E)
    (hkey : foldPath s = foldPath q ++ [x]) : s ∈ childrenOf E q := by
  rw [childrenOf]
  apply List.mem_filter.mpr
  refine ⟨hs, ?_⟩
  have hlen : s.length = q.length + 1 := by
    have hl := congrArg List.length hkey
    rw [foldPath_length, List.length_append, foldPath_length] at hl
    simpa using hl
  have hpref : foldPath (s.take q.length) = foldPath q := by
    rw [foldPath_take, hkey]
    rw [show q.length = (foldPath q).length from (foldPath_length q).symm]
    exact List.take_left _ _
  simp [hlen, hpref]

theorem children_find_some (E : List (List (List Nat) × List Nat))
    {q s : List (List Nat)} {seg : List Nat}
    (hs : s ∈ childrenOf E q)
    (hname : foldName (s.getLast?.getD []) = foldName seg) :
    (childrenOf E q).find?
      (fun s2 => foldName (s2.getLast?.getD []) == foldName seg) = some s := by
  apply find?_eq_of_unique hs (by simp [hname])
  intro y hy hpy
  have hky := childrenOf_key E hy
  have hks := childrenOf_key E hs
  have hyname : foldName (y.getLast?.getD []) = foldName seg := by
    simpa using hpy
  have hkeq : foldPath y = foldPath s := by
    rw [hky, hks, hyname, hname]
  exact allNodes_inj E (childrenOf_sub E hy) (childrenOf_sub E hs) hkeq

theorem take_append_cons {α} : ∀ (a : List α) (x : α) (y : List α),
    (a ++ x :: y).take (a.length + 1) = a ++ [x] := by
  intro a
  induction a with
  | nil => intro x y; simp
  | cons h t ih =>
    intro x y
    simp only [List.cons_append, List.length_cons, List.take_succ_cons]
    rw [ih]

theorem navGo_ok_of_key (E : List (List (List Nat) × List Nat))
    (hwf : wfEntries E) :
    ∀ (rest q r : List (List Nat)),
      (q = [] ∨ q ∈ allNodes E) → r ∈ allNodes E →
      foldPath r = foldPath q ++ foldPath rest →
      navGo E rest q = .ok r := by
  intro rest
  induction rest with
  | nil =>
    intro q r hq hr hkey
    rw [show foldPath ([] : List (List Nat)) = [] from rfl, List.append_nil] at hkey
    rcases hq with h | h
    · exfalso
      rw [h] at hkey
      have hne := allNodes_ne_nil E hr
      apply hne
      apply List.eq_nil_of_length_eq_zero
      rw [← foldPath_length r, hkey]
      rfl
    · show Except.ok q = .ok r
      rw [allNodes_inj E hr h hkey]
  | cons seg rest2 ih =>
    intro q r hq hr hkey
    rw [show foldPath (seg :: rest2) = foldName seg :: foldPath rest2 from rfl]
      at hkey
    obtain ⟨p, hp, i, hip, hre⟩ := allNodes_mem E hr
    have hrlen : r.length = i + 1 := by
      rw [hre, List.length_take]
      omega
    have hrq : r.length = q.length + 1 + rest2.length := by
      rw [← foldPath_length r, hkey]
      simp only [List.length_cons, List.length_append, foldPath_length]
      omega
    have hql : q.length + 1 ≤ i + 1 := by omega
    have htr : ∀ n, n ≤ i + 1 → r.take n = p.1.take n := by
      intro n hn
      rw [hre, List.take_take, Nat.min_eq_left hn]
    have hqs : isStreamNode E q = false := by
      rcases hq with h | h
      · rw [h]
        exact isStreamNode_nil E hwf
      · apply not_stream_of_proper E hwf hp
          (show q.length < q.length + 1 from by omega)
          (show q.length + 1 ≤ p.1.length from by omega)
        rw [← htr q.length (by omega), foldPath_take, hkey]
        rw [show q.length = (foldPath q).length from (foldPath_length q).symm]
        exact List.take_left _ _
    obtain ⟨s, hsmem, hskey⟩ := key_node_exists E hp
      (show 1 ≤ q.length + 1 from by omega)
      (show q.length + 1 ≤ p.1.length from by omega)
    have hskey2 : foldPath s = foldPath q ++ [foldName seg] := by
      rw [hskey, ← htr (q.length + 1) hql, foldPath_take, hkey]
      rw [show q.length + 1 = (foldPath q).length + 1 from by rw [foldPath_length]]
      exact take_append_cons _ _ _
    have hchild : s ∈ childrenOf E q := child_of_key E hsmem hskey2
    have hlast : foldName (s.getLast?.getD []) = foldName seg := by
      have hck := childrenOf_key E hchild
      have hcc := hck.symm.trans hskey2
      have h2 := List.append_cancel_left hcc
      simpa using h2
    have hnav : navGo E (seg :: rest2) q =
        (if isStreamNode E q then .error .typeMismatch
         else match (childrenOf E q).find?
            (fun s2 => foldName (s2.getLast?.getD []) == foldName seg) with
          | some s2 => navGo E rest2 s2
          | Option.none => .error .streamNotFound) := rfl
    rw [hnav, if_neg (by simp [hqs]), children_find_some E hchild hlast]
    exact ih s r (Or.inr hsmem) hr (by rw [hskey2, hkey]; simp)

theorem navGo_notFound (E : List (List (List Nat) × List Nat))
    (hwf : wfEntries E) (P : List (List Nat)) (hPne : P ≠ [])
    (hA : ∀ e ∈ E, isFoldPref P e.1 = false)
    (hB : ∀ e ∈ E, isStrictFoldPref e.1 P = false) :
    ∀ (rest q : List (List Nat)),
      (q = [] ∨ q ∈ allNodes E) →
      foldPath q ++ foldPath rest = foldPath P →
      navGo E rest q = .error .streamNotFound := by
  intro rest
  induction rest with
  | nil =>
    intro q hq hkey
    exfalso
    rw [show foldPath ([] : List (List Nat)) = [] from rfl, List.append_nil]
      at hkey
    rcases hq with h | h
    · rw [h] at hkey
      apply hPne
      apply List.eq_nil_of_length_eq_zero
      rw [← foldPath_length P, ← hkey]
      rfl
    · obtain ⟨p, hp, i, hip, hqe⟩ := allNodes_mem E h
      have hql : q.length = i + 1 := by
        rw [hqe, List.length_take]
        omega
      have hPl : P.length = i + 1 := by
        rw [← foldPath_length P, ← hkey, foldPath_length, hql]
      have hApre := hA p hp
      have hyes : isFoldPref P p.1 = true := by
        rw [isFoldPref]
        have hle : P.length ≤ p.1.length := by omega
        have hfp : foldPath (p.1.take P.length) = foldPath P := by
          rw [hPl, ← hqe, hkey]
        simp [hle, hfp]
      rw [hApre] at hyes
      cases hyes
  | cons seg rest2 ih =>
    intro q hq hkey
    have hqs : isStreamNode E q = false := by
      rcases hq with h | h
      · rw [h]
        exact isStreamNode_nil E hwf
      · by_contra hcon
        have hst : isStreamNode E q = true := by
          cases hb : isStreamNode E q
          · exact absurd hb hcon
          · rfl
        rw [isStreamNode] at hst
        obtain ⟨e, hemem, hep⟩ := List.any_eq_true.mp hst
        have hfq : foldPath e.1 = foldPath q := by simpa using hep
        have hBe := hB e hemem
        have hlq : e.1.length = q.length := by
          rw [← foldPath_length e.1, hfq, foldPath_length]
        have hPlen : P.length = q.length + rest2.length + 1 := by
          rw [← foldPath_length P, ← hkey]
          simp only [List.length_append, foldPath_length, List.length_cons]
          omega
        have hsp : isStrictFoldPref e.1 P = true := by
          apply strictPref_of_key
          · omega
          · rw [hlq]
            have hpq : foldPath (P.take q.length) = foldPath q := by
              rw [foldPath_take, ← hkey]
              rw [show q.length = (foldPath q).length from (foldPath_length q).symm]
              exact List.take_left _ _
            rw [hpq, hfq]
        rw [hBe] at hsp
        cases hsp
    have hnav : navGo E (seg :: rest2) q =
        (if isStreamNode E q then .error .typeMismatch
         else match (childrenOf E q).find?
            (fun s2 => foldName (s2.getLast?.getD []) == foldName seg) with
          | some s2 => navGo E rest2 s2
          | Option.none => .error .streamNotFound) := rfl
    rw [hnav, if_neg (by simp [hqs])]
    cases hf : (childrenOf E q).find?
        (fun s2 => foldName (s2.getLast?.getD []) == foldName seg) with
    | none => rfl
    | some s =>
      have hsmem := List.mem_of_find?_eq_some hf
      have hpred := List.find?_some hf
      have hsname : foldName (s.getLast?.getD []) = foldName seg := by
        simpa using hpred
      have hskey : foldPath s = foldPath q ++ [foldName seg] := by
        rw [childrenOf_key E hsmem, hsname]
      exact ih s (Or.inr (childrenOf_sub E hsmem))
        (by rw [hskey, ← hkey]; simp [foldPath])

theorem navGo_typeMismatch (E : List (List (List Nat) × List Nat))
    (hwf : wfEntries E) :
    ∀ (rest q : List (List Nat)) (m : Nat) (e : List (List Nat) × List Nat),
      e ∈ E → (q = [] ∨ q ∈ allNodes E) →
      m < rest.length →
      foldPath e.1 = foldPath q ++ foldPath (rest.take m) →
      navGo E rest q = .error .typeMismatch := by
  intro rest
  induction rest with
  | nil =>
    intro q m e he hq hm hkey
    simp at hm
  | cons seg rest2 ih =>
    intro q m e he hq hm hkey
    by_cases hst : isStreamNode E q = true
    · have hnav : navGo E (seg :: rest2) q =
          (if isStreamNode E q then .error .typeMismatch
           else match (childrenOf E q).find?
              (fun s2 => foldName (s2.getLast?.getD []) == foldName seg) with
            | some s2 => navGo E rest2 s2
            | Option.none => .error .streamNotFound) := rfl
      rw [hnav, if_pos hst]
    · have hqs : isStreamNode E q = false := by
        cases hb : isStreamNode E q
        · rfl
        · exact absurd hb hst
      cases m with
      | zero =>
        exfalso
        rw [show (seg :: rest2).take 0 = [] from rfl] at hkey
        rw [show foldPath ([] : List (List Nat)) = [] from rfl,
          List.append_nil] at hkey
        have hyes : isStreamNode E q = true := by
          rw [isStreamNode]
          apply List.any_eq_true.mpr
          exact ⟨e, he, by simp [hkey]⟩
        rw [hqs] at hyes
        cases hyes
      | succ m2 =>
        have hkey2 : foldPath e.1 =
            foldPath q ++ (foldName seg :: foldPath (rest2.take m2)) := hkey
        have hel : e.1.length = q.length + 1 + (rest2.take m2).length := by
          rw [← foldPath_length e.1, hkey2]
          simp only [List.length_append, List.length_cons, foldPath_length]
          omega
        obtain ⟨s, hsmem, hskey⟩ := key_node_exists E he
          (show 1 ≤ q.length + 1 from by omega)
          (show q.length + 1 ≤ e.1.length from by omega)
        have hskey2 : foldPath s = foldPath q ++ [foldName seg] := by
          rw [hskey, foldPath_take, hkey2]
          rw [show q.length + 1 = (foldPath q).length + 1 from
            by rw [foldPath_length]]
          exact take_append_cons _ _ _
        have hchild := child_of_key E hsmem hskey2
        have hlast : foldName (s.getLast?.getD []) = foldName seg := by
          have hck := childrenOf_key E hchild
          have hcc := hck.symm.trans hskey2
          have h2 := List.append_cancel_left hcc
          simpa using h2
        have hnav : navGo E (seg :: rest2) q =
            (if isStreamNode E q then .error .typeMismatch
             else match (childrenOf E q).find?
                (fun s2 => foldName (s2.getLast?.getD []) == foldName seg) with
              | some s2 => navGo E rest2 s2
              | Option.none => .error .streamNotFound) := rfl
        rw [hnav, if_neg (by simp [hqs]), children_find_some E hchild hlast]
        exact ih s m2 e he (Or.inr hsmem) (by simp at hm ⊢; omega)
          (by rw [hskey2, hkey2]; simp)

theorem miniBytes_length (E : List (List (List Nat) × List Nat)) :
    (miniBytes E).length = 64 * totalMini E := by
  rw [miniBytes, flatten_length_uniform (miniChunks_uniform E), miniChunks_length]

theorem readStream_flatLookup (E : List (List (List Nat) × List Nat))
    (hwf : wfEntries E) (h109 : capOK E) :
    ∀ p, readStream (blobOf E) p = flatLookup E p := by
  intro p
  obtain ⟨junk, hdir⟩ := readDir_blobOf E hwf h109
  rw [readStream, parseHeader_blobOf E h109]
  simp only [Except.bind]
  rw [readFat_blobOf E h109, hdir]
  simp only [Except.bind]
  rw [readMiniFat_blobOf E h109]
  simp only [Except.bind]
  by_cases hp : p = []
  · rw [if_pos hp, flatLookup, if_pos hp]
  · rw [if_neg hp, flatLookup, if_neg hp]
    have hres := resolveNode_nav E hwf h109 junk p [] 0 (Or.inl ⟨rfl, rfl, hp⟩)
    rw [hres]
    cases hfind : E.find? (fun e => foldPath e.1 == foldPath p) with
    | some e =>
      have hemem := List.mem_of_find?_eq_some hfind
      have hep : foldPath e.1 = foldPath p := by
        have := List.find?_some hfind
        simpa using this
      have hene : e.1 ≠ [] := (hwf.1 e hemem).1
      obtain ⟨r, hrmem, hrkey⟩ := key_node_exists E hemem
        (show 1 ≤ e.1.length from by
          have := List.length_pos.mpr hene
          omega)
        (Nat.le_refl _)
      have hrkey2 : foldPath r = foldPath p := by
        rw [hrkey, List.take_length, hep]
      have hnav := navGo_ok_of_key E hwf p [] r (Or.inl rfl) hrmem
        (by rw [hrkey2]; simp [foldPath])
      rw [hnav]
      simp only [Except.map, Except.bind]
      simp only [dir_getElem_node E junk hrmem]
      have hstream : isStreamNode E r = true := by
        rw [isStreamNode]
        apply List.any_eq_true.mpr
        exact ⟨e, hemem, by simp [hep, hrkey2]⟩
      rw [if_neg (by simp [mkEntry_typ_stream hstream])]
      have hbytes : bytesOfNode E r = e.2 := by
        rw [bytesOfNode]
        have hfind2 : E.find? (fun e2 => foldPath e2.1 == foldPath r) = some e := by
          rw [find?_congr_mem (fun x _ => by rw [hrkey2])]
          exact hfind
        rw [hfind2]
        rfl
      by_cases hbig : (bytesOfNode E r).length < 4096
      · rw [if_pos (by rw [mkEntry_size E hstream]; exact hbig)]
        simp only [dir_getElem_root E junk]
        have hrmini : r ∈ miniNodes E := by
          rw [miniNodes]
          refine List.mem_filter.mpr ⟨hrmem, by simp [hstream]; omega⟩
        by_cases hmb : (miniBytes E).length = 0
        · have hL0 : (bytesOfNode E r).length = 0 := by
            by_contra hc
            have hk : 1 ≤ miniCount E r := by
              rw [miniCount]
              exact ceilDiv_pos (by omega) (by omega)
            have h1 := miniStart_add_le E hrmini
            have hmbl := miniBytes_length E
            omega
          have hrc : readChainData (blobOf E) (fatVals E) (rootEntry E).start
              (rootEntry E).size = .ok [] := by
            rw [readChainData, if_pos (show (rootEntry E).size = 0 from hmb)]
          rw [hrc]
          simp only [Except.bind]
          rw [readMiniData, if_pos (by rw [mkEntry_size E hstream]; exact hL0)]
          rw [← hbytes, List.eq_nil_of_length_eq_zero hL0]
        · have hrc : readChainData (blobOf E) (fatVals E) (rootEntry E).start
              (rootEntry E).size = .ok (miniBytes E) := by
            have hstart : (rootEntry E).start = miniStreamBase E := by
              show (if (miniBytes E).length = 0 then ENDOFCHAINV else nBig E) =
                miniStreamBase E
              rw [if_neg hmb, miniStreamBase]
            have hsize : (rootEntry E).size = (miniBytes E).length := rfl
            rw [hstart, hsize]
            exact readChainData_ms E h109 hmb
          rw [hrc]
          simp only [Except.bind]
          by_cases hL0 : (bytesOfNode E r).length = 0
          · rw [readMiniData, if_pos (by rw [mkEntry_size E hstream]; exact hL0)]
            rw [← hbytes, List.eq_nil_of_length_eq_zero hL0]
          · have hstart2 : (mkEntry E r).start = miniStartOf E r := by
              simp only [mkEntry]
              rw [if_pos hstream]
              dsimp only
              rw [if_neg hL0, if_neg (by omega)]
            rw [hstart2, mkEntry_size E hstream]
            rw [show Except.ok e.2 = Except.ok (bytesOfNode E r) from by rw [hbytes]]
            exact readMiniData_node E hrmini
      · rw [if_neg (by rw [mkEntry_size E hstream]; exact hbig)]
        have hrbig : r ∈ bigNodes E := by
          rw [bigNodes]
          refine List.mem_filter.mpr ⟨hrmem, by simp [hstream]; omega⟩
        have hstart2 : (mkEntry E r).start = bigStartOf E r := by
          simp only [mkEntry]
          rw [if_pos hstream]
          dsimp only
          rw [if_neg (by omega), if_pos (by omega)]
        rw [hstart2, mkEntry_size E hstream]
        rw [show Except.ok e.2 = Except.ok (bytesOfNode E r) from by rw [hbytes]]
        exact readChainData_big E h109 hrbig (by omega)
    | none =>
      have hnex : ∀ e ∈ E, ¬ (foldPath e.1 = foldPath p) := by
        intro e he
        have := List.find?_eq_none.mp hfind e he
        simpa using this
      by_cases hC2 : E.any (fun e => isStrictFoldPref p e.1) = true
      · rw [if_pos hC2]
        obtain ⟨e, hemem, hsp⟩ := List.any_eq_true.mp hC2
        obtain ⟨hlt, hpr⟩ := key_of_strictPref hsp
        obtain ⟨r, hrmem, hrkey⟩ := key_node_exists E hemem
          (show 1 ≤ p.length from by
            have := List.length_pos.mpr hp
            omega)
          (by omega)
        have hrkey2 : foldPath r = foldPath p := by rw [hrkey, hpr]
        have hnav := navGo_ok_of_key E hwf p [] r (Or.inl rfl) hrmem
          (by rw [hrkey2]; simp [foldPath])
        rw [hnav]
        simp only [Except.map, Except.bind]
        simp only [dir_getElem_node E junk hrmem]
        have hst : isStreamNode E r = false := by
          rw [isStreamNode]
          apply List.any_eq_false.mpr
          intro e2 he2
          have hne2 := hnex e2 he2
          simp only [beq_iff_eq, hrkey2]
          simpa using hne2
        rw [if_pos (by rw [mkEntry_typ_storage hst]; omega)]
      · have hC2f : E.any (fun e => isStrictFoldPref p e.1) = false := by
          cases hb : E.any (fun e => isStrictFoldPref p e.1)
          · rfl
          · exact absurd hb hC2
        rw [if_neg (by simp [hC2f])]
        by_cases hC3 : E.any (fun e => isStrictFoldPref e.1 p) = true
        · rw [if_pos hC3]
          obtain ⟨e, hemem, hsp⟩ := List.any_eq_true.mp hC3
          obtain ⟨hlt, hpr⟩ := key_of_strictPref hsp
          have hnav := navGo_typeMismatch E hwf p [] e.1.length e hemem
            (Or.inl rfl) hlt (by simpa using hpr.symm)
          rw [hnav]
          rfl
        · have hC3f : E.any (fun e => isStrictFoldPref e.1 p) = false := by
            cases hb : E.any (fun e => isStrictFoldPref e.1 p)
            · rfl
            · exact absurd hb hC3
          rw [if_neg (by simp [hC3f])]
          have hA : ∀ e ∈ E, isFoldPref p e.1 = false := by
            intro e he
            cases hb : isFoldPref p e.1
            · rfl
            · exfalso
              rw [isFoldPref] at hb
              simp only [Bool.and_eq_true, decide_eq_true_eq, beq_iff_eq] at hb
              obtain ⟨h1, h2⟩ := hb
              by_cases heq : p.length = e.1.length
              · apply hnex e he
                rw [heq, List.take_length] at h2
                exact h2
              · have hno := List.any_eq_false.mp hC2f e he
                exact hno (strictPref_of_key (by omega) h2)
          have hB : ∀ e ∈ E, isStrictFoldPref e.1 p = false := by
            intro e he
            cases hb : isStrictFoldPref e.1 p
            · rfl
            · exact absurd hb (by
                have := List.any_eq_false.mp hC3f e he
                simpa using this)
          have hnav := navGo_notFound E hwf p hp hA hB p [] (Or.inl rfl)
            (by simp [foldPath])
          rw [hnav]
          rfl

theorem readEntryType_flatType (E : List (List (List Nat) × List Nat))
    (hwf : wfEntries E) (h109 : capOK E) :
    ∀ p, readEntryType (blobOf E) p = flatType E p := by
  intro p
  obtain ⟨junk, hdir⟩ := readDir_blobOf E hwf h109
  rw [readEntryType, parseHeader_blobOf E h109]
  simp only [Except.bind]
  rw [readFat_blobOf E h109, hdir]
  simp only [Except.bind]
  by_cases hp : p = []
  · subst hp
    rw [show resolveNode (dirEntriesOf E ++ junk) [] 0 = .ok 0 from rfl]
    simp only [Except.bind]
    simp only [dir_getElem_root E junk]
    rw [flatType, if_pos rfl]
    rfl
  · rw [flatType, if_neg hp]
    have hres := resolveNode_nav E hwf h109 junk p [] 0 (Or.inl ⟨rfl, rfl, hp⟩)
    rw [hres]
    cases hfind : E.find? (fun e => foldPath e.1 == foldPath p) with
    | some e =>
      have hemem := List.mem_of_find?_eq_some hfind
      have hep : foldPath e.1 = foldPath p := by
        have := List.find?_some hfind
        simpa using this
      have hene : e.1 ≠ [] := (hwf.1 e hemem).1
      obtain ⟨r, hrmem, hrkey⟩ := key_node_exists E hemem
        (show 1 ≤ e.1.length from by
          have := List.length_pos.mpr hene
          omega)
        (Nat.le_refl _)
      have hrkey2 : foldPath r = foldPath p := by
        rw [hrkey, List.take_length, hep]
      have hnav := navGo_ok_of_key E hwf p [] r (Or.inl rfl) hrmem
        (by rw [hrkey2]; simp [foldPath])
      rw [hnav]
      simp only [Except.map, Except.bind]
      simp only [dir_getElem_node E junk hrmem]
      have hstream : isStreamNode E r = true := by
        rw [isStreamNode]
        apply List.any_eq_true.mpr
        exact ⟨e, hemem, by simp [hep, hrkey2]⟩
      rw [mkEntry_typ_stream hstream]
    | none =>
      have hnex : ∀ e ∈ E, ¬ (foldPath e.1 = foldPath p) := by
        intro e he
        have := List.find?_eq_none.mp hfind e he
        simpa using this
      by_cases hC2 : E.any (fun e => isStrictFoldPref p e.1) = true
      · rw [if_pos hC2]
        obtain ⟨e, hemem, hsp⟩ := List.any_eq_true.mp hC2
        obtain ⟨hlt, hpr⟩ := key_of_strictPref hsp
        obtain ⟨r, hrmem, hrkey⟩ := key_node_exists E hemem
          (show 1 ≤ p.length from by
            have := List.length_pos.mpr hp
            omega)
          (by omega)
        have hrkey2 : foldPath r = foldPath p := by rw [hrkey, hpr]
        have hnav := navGo_ok_of_key E hwf p [] r (Or.inl rfl) hrmem
          (by rw [hrkey2]; simp [foldPath])
        rw [hnav]
        simp only [Except.map, Except.bind]
        simp only [dir_getElem_node E junk hrmem]
        have hst : isStreamNode E r = false := by
          rw [isStreamNode]
          apply List.any_eq_false.mpr
          intro e2 he2
          have hne2 := hnex e2 he2
          simp only [beq_iff_eq, hrkey2]
          simpa using hne2
        rw [mkEntry_typ_storage hst]
      · have hC2f : E.any (fun e => isStrictFoldPref p e.1) = false := by
          cases hb : E.any (fun e => isStrictFoldPref p e.1)
          · rfl
          · exact absurd hb hC2
        rw [if_neg (by simp [hC2f])]
        by_cases hC3 : E.any (fun e => isStrictFoldPref e.1 p) = true
        · rw [if_pos hC3]
          obtain ⟨e, hemem, hsp⟩ := List.any_eq_true.mp hC3
          obtain ⟨hlt, hpr⟩ := key_of_strictPref hsp
          have hnav := navGo_typeMismatch E hwf p [] e.1.length e hemem
            (Or.inl rfl) hlt (by simpa using hpr.symm)
          rw [hnav]
          rfl
        · have hC3f : E.any (fun e => isStrictFoldPref e.1 p) = false := by
            cases hb : E.any (fun e => isStrictFoldPref e.1 p)
            · rfl
            · exact absurd hb hC3
          rw [if_neg (by simp [hC3f])]
          have hA : ∀ e ∈ E, isFoldPref p e.1 = false := by
            intro e he
            cases hb : isFoldPref p e.1
            · rfl
            · exfalso
              rw [isFoldPref] at hb
              simp only [Bool.and_eq_true, decide_eq_true_eq, beq_iff_eq] at hb
              obtain ⟨h1, h2⟩ := hb
              by_cases heq : p.length = e.1.length
              · apply hnex e he
                rw [heq, List.take_length] at h2
                exact h2
              · have hno := List.any_eq_false.mp hC2f e he
                exact hno (strictPref_of_key (by omega) h2)
          have hB : ∀ e ∈ E, isStrictFoldPref e.1 p = false := by
            intro e he
            cases hb : isStrictFoldPref e.1 p
            · rfl
            · exact absurd hb (by
                have := List.any_eq_false.mp hC3f e he
                simpa using this)
          have hnav := navGo_notFound E hwf p hp hA hB p [] (Or.inl rfl)
            (by simp [foldPath])
          rw [hnav]
          rfl

theorem foldPref_of_strict {a b : List (List Nat)}
    (h : isStrictFoldPref a b = true) : isFoldPref a b = true := by
  rw [isStrictFoldPref] at h
  rw [isFoldPref]
  simp only [Bool.and_eq_true, decide_eq_true_eq] at h ⊢
  exact ⟨by omega, h.2⟩

theorem foldPref_of_key_eq {a b : List (List Nat)}
    (h : foldPath b = foldPath a) : isFoldPref a b = true := by
  have hlen : a.length = b.length := by
    rw [← foldPath_length a, ← foldPath_length b, h]
  rw [isFoldPref]
  simp only [Bool.and_eq_true, decide_eq_true_eq]
  refine ⟨by omega, ?_⟩
  rw [show b.take a.length = b from by rw [hlen, List.take_length]]
  simp [h]

theorem flatLookup_entry (E : List (List (List Nat) × List Nat))
    (hwf : wfEntries E) : ∀ e ∈ E, flatLookup E e.1 = .ok e.2 := by
  intro e he
  rw [flatLookup, if_neg ((hwf.1 e he).1)]
  have hfind : E.find? (fun e2 => foldPath e2.1 == foldPath e.1) = some e := by
    apply find?_eq_of_unique he (by simp)
    intro y hy hpy
    have hky : foldPath y.1 = foldPath e.1 := by simpa using hpy
    exact pairwise_key_unique hwf.2.1 y hy e he hky
  rw [hfind]

theorem flatType_entry (E : List (List (List Nat) × List Nat))
    (hwf : wfEntries E) : ∀ e ∈ E, flatType E e.1 = .ok 2 := by
  intro e he
  rw [flatType, if_neg ((hwf.1 e he).1)]
  have hfind : E.find? (fun e2 => foldPath e2.1 == foldPath e.1) = some e := by
    apply find?_eq_of_unique he (by simp)
    intro y hy hpy
    have hky : foldPath y.1 = foldPath e.1 := by simpa using hpy
    exact pairwise_key_unique hwf.2.1 y hy e he hky
  rw [hfind]

theorem flatType_prefix (E : List (List (List Nat) × List Nat))
    (hwf : wfEntries E) :
    ∀ e ∈ E, ∀ j, 0 < j → j < e.1.length → flatType E (e.1.take j) = .ok 1 := by
  intro e he j hj0 hjl
  have htl : (e.1.take j).length = j := by
    rw [List.length_take]
    omega
  rw [flatType, if_neg (by
    intro hcon
    rw [hcon] at htl
    simp at htl
    omega)]
  have hfind : E.find? (fun e2 => foldPath e2.1 == foldPath (e.1.take j)) =
      none := by
    apply List.find?_eq_none.mpr
    intro e2 he2
    simp only [beq_iff_eq]
    intro hkey
    have hl2 : e2.1.length = j := by
      rw [← foldPath_length e2.1, hkey, foldPath_length, htl]
    have hW3 := hwf.2.2 e2 he2 e he
    have hyes : isStrictFoldPref e2.1 e.1 = true := by
      apply strictPref_of_key (by omega)
      rw [hl2, hkey]
    rw [hW3] at hyes
    cases hyes
  rw [hfind]
  have hany : E.any (fun e2 => isStrictFoldPref (e.1.take j) e2.1) = true := by
    apply List.any_eq_true.mpr
    refine ⟨e, he, ?_⟩
    apply strictPref_of_key
    · omega
    · rw [htl]
  rw [if_pos hany]

/-- Claim C1: for every well-formed tree of (path, bytes) stream contents
accepted by the CompoundFileWriter, reopening the produced byte blob with
the CompoundFileReader yields byte-identical stream contents at every path
of the tree, every stream entry reads back with the stream type, and every
implied intermediate storage reads back with the storage type. -/
theorem compound_file_roundtrip (E : List (List (List Nat) × List Nat))
    (blob : List Nat) (hwf : wfEntries E) (hw : writeCF E = .ok blob) :
    (∀ e ∈ E, readStream blob e.1 = .ok e.2) ∧
    (∀ e ∈ E, readEntryType blob e.1 = .ok 2) ∧
    (∀ e ∈ E, ∀ j, 0 < j → j < e.1.length →
      readEntryType blob (e.1.take j) = .ok 1) := by
  rw [writeCF] at hw
  split_ifs at hw with h109
  · injection hw with hb
    subst hb
    refine ⟨?_, ?_, ?_⟩
    · intro e he
      rw [readStream_flatLookup E hwf h109]
      exact flatLookup_entry E hwf e he
    · intro e he
      rw [readEntryType_flatType E hwf h109]
      exact flatType_entry E hwf e he
    · intro e he j hj0 hjl
      rw [readEntryType_flatType E hwf h109]
      exact flatType_prefix E hwf e he j hj0 hjl

set_option maxRecDepth 40000 in
/-- Witness for claim C1: the two-stream tree with the stream b of three
bytes inside the storage a and the top-level singleton stream c is
well-formed, the writer accepts it, and the theorem yields byte-identical
reads and preserved entry types for it. -/
theorem compound_file_roundtrip_witness :
    wfEntries [([[97], [98]], [1, 2, 3]), ([[99]], [7])] ∧
    writeCF [([[97], [98]], [1, 2, 3]), ([[99]], [7])] =
      .ok (blobOf [([[97], [98]], [1, 2, 3]), ([[99]], [7])]) ∧
    ((∀ e ∈ [([[97], [98]], [1, 2, 3]), ([[99]], [7])],
        readStream (blobOf [([[97], [98]], [1, 2, 3]), ([[99]], [7])]) e.1 =
          .ok e.2) ∧
      (∀ e ∈ [([[97], [98]], [1, 2, 3]), ([[99]], [7])],
        readEntryType (blobOf [([[97], [98]], [1, 2, 3]), ([[99]], [7])]) e.1 =
          .ok 2) ∧
      (∀ e ∈ [([[97], [98]], [1, 2, 3]), ([[99]], [7])], ∀ j, 0 < j →
        j < e.1.length →
        readEntryType (blobOf [([[97], [98]], [1, 2, 3]), ([[99]], [7])])
          (e.1.take j) = .ok 1)) :=
  ⟨by decide, rfl,
    compound_file_roundtrip [([[97], [98]], [1, 2, 3]), ([[99]], [7])]
      (blobOf [([[97], [98]], [1, 2, 3]), ([[99]], [7])]) (by decide) rfl⟩

/-- Claim C7: readStream of a written file fails with StreamNotFound when a
path segment is absent — the queried nonempty path matches no stream of the
tree, is a prefix of none and extends none — and the failure leaves the
reader unaffected: every valid stream path of the same blob still reads
back its exact bytes when queried afterwards. -/
theorem readStream_missing_segment (E : List (List (List Nat) × List Nat))
    (blob : List Nat) (p : List (List Nat))
    (hwf : wfEntries E) (hw : writeCF E = .ok blob) (hne : p ≠ [])
    (habs : ∀ e ∈ E, isFoldPref p e.1 = false ∧ isFoldPref e.1 p = false) :
    readStream blob p = .error .streamNotFound ∧
    ∀ e ∈ E, readStream blob e.1 = .ok e.2 := by
  rw [writeCF] at hw
  split_ifs at hw with h109
  injection hw with hb
  subst hb
  constructor
  · rw [readStream_flatLookup E hwf h109, flatLookup, if_neg hne]
    have hfind : E.find? (fun e => foldPath e.1 == foldPath p) = none := by
      apply List.find?_eq_none.mpr
      intro e he
      simp only [beq_iff_eq]
      intro hkey
      exact absurd (foldPref_of_key_eq hkey) (by simp [(habs e he).1])
    rw [hfind]
    have hC2 : E.any (fun e => isStrictFoldPref p e.1) = false := by
      apply List.any_eq_false.mpr
      intro e he hcon
      exact absurd (foldPref_of_strict hcon) (by simp [(habs e he).1])
    rw [if_neg (by simp [hC2])]
    have hC3 : E.any (fun e => isStrictFoldPref e.1 p) = false := by
      apply List.any_eq_false.mpr
      intro e he hcon
      exact absurd (foldPref_of_strict hcon) (by simp [(habs e he).2])
    rw [if_neg (by simp [hC3])]
  · intro e he
    rw [readStream_flatLookup E hwf h109]
    exact flatLookup_entry E hwf e he

set_option maxRecDepth 40000 in
/-- Witness for claim C7: in the written file of the single two-byte
stream a, the absent path x fails with StreamNotFound, and the stream a
still reads back its exact bytes on the same blob afterwards. -/
theorem readStream_missing_segment_witness :
    wfEntries [([[97]], [5, 6])] ∧
    writeCF [([[97]], [5, 6])] = .ok (blobOf [([[97]], [5, 6])]) ∧
    ([[120]] : List (List Nat)) ≠ [] ∧
    (∀ e ∈ [([[97]], [5, 6])],
      isFoldPref [[120]] e.1 = false ∧ isFoldPref e.1 [[120]] = false) ∧
    (readStream (blobOf [([[97]], [5, 6])]) [[120]] =
        .error .streamNotFound ∧
      ∀ e ∈ [([[97]], [5, 6])],
        readStream (blobOf [([[97]], [5, 6])]) e.1 = .ok e.2) :=
  ⟨by decide, rfl, by decide, by decide,
    readStream_missing_segment [([[97]], [5, 6])] (blobOf [([[97]], [5, 6])])
      [[120]] (by decide) rfl (by decide) (by decide)⟩
